import Mathlib

/-!
# Object store fsck (`qfsobjstorefsck_main.cc`)

A shallow embedding of `KFS::ObjStoreFsck`: the ingest loop of `RunSelf`
that marks the blocks whose keys are listed on standard input, the scanner
`Next` that decides which files miss a block, the completion handler
`OpDone` of the path name requests, the value `RunSelf` returns and the exit
code of `Run`.

Conventions of the embedding.

* `CHUNKSIZE` is declared in a header that is not part of the translated
  file, so every definition takes it as a parameter; the theorems assume
  `0 < CHUNKSIZE` only.
* 64 bit signed fields are integers. The field `subcount1`, reached through
  `chunkcount()`, is used by this program only bit by bit or as a pointer, so
  it is kept as the natural number of its 64 bit pattern and every shift is
  reduced modulo `2 ^ 64`.
* Free store: the bit vectors made by `new BlocksBitmap` live in the list
  `heap`; the vector at position `k` has the address `k + 1`, the null
  pointer is `0`, and `new` appends to the list. Reading a bit through an
  address that is not in the list, or past the end of a vector, gives
  `false`, and writing there changes nothing.
* `DecIntParser::Parse` and `AppendChunkFileNameOrObjectStoreBlockKey` come
  from other translation units; the ingest loop takes them as the two fields
  of `KeyCodec`.
* Log statements are dropped; the log message of each `continue` of the
  ingest loop is kept as the `KeyResult` returned next to the state.
* Sums and products of 64 bit values (`-theVersion - 1 - minSTier`,
  `theMissingIdx * CHUNKSIZE`, the counters) are taken in the integers. For
  a negative version and a tier in `0 .. 255` the position
  `-theVersion - 1 - minSTier` lies in the 64 bit range. Division and
  remainder round towards zero, as `/` and `%` do on signed operands.
* `mKfsNetClient` is kept as the list `queue` of the file ids of the
  requests it holds; whether `Enqueue` accepts a request is an input of
  `Next`. The event loop is the list of events it delivers: a run is the
  scan `Next(0)` followed by completions of queued requests.
* The iterator `mLeafIter` is kept as the list of the leaves from the
  cursor on. `metatree.getPathname` comes from another translation unit and
  is a parameter of `Next`; it takes its argument by pointer to `const`.
* Of `RunSelf` before the ingest loop only the status of the start-up steps
  is kept, as the argument `theSetupStatus` of `RunSelfEnd`.
-/

namespace KFS

/-- Value of `MetaFattr::type`. -/
inductive FileType where
  | KFS_NONE
  | KFS_FILE
  | KFS_DIR
  deriving DecidableEq, Repr

/-- The attributes of `MetaFattr` that the program reads or writes. -/
structure MetaFattr where
  /-- File id, `id()`. -/
  id : Int
  /-- Entry type. -/
  type : FileType
  /-- Replication factor; `0` for object store files. -/
  numReplicas : Int
  /-- Declared size. -/
  filesize : Int
  /-- Position of the last block, `nextChunkOffset()`. -/
  nextChunkOffset : Int
  /-- Lowest storage tier. -/
  minSTier : Int
  /-- Highest storage tier. -/
  maxSTier : Int
  /-- The 64 bit pattern of `subcount1`, `chunkcount()`. -/
  chunkcount : Nat
  deriving DecidableEq, Repr

/-- A leaf of the metadata tree: a file attribute node (`KFS_FATTR`) or a
node of another kind (directory entry, chunk info). -/
inductive Meta where
  | fattr (f : MetaFattr)
  | other
  deriving DecidableEq, Repr

/-- The type `dynamic_bitset<>`; `size()` is the length. -/
abbrev BlocksBitmap := List Bool

/-- Errno values used by the program. -/
def ENOENT : Int := 2

/-- Errno value `EFAULT`. -/
def EFAULT : Int := 14

/-- Errno value `EINVAL`. -/
def EINVAL : Int := 22

/-- Width of `subcount1` in bits, `8 * sizeof(theFattr.subcount1)`. -/
def kBits : Int := 64

/-- The two external routines used to decode and to regenerate a key. -/
structure KeyCodec where
  /-- `DecIntParser::Parse(thePtr, theEndPtr - thePtr, theVal)`: on success
  the value and the text left after the number (the advanced `thePtr`). -/
  Parse : List Char → Option (Int × List Char)
  /-- `AppendChunkFileNameOrObjectStoreBlockKey(theExpectedKey, fsId, fid,
  id, version, tmp)`: the generated key, `none` when it returns false. -/
  AppendChunkFileNameOrObjectStoreBlockKey :
    Int → Int → Int → Int → Option (List Char)

/-- Which `continue` of the ingest loop a line took, or that it reached the
end of the loop body and set a bit. -/
inductive KeyResult where
  | emptyLine
  | malformed
  | generationFailure
  | invalidKey
  | noSuchFile
  | wrongType
  | replicated
  | zeroSize
  | badPosition
  | pastLastBlock
  | duplicate
  | marked
  deriving DecidableEq, Repr

/-- The state of a run: the metadata tree, the free store, and the members
of `ObjStoreFsck`. -/
structure ObjStoreFsck where
  /-- Leaves of `metatree`, in leaf order. -/
  metatree : List Meta
  /-- Bit vectors allocated so far. -/
  heap : List BlocksBitmap
  /-- The cursor `mLeafIter`: the leaves from the current one on. -/
  mLeafIter : List Meta
  mQueryFlag : Bool
  mLostCount : Int
  mError : Int
  mInFlightCnt : Int
  mMaxInFlightCnt : Int
  /-- Lines written to standard output, oldest first. -/
  cout : List String
  /-- File ids of the requests queued in `mKfsNetClient` and not yet
  completed, oldest first. -/
  queue : List Int
  /-- The local `theKeysCount` of `RunSelf`. -/
  theKeysCount : Int
  deriving DecidableEq, Repr

/-! ## The presence slot, the tree and the free store -/

/-- The function `HasBitmapSet`. -/
def HasBitmapSet (CHUNKSIZE : Int) (theFattr : MetaFattr) : Bool :=
  decide (kBits * CHUNKSIZE ≤ theFattr.nextChunkOffset)

/-- The function `GetBitmapPtr`: the slot read as an address. -/
def GetBitmapPtr (inFattr : MetaFattr) : Nat :=
  inFattr.chunkcount

/-- Look up a file attribute node by id, `metatree.getFattr(fid)`. -/
def getFattr : List Meta → Int → Option MetaFattr
  | [], _ => none
  | Meta.fattr f :: rest, fid => if f.id = fid then some f else getFattr rest fid
  | Meta.other :: rest, fid => getFattr rest fid

/-- Assignment to `chunkcount()` of the node that `getFattr` returns. -/
def setChunkcount : List Meta → Int → Nat → List Meta
  | [], _, _ => []
  | Meta.fattr f :: rest, fid, c =>
    if f.id = fid then Meta.fattr { f with chunkcount := c } :: rest
    else Meta.fattr f :: setChunkcount rest fid c
  | Meta.other :: rest, fid, c => Meta.other :: setChunkcount rest fid c

/-- The function `SetBitmapPtr`: store an address in the slot. -/
def SetBitmapPtr (tree : List Meta) (fid : Int) (inPtr : Nat) : List Meta :=
  setChunkcount tree fid inPtr

/-- The vector at an address; the empty vector for an address not in use. -/
def deref (heap : List BlocksBitmap) (thePtr : Nat) : BlocksBitmap :=
  if thePtr = 0 then [] else heap.getD (thePtr - 1) []

/-- Read `(*thePtr)[theIdx]`. -/
def bitmapTest (heap : List BlocksBitmap) (thePtr theIdx : Nat) : Bool :=
  (deref heap thePtr).getD theIdx false

/-- Write `(*thePtr)[theIdx] = true`. -/
def bitmapSet (heap : List BlocksBitmap) (thePtr theIdx : Nat) : List BlocksBitmap :=
  if thePtr = 0 then heap
  else heap.set (thePtr - 1) ((deref heap thePtr).set theIdx true)

/-- The mask `int64_t(1) << theIdx`, as a 64 bit pattern. -/
def bitOf (theIdx : Nat) : Nat :=
  (1 <<< theIdx) % 2 ^ 64

/-- End of the ingest loop body (the block after the comment "Chunk count
must be 0 for object store files"): record block `theIdx` of `theFattr`. -/
def markBlock (CHUNKSIZE : Int) (s : ObjStoreFsck) (theFattr : MetaFattr)
    (theIdx : Nat) : ObjStoreFsck × KeyResult :=
  if HasBitmapSet CHUNKSIZE theFattr then
    let thePtr := GetBitmapPtr theFattr
    if thePtr = 0 then
      let theNew := s.heap.length + 1
      let theHeap := s.heap ++
        [List.replicate (1 + Int.tdiv theFattr.nextChunkOffset CHUNKSIZE).toNat false]
      ({ s with
          metatree := SetBitmapPtr s.metatree theFattr.id theNew
          heap := bitmapSet theHeap theNew theIdx }, KeyResult.marked)
    else if bitmapTest s.heap thePtr theIdx then
      (s, KeyResult.duplicate)
    else
      ({ s with heap := bitmapSet s.heap thePtr theIdx }, KeyResult.marked)
  else
    let theBit := bitOf theIdx
    if theFattr.chunkcount &&& theBit ≠ 0 then
      (s, KeyResult.duplicate)
    else
      ({ s with
          metatree := setChunkcount s.metatree theFattr.id (theFattr.chunkcount ||| theBit) },
        KeyResult.marked)

/-! ## The ingest loop of `RunSelf` -/

/-- The decoding condition of the ingest loop: the file id and the version
of a key, `none` when the loop logs "malformed object store block key". -/
def parseKey (K : KeyCodec) (theBlockKey : List Char) : Option (Int × Int) :=
  match theBlockKey.dropWhile (fun c => c ≠ '.') with
  | [] => none
  | _ :: p1 =>
    if p1 = [] then none else
    match K.Parse p1 with
    | none => none
    | some (theFid, p2) =>
      if theFid < 0 then none else
      match p2 with
      | [] => none
      | c2 :: p3 =>
        if c2 ≠ '.' then none else
        if p3 = [] then none else
        match K.Parse p3 with
        | none => none
        | some (theVersion, p4) =>
          if 0 ≤ theVersion then none else
          match p4 with
          | [] => none
          | c4 :: _ => if c4 ≠ '.' then none else some (theFid, theVersion)

/-- The position a key addresses: `-theVersion - 1 - minSTier`. -/
def blockPos (theFattr : MetaFattr) (theVersion : Int) : Int :=
  -theVersion - 1 - theFattr.minSTier

/-- The checks of the ingest loop on a decoded key and the file it
addresses, from the type check to the mark. -/
def ingestKey (CHUNKSIZE : Int) (s : ObjStoreFsck) (theFattr : MetaFattr)
    (theVersion : Int) : ObjStoreFsck × KeyResult :=
  if theFattr.type ≠ FileType.KFS_FILE then (s, KeyResult.wrongType) else
  if theFattr.numReplicas ≠ 0 then (s, KeyResult.replicated) else
  if theFattr.filesize ≤ 0 then (s, KeyResult.zeroSize) else
  let thePos := blockPos theFattr theVersion
  if thePos < 0 ∨ Int.tmod thePos CHUNKSIZE ≠ 0 then (s, KeyResult.badPosition) else
  if theFattr.nextChunkOffset < thePos then (s, KeyResult.pastLastBlock) else
  let theIdx := (Int.tdiv thePos CHUNKSIZE).toNat
  markBlock CHUNKSIZE s theFattr theIdx

/-- One pass of the body of `while (getline(cin, theBlockKey))`. -/
def ingestLine (CHUNKSIZE : Int) (K : KeyCodec) (theFileSystemId : Int)
    (s : ObjStoreFsck) (theBlockKey : List Char) : ObjStoreFsck × KeyResult :=
  if theBlockKey = [] then (s, KeyResult.emptyLine) else
  let s1 := { s with theKeysCount := s.theKeysCount + 1 }
  match parseKey K theBlockKey with
  | none => (s1, KeyResult.malformed)
  | some (theFid, theVersion) =>
    match K.AppendChunkFileNameOrObjectStoreBlockKey
        theFileSystemId theFid theFid theVersion with
    | none => (s1, KeyResult.generationFailure)
    | some theExpectedKey =>
      if theExpectedKey ≠ theBlockKey then (s1, KeyResult.invalidKey) else
      match getFattr s1.metatree theFid with
      | none => (s1, KeyResult.noSuchFile)
      | some theFattr => ingestKey CHUNKSIZE s1 theFattr theVersion

/-- The whole ingest loop over the lines of standard input. -/
def ingest (CHUNKSIZE : Int) (K : KeyCodec) (theFileSystemId : Int)
    (s : ObjStoreFsck) (theLines : List (List Char)) : ObjStoreFsck :=
  theLines.foldl (fun st l => (ingestLine CHUNKSIZE K theFileSystemId st l).1) s

/-! ## The scanner `Next` and the completion handler `OpDone` -/

/-- The scan of the inline mask in `Next`: from `theMissingIdx` on, with
`theBit` the mask of that index, the first index past `theEnd` or with a
clear bit. -/
def inlineScan (theBits : Nat) (theEnd : Int) (theMissingIdx : Nat) (theBit : Nat) : Nat :=
  if (theMissingIdx : Int) ≤ theEnd ∧ theBits &&& theBit ≠ 0 then
    inlineScan theBits theEnd (theMissingIdx + 1) ((theBit <<< 1) % 2 ^ 64)
  else theMissingIdx
termination_by (theEnd + 1 - theMissingIdx).toNat
decreasing_by omega

/-- The scan of a bit vector in `Next`: from `theMissingIdx` on, the first
index that is the size of the vector or has a clear bit. -/
def bitmapScan (theBitmap : BlocksBitmap) (theMissingIdx : Nat) : Nat :=
  if theMissingIdx < theBitmap.length ∧ theBitmap.getD theMissingIdx false then
    bitmapScan theBitmap (theMissingIdx + 1)
  else theMissingIdx
termination_by theBitmap.length - theMissingIdx
decreasing_by omega

/-- The value of `theMissingIdx` that `Next` computes for a candidate. -/
def missingIdx (CHUNKSIZE : Int) (heap : List BlocksBitmap) (theFattr : MetaFattr) : Nat :=
  if HasBitmapSet CHUNKSIZE theFattr then
    let thePtr := GetBitmapPtr theFattr
    if thePtr ≠ 0 then bitmapScan (deref heap thePtr) 0 else 0
  else
    inlineScan theFattr.chunkcount (Int.tdiv theFattr.nextChunkOffset CHUNKSIZE) 0 1

/-- The decision of `Next`: `theMissingIdx * CHUNKSIZE < filesize`. -/
def isLost (CHUNKSIZE : Int) (heap : List BlocksBitmap) (theFattr : MetaFattr) : Bool :=
  decide ((missingIdx CHUNKSIZE heap theFattr : Int) * CHUNKSIZE < theFattr.filesize)

/-- The filter of `Next` on a file attribute node: a file, no replicas,
positive size. -/
def isCandidate (theFattr : MetaFattr) : Bool :=
  !(decide (theFattr.type ≠ FileType.KFS_FILE) || decide (theFattr.numReplicas ≠ 0) ||
    decide (theFattr.filesize ≤ 0))

/-- The method `ReportLost`. -/
def ReportLost (s : ObjStoreFsck) (inPathName : String) : ObjStoreFsck :=
  { s with mLostCount := s.mLostCount + 1, cout := s.cout ++ [inPathName] }

/-- The loop of `Next` from the cursor `leaves` on. `hasOp` tells whether
`theOpPtr` is non null. `enqueue n` is the answer of
`mKfsNetClient.Enqueue` for the leaf that has `n` leaves after it, and
`getPathname` stands for `metatree.getPathname`. -/
def NextLoop (CHUNKSIZE : Int) (enqueue : Nat → Bool) (getPathname : MetaFattr → String) :
    List Meta → Bool → ObjStoreFsck → ObjStoreFsck
  | [], _, s => { s with mLeafIter := [] }
  | Meta.other :: rest, hasOp, s => NextLoop CHUNKSIZE enqueue getPathname rest hasOp s
  | Meta.fattr theFattr :: rest, hasOp, s =>
    if theFattr.type ≠ FileType.KFS_FILE ∨ theFattr.numReplicas ≠ 0 ∨
        theFattr.filesize ≤ 0 then
      NextLoop CHUNKSIZE enqueue getPathname rest hasOp s
    else if isLost CHUNKSIZE s.heap theFattr then
      if s.mQueryFlag then
        if hasOp = false ∧ s.mMaxInFlightCnt ≤ s.mInFlightCnt then
          { s with mLeafIter := Meta.fattr theFattr :: rest }
        else if enqueue rest.length then
          NextLoop CHUNKSIZE enqueue getPathname rest false
            { s with mInFlightCnt := s.mInFlightCnt + 1, queue := s.queue ++ [theFattr.id] }
        else
          { s with
              mError := if s.mError = 0 then -EFAULT else s.mError
              mInFlightCnt := s.mInFlightCnt + 1 - 1
              mLeafIter := Meta.fattr theFattr :: rest }
      else
        NextLoop CHUNKSIZE enqueue getPathname rest hasOp (ReportLost s (getPathname theFattr))
    else
      NextLoop CHUNKSIZE enqueue getPathname rest hasOp s

/-- The method `Next`; `hasOp` is `inOpPtr != 0`. -/
def Next (CHUNKSIZE : Int) (enqueue : Nat → Bool) (getPathname : MetaFattr → String)
    (hasOp : Bool) (s : ObjStoreFsck) : ObjStoreFsck :=
  NextLoop CHUNKSIZE enqueue getPathname s.mLeafIter hasOp s

/-- The method `OpDone` for a non null request and a null buffer: the
completion of a request with `status` and `pathname`. -/
def OpDone (CHUNKSIZE : Int) (enqueue : Nat → Bool) (getPathname : MetaFattr → String)
    (status : Int) (pathname : String) (inCanceledFlag : Bool)
    (s : ObjStoreFsck) : ObjStoreFsck :=
  if s.mQueryFlag = false then s else
  let s1 := { s with mInFlightCnt := s.mInFlightCnt - 1 }
  if inCanceledFlag then s1 else
  let s2 :=
    if status < 0 then
      if -ENOENT ≠ status then
        { s1 with mError := if s1.mError = 0 then -status else s1.mError }
      else s1
    else ReportLost s1 pathname
  Next CHUNKSIZE enqueue getPathname true s2

/-- What happens to the run between two returns to the event loop. -/
inductive Event where
  /-- A call `Next(0)`, with the answers of `Enqueue`. -/
  | scan (enqueue : Nat → Bool)
  /-- The request at position `i` of the queue completes: the client takes
  it off its queue and calls `OpDone`. -/
  | done (i : Nat) (status : Int) (pathname : String) (canceled : Bool)
      (enqueue : Nat → Bool)

/-- Run one event; a completion needs a request in the queue. -/
def runEvent (CHUNKSIZE : Int) (getPathname : MetaFattr → String)
    (s : ObjStoreFsck) : Event → ObjStoreFsck
  | Event.scan enqueue => Next CHUNKSIZE enqueue getPathname false s
  | Event.done i status pathname canceled enqueue =>
    if i < s.queue.length then
      OpDone CHUNKSIZE enqueue getPathname status pathname canceled
        { s with queue := s.queue.eraseIdx i }
    else s

/-! ## The end of `RunSelf` and `Run` -/

/-- The return expression of `RunSelf`,
`0 == theStatus ? (0 < mLostCount ? -EINVAL : 0) : theStatus`. -/
def RunSelfReturn (theStatus mLostCount : Int) : Int :=
  if 0 = theStatus then (if 0 < mLostCount then -EINVAL else 0) else theStatus

/-- The value `RunSelf` returns. `theSetupStatus` is `theStatus` after
`SetParameters`, `Start`, `RestoreCheckpoint` and `playLogs`; when it is
`0` the scan runs and `theStatus = mError` is taken from the state `s`
after it. -/
def RunSelfEnd (theSetupStatus : Int) (s : ObjStoreFsck) : Int :=
  RunSelfReturn (if 0 = theSetupStatus then s.mError else theSetupStatus) s.mLostCount

/-- The exit code of `Run`: `theError` is the result of
`SslFilter::Initialize` and `theRunSelf` the value of `RunSelf`. -/
def Run (theError : Int) (theRunSelf : Int) : Int :=
  if 0 = (if 0 ≠ theError then -1 else theRunSelf) then 0 else 1

/-! ## Notions used to state the properties -/

/-- The leaf of a file that `Next` reports or submits: a candidate with the
verdict lost. -/
def isFlagged (CHUNKSIZE : Int) (heap : List BlocksBitmap) (theFattr : MetaFattr) : Bool :=
  isCandidate theFattr && isLost CHUNKSIZE heap theFattr

/-- Mark block `theIdx` of the file with id `fid`, when there is one. -/
def markFile (CHUNKSIZE : Int) (fid : Int) (s : ObjStoreFsck) (theIdx : Nat) : ObjStoreFsck :=
  match getFattr s.metatree fid with
  | none => s
  | some theFattr => (markBlock CHUNKSIZE s theFattr theIdx).1

/-- The position checks of the ingest loop pass for the version `v` of a
key of the file `g`: the position is not negative, a multiple of
`CHUNKSIZE`, and not past the last block. -/
def posOk (CHUNKSIZE : Int) (g : MetaFattr) (v : Int) : Prop :=
  0 ≤ blockPos g v ∧ Int.tmod (blockPos g v) CHUNKSIZE = 0 ∧ blockPos g v ≤ g.nextChunkOffset

instance (CHUNKSIZE : Int) (g : MetaFattr) (v : Int) : Decidable (posOk CHUNKSIZE g v) := by
  unfold posOk
  infer_instance

/-- A decoded, canonical key of the file `theFattr` whose position passes
the checks of the ingest loop, with the block index it addresses. -/
def acceptedIdx (CHUNKSIZE : Int) (K : KeyCodec) (theFileSystemId : Int)
    (theFattr : MetaFattr) (theBlockKey : List Char) : Option Nat :=
  match parseKey K theBlockKey with
  | none => none
  | some (theFid, theVersion) =>
    if theFid = theFattr.id ∧
        K.AppendChunkFileNameOrObjectStoreBlockKey theFileSystemId theFid theFid theVersion
          = some theBlockKey ∧
        posOk CHUNKSIZE theFattr theVersion then
      some (Int.tdiv (blockPos theFattr theVersion) CHUNKSIZE).toNat
    else none

/-- The test the ingest loop makes before it sets the bit of block `i`:
`(*thePtr)[theIdx]` in a bit vector, `chunkcount() & theBit` in the mask. -/
def isMarked (CHUNKSIZE : Int) (heap : List BlocksBitmap) (theFattr : MetaFattr)
    (i : Nat) : Bool :=
  if HasBitmapSet CHUNKSIZE theFattr then bitmapTest heap (GetBitmapPtr theFattr) i
  else decide (theFattr.chunkcount &&& bitOf i ≠ 0)

/-- The loop condition of the scan in `Next` at index `j`: the scan goes on
past `j`. -/
def scanPasses (CHUNKSIZE : Int) (heap : List BlocksBitmap) (theFattr : MetaFattr)
    (j : Nat) : Prop :=
  if HasBitmapSet CHUNKSIZE theFattr then
    bitmapTest heap (GetBitmapPtr theFattr) j = true
  else
    (j : Int) ≤ Int.tdiv theFattr.nextChunkOffset CHUNKSIZE ∧
      theFattr.chunkcount &&& bitOf j ≠ 0

/-- Every candidate that keeps a bit vector has either the null pointer in
its slot or the address of a vector of the free store that has one bit per
block and that no other candidate shares. -/
def HeapInv (CHUNKSIZE : Int) (s : ObjStoreFsck) : Prop :=
  ∀ fid g, getFattr s.metatree fid = some g → isCandidate g = true →
    HasBitmapSet CHUNKSIZE g = true → g.chunkcount ≠ 0 →
      g.chunkcount ≤ s.heap.length ∧
      (deref s.heap g.chunkcount).length = (1 + Int.tdiv g.nextChunkOffset CHUNKSIZE).toNat ∧
      ∀ fid' g', fid' ≠ fid → getFattr s.metatree fid' = some g' → isCandidate g' = true →
        HasBitmapSet CHUNKSIZE g' = true → g'.chunkcount ≠ g.chunkcount

/-- The tree before the ingest loop: the slot of every candidate that keeps
a bit vector is the null pointer ("Chunk count must be 0 for object store
files"). -/
def NullHandles (CHUNKSIZE : Int) (tree : List Meta) : Prop :=
  ∀ g, Meta.fattr g ∈ tree → isCandidate g = true → HasBitmapSet CHUNKSIZE g = true →
    g.chunkcount = 0

/-- The candidates among `leaves` that `Next` flags lost, in leaf order. -/
def lostCandidates (CHUNKSIZE : Int) (heap : List BlocksBitmap) : List Meta → List MetaFattr
  | [] => []
  | Meta.other :: rest => lostCandidates CHUNKSIZE heap rest
  | Meta.fattr f :: rest =>
    if isFlagged CHUNKSIZE heap f then f :: lostCandidates CHUNKSIZE heap rest
    else lostCandidates CHUNKSIZE heap rest

/-- Every `Enqueue` of the event is accepted and its completion, if it is
one, is not canceled. -/
def allAccepted : Event → Prop
  | Event.scan enqueue => ∀ n, enqueue n = true
  | Event.done _ _ _ canceled enqueue => canceled = false ∧ ∀ n, enqueue n = true

/-- The queue of the client at the moment the event calls `Next`. -/
def queueBefore (s : ObjStoreFsck) : Event → List Int
  | Event.scan _ => s.queue
  | Event.done i _ _ _ _ => if i < s.queue.length then s.queue.eraseIdx i else s.queue

/-- The file ids of the requests that an event submits: what it appends to
the queue. -/
def submittedBy (CHUNKSIZE : Int) (getPathname : MetaFattr → String) (s : ObjStoreFsck)
    (e : Event) : List Int :=
  (runEvent CHUNKSIZE getPathname s e).queue.drop (queueBefore s e).length

/-- The file ids of all requests submitted in a run of events, in the order
of submission. -/
def submissions (CHUNKSIZE : Int) (getPathname : MetaFattr → String) :
    ObjStoreFsck → List Event → List Int
  | _, [] => []
  | s, e :: rest =>
    submittedBy CHUNKSIZE getPathname s e ++
      submissions CHUNKSIZE getPathname (runEvent CHUNKSIZE getPathname s e) rest

/-- The indices at which the scan of a bit vector in `Next` reads a bit,
`(*thePtr)[theMissingIdx]`, from `theMissingIdx` on: the right operand of
`&&` is evaluated only when `theMissingIdx < size()` holds. -/
def bitmapReads (theBitmap : BlocksBitmap) (theMissingIdx : Nat) : List Nat :=
  if theMissingIdx < theBitmap.length then
    theMissingIdx ::
      (if theBitmap.getD theMissingIdx false then bitmapReads theBitmap (theMissingIdx + 1)
       else [])
  else []
termination_by theBitmap.length - theMissingIdx
decreasing_by omega

/-- The inline mask after the marks of the indices `S`, from a zero slot:
`chunkcount() |= theBit` for each. -/
def maskOf (S : List Nat) : Nat :=
  S.foldl (fun c i => c ||| bitOf i) 0

/-- The bit vector of a file with last block index `L` after the marks of
the indices `S`: `(*thePtr)[theIdx] = true` for each, on the vector of
`L + 1` clear bits. -/
def vectorOf (L : Nat) (S : List Nat) : BlocksBitmap :=
  S.foldl (fun bm i => bm.set i true) (List.replicate (L + 1) false)

/-! ## Examples -/

/-- Helper of `sampleParse`: read decimal digits. -/
def takeDigits (acc : Nat) : List Char → Nat × List Char
  | [] => (acc, [])
  | c :: cs =>
    if c.isDigit then takeDigits (acc * 10 + (c.toNat - 48)) cs else (acc, c :: cs)

/-- A number parser for the examples: an optional minus sign and at least
one decimal digit. -/
def sampleParse : List Char → Option (Int × List Char)
  | [] => none
  | c :: cs =>
    if c = '-' then
      match cs with
      | [] => none
      | d :: _ =>
        if d.isDigit then some (-((takeDigits 0 cs).1 : Int), (takeDigits 0 cs).2) else none
    else if c.isDigit then
      some (((takeDigits 0 (c :: cs)).1 : Int), (takeDigits 0 (c :: cs)).2)
    else none

/-- Decimal text of an integer. -/
def decimal (v : Int) : List Char :=
  if v < 0 then '-' :: Nat.toDigits 10 v.natAbs else Nat.toDigits 10 v.natAbs

/-- A key generator for the examples, in the format of the input
description, `prefix.<fileId>.<version>.<fsIdSuffix>`, with the prefix `o`. -/
def sampleKey (fsId fid _id version : Int) : Option (List Char) :=
  some (['o', '.'] ++ decimal fid ++ ['.'] ++ decimal version ++ ['.'] ++ decimal fsId)

/-- The codec of the examples. The theorems hold for every codec. -/
def sampleCodec : KeyCodec := ⟨sampleParse, sampleKey⟩

/-- The block size of the examples, 64 MiB. -/
def sampleChunk : Int := 67108864

/-- File A of the examples: an object store file of three blocks. -/
def fileA : MetaFattr :=
  { id := 5, type := FileType.KFS_FILE, numReplicas := 0, filesize := 3 * 67108864,
    nextChunkOffset := 2 * 67108864, minSTier := 0, maxSTier := 0, chunkcount := 0 }

/-- File B of the examples: a file with two replicas. -/
def fileB : MetaFattr :=
  { id := 6, type := FileType.KFS_FILE, numReplicas := 2, filesize := 67108864,
    nextChunkOffset := 0, minSTier := 0, maxSTier := 0, chunkcount := 1 }

/-- File C of the examples: an object store file of 65 blocks. -/
def fileC : MetaFattr :=
  { id := 7, type := FileType.KFS_FILE, numReplicas := 0, filesize := 65 * 67108864,
    nextChunkOffset := 64 * 67108864, minSTier := 0, maxSTier := 0, chunkcount := 0 }

/-- A run before the ingest loop over a tree with the files A, B and C. -/
def sampleRun : ObjStoreFsck :=
  { metatree := [Meta.other, Meta.fattr fileA, Meta.fattr fileB, Meta.fattr fileC], heap := [],
    mLeafIter := [], mQueryFlag := false, mLostCount := 0, mError := 0,
    mInFlightCnt := 0, mMaxInFlightCnt := 1024, cout := [], queue := [], theKeysCount := 0 }

/-- The example run in query mode with at most one request in flight, the
cursor at the first leaf. -/
def sampleQueryRun : ObjStoreFsck :=
  { sampleRun with mQueryFlag := true, mMaxInFlightCnt := 1, mLeafIter := sampleRun.metatree }

/-- Example events: a scan, a completion with a path whose new request is
rejected, and a canceled completion. -/
def sampleEvents : List Event :=
  [Event.scan (fun _ => true), Event.done 0 0 "/a" false (fun _ => false),
    Event.done 0 (-2) "" true (fun _ => true)]

/-- The example run in query mode with at most 16 requests in flight, the
cursor at the first leaf. -/
def sampleQueryRun2 : ObjStoreFsck :=
  { sampleRun with mQueryFlag := true, mMaxInFlightCnt := 16, mLeafIter := sampleRun.metatree }

/-! ## Bit masks and the two scans -/

theorem bitOf_lt {i : Nat} (h : i < 64) : bitOf i = 2 ^ i := by
  unfold bitOf
  rw [Nat.shiftLeft_eq, one_mul]
  exact Nat.mod_eq_of_lt (Nat.pow_lt_pow_right (by norm_num) h)

theorem bitOf_ge {i : Nat} (h : 64 ≤ i) : bitOf i = 0 := by
  unfold bitOf
  rw [Nat.shiftLeft_eq, one_mul]
  exact Nat.mod_eq_zero_of_dvd (Nat.pow_dvd_pow 2 h)

theorem bitOf_zero : bitOf 0 = 1 := by
  rw [bitOf_lt (by norm_num)]
  rfl

theorem bitOf_succ (i : Nat) : (bitOf i <<< 1) % 2 ^ 64 = bitOf (i + 1) := by
  unfold bitOf
  rw [Nat.shiftLeft_eq, Nat.shiftLeft_eq, Nat.shiftLeft_eq, one_mul, one_mul, pow_one,
    Nat.mod_mul_mod, ← Nat.pow_succ]

theorem and_bitOf_ne_zero (c i : Nat) :
    c &&& bitOf i ≠ 0 ↔ i < 64 ∧ c.testBit i = true := by
  by_cases h : i < 64
  · rw [bitOf_lt h, Nat.and_two_pow]
    cases hb : c.testBit i <;> simp [h]
  · rw [bitOf_ge (by omega)]
    simp [h]

theorem inlineScan_spec (bits : Nat) (e : Int) :
    ∀ (n idx : Nat), (e + 1 - idx).toNat = n →
      idx ≤ inlineScan bits e idx (bitOf idx) ∧
      (∀ j, idx ≤ j → j < inlineScan bits e idx (bitOf idx) →
        (j : Int) ≤ e ∧ bits &&& bitOf j ≠ 0) ∧
      ¬ (((inlineScan bits e idx (bitOf idx) : Nat) : Int) ≤ e ∧
          bits &&& bitOf (inlineScan bits e idx (bitOf idx)) ≠ 0) := by
  intro n
  induction n with
  | zero =>
    intro idx hn
    rw [inlineScan]
    have hgt : ¬ ((idx : Int) ≤ e) := by omega
    simp [hgt]
    intro j h1 h2
    omega
  | succ n ih =>
    intro idx hn
    rw [inlineScan]
    by_cases hc : (idx : Int) ≤ e ∧ bits &&& bitOf idx ≠ 0
    · rw [if_pos hc, bitOf_succ]
      obtain ⟨h1, h2, h3⟩ := ih (idx + 1) (by omega)
      refine ⟨by omega, ?_, h3⟩
      intro j hj hlt
      by_cases hjeq : j = idx
      · subst hjeq; exact hc
      · exact h2 j (by omega) hlt
    · rw [if_neg hc]
      exact ⟨le_refl _, fun j h1 h2 => absurd h2 (by omega), hc⟩

theorem bitmapScan_spec (bm : BlocksBitmap) :
    ∀ (n idx : Nat), bm.length - idx = n →
      idx ≤ bitmapScan bm idx ∧
      (∀ j, idx ≤ j → j < bitmapScan bm idx → bm.getD j false = true) ∧
      bm.getD (bitmapScan bm idx) false = false ∧
      bitmapScan bm idx ≤ max idx bm.length := by
  intro n
  induction n with
  | zero =>
    intro idx hn
    rw [bitmapScan]
    have hge : ¬ (idx < bm.length) := by omega
    simp only [hge, false_and, if_false]
    refine ⟨le_refl _, fun j h1 h2 => absurd h2 (by omega), ?_, le_max_left _ _⟩
    rw [List.getD_eq_default]
    omega
  | succ n ih =>
    intro idx hn
    rw [bitmapScan]
    by_cases hc : idx < bm.length ∧ bm.getD idx false = true
    · rw [if_pos hc]
      obtain ⟨h1, h2, h3, h4⟩ := ih (idx + 1) (by omega)
      refine ⟨by omega, ?_, h3, ?_⟩
      · intro j hj hlt
        by_cases hjeq : j = idx
        · subst hjeq; exact hc.2
        · exact h2 j (by omega) hlt
      · have := hc.1
        rw [max_eq_right (by omega)] at h4
        rw [max_eq_right (by omega)]
        exact h4
    · rw [if_neg hc]
      refine ⟨le_refl _, fun j h1 h2 => absurd h2 (by omega), ?_, le_max_left _ _⟩
      by_cases hlt : idx < bm.length
      · cases hb : bm.getD idx false
        · rfl
        · exact absurd ⟨hlt, hb⟩ hc
      · rw [List.getD_eq_default]
        omega

/-- The scan of `Next` stops at the first index where its loop condition
fails. -/
theorem missingIdx_spec (CHUNKSIZE : Int) (heap : List BlocksBitmap) (f : MetaFattr) :
    (∀ j, j < missingIdx CHUNKSIZE heap f → scanPasses CHUNKSIZE heap f j) ∧
    ¬ scanPasses CHUNKSIZE heap f (missingIdx CHUNKSIZE heap f) := by
  unfold missingIdx scanPasses
  by_cases hb : HasBitmapSet CHUNKSIZE f = true
  · simp only [hb, if_true]
    by_cases hp : GetBitmapPtr f = 0
    · simp [hp, bitmapTest, deref]
    · simp only [hp, ne_eq, not_false_eq_true, if_true]
      obtain ⟨_, h2, h3, _⟩ := bitmapScan_spec (deref heap (GetBitmapPtr f)) _ 0 rfl
      refine ⟨fun j hj => h2 j (Nat.zero_le _) hj, ?_⟩
      unfold bitmapTest
      rw [h3]
      simp
  · simp only [hb, if_false]
    have h := inlineScan_spec f.chunkcount (Int.tdiv f.nextChunkOffset CHUNKSIZE) _ 0 rfl
    rw [bitOf_zero] at h
    obtain ⟨_, h2, h3⟩ := h
    exact ⟨fun j hj => h2 j (Nat.zero_le _) hj, h3⟩

/-- The verdict of `Next` in terms of the loop condition of its scan. -/
theorem isLost_iff (CHUNKSIZE : Int) (hCS : 0 < CHUNKSIZE) (heap : List BlocksBitmap)
    (f : MetaFattr) :
    isLost CHUNKSIZE heap f = true ↔
      ∃ i : Nat, (i : Int) * CHUNKSIZE < f.filesize ∧ ¬ scanPasses CHUNKSIZE heap f i := by
  obtain ⟨h1, h2⟩ := missingIdx_spec CHUNKSIZE heap f
  unfold isLost
  rw [decide_eq_true_iff]
  constructor
  · intro h
    exact ⟨_, h, h2⟩
  · rintro ⟨i, hi, hn⟩
    have hle : missingIdx CHUNKSIZE heap f ≤ i := by
      by_contra hlt
      exact hn (h1 i (by omega))
    have hle2 : (missingIdx CHUNKSIZE heap f : Int) ≤ (i : Int) := by exact_mod_cast hle
    calc (missingIdx CHUNKSIZE heap f : Int) * CHUNKSIZE
        ≤ (i : Int) * CHUNKSIZE := Int.mul_le_mul_of_nonneg_right hle2 (le_of_lt hCS)
      _ < f.filesize := hi

/-! ## The metadata tree and the free store -/

theorem getFattr_id {tree : List Meta} {fid : Int} {g : MetaFattr}
    (h : getFattr tree fid = some g) : g.id = fid := by
  induction tree with
  | nil => simp [getFattr] at h
  | cons m rest ih =>
    cases m with
    | other => exact ih (by simpa [getFattr] using h)
    | fattr f =>
      by_cases hf : f.id = fid
      · simp [getFattr, hf] at h
        rw [← h]; exact hf
      · simp [getFattr, hf] at h
        exact ih h

theorem getFattr_setChunkcount_same (tree : List Meta) (fid : Int) (c : Nat) :
    getFattr (setChunkcount tree fid c) fid =
      (getFattr tree fid).map (fun g => { g with chunkcount := c }) := by
  induction tree with
  | nil => simp [getFattr, setChunkcount]
  | cons m rest ih =>
    cases m with
    | other => simpa [getFattr, setChunkcount] using ih
    | fattr f =>
      by_cases hf : f.id = fid
      · simp [getFattr, setChunkcount, hf]
      · simp [getFattr, setChunkcount, hf, ih]

theorem getFattr_setChunkcount_other (tree : List Meta) {fid fid' : Int} (c : Nat)
    (hne : fid' ≠ fid) :
    getFattr (setChunkcount tree fid c) fid' = getFattr tree fid' := by
  induction tree with
  | nil => simp [getFattr, setChunkcount]
  | cons m rest ih =>
    cases m with
    | other => simpa [getFattr, setChunkcount] using ih
    | fattr f =>
      by_cases hf : f.id = fid
      · have hf' : ¬ f.id = fid' := fun h => hne (h.symm.trans hf)
        simp [getFattr, setChunkcount, hf, hf', Ne.symm hne]
      · by_cases hf' : f.id = fid'
        · simp [getFattr, setChunkcount, hf, hf', hne]
        · simp [getFattr, setChunkcount, hf, hf', ih]

theorem deref_append_old (heap : List BlocksBitmap) (bm : BlocksBitmap) {p : Nat}
    (hp : p ≤ heap.length) : deref (heap ++ [bm]) p = deref heap p := by
  unfold deref
  by_cases h0 : p = 0
  · simp [h0]
  · simp only [h0, if_false]
    rw [List.getD_append _ _ _ _ (by omega)]

theorem deref_append_new (heap : List BlocksBitmap) (bm : BlocksBitmap) :
    deref (heap ++ [bm]) (heap.length + 1) = bm := by
  unfold deref
  simp [List.getD_eq_getElem?_getD]

theorem length_bitmapSet (heap : List BlocksBitmap) (p i : Nat) :
    (bitmapSet heap p i).length = heap.length := by
  unfold bitmapSet
  split <;> simp

theorem deref_bitmapSet (heap : List BlocksBitmap) {p : Nat} (i q : Nat)
    (h0 : p ≠ 0) (hp : p ≤ heap.length) :
    deref (bitmapSet heap p i) q =
      if q = p then (deref heap p).set i true else deref heap q := by
  unfold bitmapSet
  simp only [h0, if_false]
  by_cases hq : q = p
  · subst hq
    simp only [if_true]
    conv_lhs => unfold deref
    simp only [h0, if_false]
    rw [List.getD_eq_getElem?_getD, List.getElem?_set]
    have : q - 1 < heap.length := by omega
    simp [this, deref, h0, List.getD_eq_getElem?_getD]
  · simp only [hq, if_false]
    unfold deref
    by_cases hq0 : q = 0
    · simp [hq0]
    · simp only [hq0, if_false]
      rw [List.getD_eq_getElem?_getD, List.getD_eq_getElem?_getD, List.getElem?_set]
      have : ¬ (p - 1 = q - 1) := by omega
      simp [this]

theorem getD_set_true (bm : BlocksBitmap) (i j : Nat) :
    (bm.set i true).getD j false = (bm.getD j false || decide (j = i ∧ i < bm.length)) := by
  rw [List.getD_eq_getElem?_getD, List.getD_eq_getElem?_getD, List.getElem?_set]
  by_cases hij : i = j
  · subst hij
    by_cases hl : i < bm.length
    · simp [hl]
    · simp [hl]
      rw [List.getElem?_eq_none (by omega)]
      rfl
  · have hji : ¬ j = i := fun h => hij h.symm
    simp [hij, hji]

theorem tdiv_lt_of_lt_mul {a b k : Int} (hb : 0 < b) (hk : 0 < k) (h : a < k * b) :
    Int.tdiv a b < k := by
  rcases lt_or_le a 0 with ha | ha
  · have h1 : Int.tdiv a b = -Int.tdiv (-a) b := by
      rw [Int.neg_tdiv, neg_neg]
    have h2 : 0 ≤ Int.tdiv (-a) b := Int.tdiv_nonneg (by omega) (le_of_lt hb)
    omega
  · rw [Int.tdiv_eq_ediv ha (le_of_lt hb)]
    exact Int.ediv_lt_of_lt_mul hb h

/-- In inline mode every block index up to the last one is below 64. -/
theorem idx_lt_64 {CHUNKSIZE : Int} (hCS : 0 < CHUNKSIZE) {g : MetaFattr}
    (hinl : HasBitmapSet CHUNKSIZE g = false) {idx : Nat}
    (hidx : (idx : Int) ≤ Int.tdiv g.nextChunkOffset CHUNKSIZE) : idx < 64 := by
  unfold HasBitmapSet kBits at hinl
  rw [decide_eq_false_iff_not, not_le] at hinl
  have := tdiv_lt_of_lt_mul hCS (by norm_num : (0 : Int) < 64) hinl
  omega

/-! ## One mark -/

theorem markBlock_new {CHUNKSIZE : Int} (s : ObjStoreFsck) {g : MetaFattr} (idx : Nat)
    (hb : HasBitmapSet CHUNKSIZE g = true) (hp : g.chunkcount = 0) :
    markBlock CHUNKSIZE s g idx =
      ({ s with
          metatree := setChunkcount s.metatree g.id (s.heap.length + 1)
          heap := bitmapSet
            (s.heap ++ [List.replicate (1 + Int.tdiv g.nextChunkOffset CHUNKSIZE).toNat false])
            (s.heap.length + 1) idx }, KeyResult.marked) := by
  simp [markBlock, hb, hp, GetBitmapPtr, SetBitmapPtr]

theorem markBlock_dup_bitmap {CHUNKSIZE : Int} (s : ObjStoreFsck) {g : MetaFattr} {idx : Nat}
    (hb : HasBitmapSet CHUNKSIZE g = true) (hp : g.chunkcount ≠ 0)
    (ht : bitmapTest s.heap g.chunkcount idx = true) :
    markBlock CHUNKSIZE s g idx = (s, KeyResult.duplicate) := by
  simp [markBlock, hb, hp, GetBitmapPtr, ht]

theorem markBlock_set_bitmap {CHUNKSIZE : Int} (s : ObjStoreFsck) {g : MetaFattr} {idx : Nat}
    (hb : HasBitmapSet CHUNKSIZE g = true) (hp : g.chunkcount ≠ 0)
    (ht : bitmapTest s.heap g.chunkcount idx = false) :
    markBlock CHUNKSIZE s g idx =
      ({ s with heap := bitmapSet s.heap g.chunkcount idx }, KeyResult.marked) := by
  simp [markBlock, hb, hp, GetBitmapPtr, ht]

theorem markBlock_dup_inline {CHUNKSIZE : Int} (s : ObjStoreFsck) {g : MetaFattr} {idx : Nat}
    (hb : HasBitmapSet CHUNKSIZE g = false) (ht : g.chunkcount &&& bitOf idx ≠ 0) :
    markBlock CHUNKSIZE s g idx = (s, KeyResult.duplicate) := by
  simp [markBlock, hb, ht]

theorem markBlock_set_inline {CHUNKSIZE : Int} (s : ObjStoreFsck) {g : MetaFattr} {idx : Nat}
    (hb : HasBitmapSet CHUNKSIZE g = false) (ht : g.chunkcount &&& bitOf idx = 0) :
    markBlock CHUNKSIZE s g idx =
      ({ s with metatree := setChunkcount s.metatree g.id (g.chunkcount ||| bitOf idx) },
        KeyResult.marked) := by
  simp [markBlock, hb, ht]

/-- A mark changes the tree and the free store only. -/
theorem markBlock_frame (CHUNKSIZE : Int) (s : ObjStoreFsck) (g : MetaFattr) (idx : Nat) :
    (markBlock CHUNKSIZE s g idx).1 =
      { s with metatree := (markBlock CHUNKSIZE s g idx).1.metatree
               heap := (markBlock CHUNKSIZE s g idx).1.heap } := by
  by_cases hb : HasBitmapSet CHUNKSIZE g = true
  · by_cases hp : g.chunkcount = 0
    · rw [markBlock_new s idx hb hp]
    · cases ht : bitmapTest s.heap g.chunkcount idx
      · rw [markBlock_set_bitmap s hb hp ht]
      · rw [markBlock_dup_bitmap s hb hp ht]
  · rw [Bool.not_eq_true] at hb
    by_cases ht : g.chunkcount &&& bitOf idx = 0
    · rw [markBlock_set_inline s hb ht]
    · rw [markBlock_dup_inline s hb ht]

theorem isMarked_inline_set {CHUNKSIZE : Int} (hCS : 0 < CHUNKSIZE) {g : MetaFattr}
    (hinl : HasBitmapSet CHUNKSIZE g = false) {idx : Nat}
    (hidx : (idx : Int) ≤ Int.tdiv g.nextChunkOffset CHUNKSIZE)
    (heap heap' : List BlocksBitmap) (j : Nat) :
    isMarked CHUNKSIZE heap' { g with chunkcount := g.chunkcount ||| bitOf idx } j =
      (isMarked CHUNKSIZE heap g j || decide (j = idx)) := by
  have h64 := idx_lt_64 hCS hinl hidx
  have hinl' : HasBitmapSet CHUNKSIZE { g with chunkcount := g.chunkcount ||| bitOf idx } = false :=
    hinl
  unfold isMarked
  rw [hinl, hinl']
  simp only [Bool.false_eq_true, if_false]
  rw [Bool.eq_iff_iff]
  simp only [decide_eq_true_iff, Bool.or_eq_true]
  rw [and_bitOf_ne_zero, and_bitOf_ne_zero, bitOf_lt h64, Nat.testBit_lor, Nat.testBit_two_pow]
  simp only [Bool.or_eq_true, decide_eq_true_iff]
  constructor
  · rintro ⟨h1, h2 | h2⟩
    · exact Or.inl ⟨h1, h2⟩
    · exact Or.inr h2.symm
  · rintro (⟨h1, h2⟩ | h2)
    · exact ⟨h1, Or.inl h2⟩
    · subst h2
      exact ⟨h64, Or.inr rfl⟩

theorem isMarked_bitmap {CHUNKSIZE : Int} {g : MetaFattr} (hb : HasBitmapSet CHUNKSIZE g = true)
    (heap : List BlocksBitmap) (j : Nat) :
    isMarked CHUNKSIZE heap g j = (deref heap g.chunkcount).getD j false := by
  simp [isMarked, hb, bitmapTest, GetBitmapPtr]

theorem isMarked_inline {CHUNKSIZE : Int} {g : MetaFattr} (hb : HasBitmapSet CHUNKSIZE g = false)
    (heap heap' : List BlocksBitmap) (j : Nat) :
    isMarked CHUNKSIZE heap' g j = isMarked CHUNKSIZE heap g j := by
  simp [isMarked, hb]

/-- The first mark of a file that keeps a bit vector: the vector is
allocated at a fresh address. -/
theorem markBlock_step_new {CHUNKSIZE : Int} {s : ObjStoreFsck} {fid : Int}
    {g : MetaFattr} {idx : Nat} (hinv : HeapInv CHUNKSIZE s)
    (hg : getFattr s.metatree fid = some g)
    (hidx : (idx : Int) ≤ Int.tdiv g.nextChunkOffset CHUNKSIZE)
    (hb : HasBitmapSet CHUNKSIZE g = true) (hp : g.chunkcount = 0) :
    HeapInv CHUNKSIZE (markBlock CHUNKSIZE s g idx).1 ∧
    ∀ fid' g', getFattr s.metatree fid' = some g' → isCandidate g' = true →
      ∃ c, getFattr (markBlock CHUNKSIZE s g idx).1.metatree fid' =
          some { g' with chunkcount := c } ∧
        ∀ j, isMarked CHUNKSIZE (markBlock CHUNKSIZE s g idx).1.heap
            { g' with chunkcount := c } j =
          (isMarked CHUNKSIZE s.heap g' j || decide (fid' = fid ∧ j = idx)) := by
  have hgid := getFattr_id hg
  rw [markBlock_new s idx hb hp]
  simp only []
  rw [hgid]
  generalize hrep : List.replicate (1 + Int.tdiv g.nextChunkOffset CHUNKSIZE).toNat false = rep
  have hreplen : rep.length = (1 + Int.tdiv g.nextChunkOffset CHUNKSIZE).toNat := by
    rw [← hrep, List.length_replicate]
  have hlen1 : (s.heap ++ [rep]).length = s.heap.length + 1 := by simp
  have hnew : ∀ q, deref (bitmapSet (s.heap ++ [rep]) (s.heap.length + 1) idx) q =
      if q = s.heap.length + 1 then rep.set idx true
      else deref (s.heap ++ [rep]) q := by
    intro q
    rw [deref_bitmapSet _ idx q (by omega) (by omega), deref_append_new]
  have hold : ∀ q, q ≤ s.heap.length →
      deref (bitmapSet (s.heap ++ [rep]) (s.heap.length + 1) idx) q = deref s.heap q := by
    intro q hq
    rw [hnew, if_neg (by omega), deref_append_old _ _ hq]
  have hself : getFattr (setChunkcount s.metatree fid (s.heap.length + 1)) fid =
      some { g with chunkcount := s.heap.length + 1 } := by
    rw [getFattr_setChunkcount_same, hg]; rfl
  constructor
  · intro fid1 g1 hg1 hc1 hb1 hp1
    simp only [] at hg1 hp1 ⊢
    rw [length_bitmapSet, hlen1]
    by_cases hf1 : fid1 = fid
    · subst hf1
      rw [hself] at hg1
      cases hg1
      simp only []
      refine ⟨le_refl _, ?_, ?_⟩
      · rw [hnew, if_pos rfl, List.length_set, hreplen]
      · intro fid' g' hne hg' hc' hb'
        rw [getFattr_setChunkcount_other _ _ hne] at hg'
        by_cases hp' : g'.chunkcount = 0
        · omega
        · have := (hinv fid' g' hg' hc' hb' hp').1
          omega
    · rw [getFattr_setChunkcount_other _ _ hf1] at hg1
      obtain ⟨h1, h2, h3⟩ := hinv fid1 g1 hg1 hc1 hb1 hp1
      refine ⟨by omega, ?_, ?_⟩
      · rw [hold _ h1]; exact h2
      · intro fid' g' hne hg' hc' hb'
        by_cases hf' : fid' = fid
        · subst hf'
          rw [hself] at hg'
          cases hg'
          simp only []
          omega
        · rw [getFattr_setChunkcount_other _ _ hf'] at hg'
          exact h3 fid' g' hne hg' hc' hb'
  · intro fid' g' hg' hc'
    by_cases hf' : fid' = fid
    · subst hf'
      rw [hg] at hg'
      cases hg'
      refine ⟨s.heap.length + 1, hself, ?_⟩
      intro j
      have hb2 : HasBitmapSet CHUNKSIZE { g with chunkcount := s.heap.length + 1 } = true := hb
      rw [isMarked_bitmap hb2, isMarked_bitmap hb, hp]
      simp only []
      rw [hnew, if_pos rfl, getD_set_true, hreplen]
      have hd0 : deref s.heap 0 = [] := by simp [deref]
      rw [hd0, ← hrep, List.getD_eq_getElem?_getD, List.getD_eq_getElem?_getD,
        List.getElem?_replicate]
      have hlt : idx < (1 + Int.tdiv g.nextChunkOffset CHUNKSIZE).toNat := by omega
      by_cases hj : j = idx
      · subst hj; simp [hlt]
      · simp [hj]
        split <;> rfl
    · refine ⟨g'.chunkcount, ?_, ?_⟩
      · rw [getFattr_setChunkcount_other _ _ hf', hg']
      · intro j
        have hcc : ({ g' with chunkcount := g'.chunkcount } : MetaFattr) = g' := rfl
        rw [hcc]
        simp only [hf', false_and, decide_False, Bool.or_false]
        by_cases hb' : HasBitmapSet CHUNKSIZE g' = true
        · rw [isMarked_bitmap hb', isMarked_bitmap hb']
          by_cases hp' : g'.chunkcount = 0
          · rw [hp', hold 0 (Nat.zero_le _)]
          · rw [hold _ (hinv fid' g' hg' hc' hb' hp').1]
        · rw [Bool.not_eq_true] at hb'
          exact isMarked_inline hb' _ _ j

/-- A mark that leaves the state as it is, on a block already marked. -/
theorem markBlock_step_dup {CHUNKSIZE : Int} {s : ObjStoreFsck} {fid : Int}
    {g : MetaFattr} {idx : Nat} (hinv : HeapInv CHUNKSIZE s)
    (hg : getFattr s.metatree fid = some g)
    (hs : (markBlock CHUNKSIZE s g idx).1 = s)
    (hm : isMarked CHUNKSIZE s.heap g idx = true) :
    HeapInv CHUNKSIZE (markBlock CHUNKSIZE s g idx).1 ∧
    ∀ fid' g', getFattr s.metatree fid' = some g' → isCandidate g' = true →
      ∃ c, getFattr (markBlock CHUNKSIZE s g idx).1.metatree fid' =
          some { g' with chunkcount := c } ∧
        ∀ j, isMarked CHUNKSIZE (markBlock CHUNKSIZE s g idx).1.heap
            { g' with chunkcount := c } j =
          (isMarked CHUNKSIZE s.heap g' j || decide (fid' = fid ∧ j = idx)) := by
  rw [hs]
  refine ⟨hinv, ?_⟩
  intro fid' g' hg' _
  refine ⟨g'.chunkcount, hg', ?_⟩
  intro j
  have hcc : ({ g' with chunkcount := g'.chunkcount } : MetaFattr) = g' := rfl
  rw [hcc]
  by_cases hfj : fid' = fid ∧ j = idx
  · obtain ⟨hf', hj⟩ := hfj
    subst hf'; subst hj
    rw [hg] at hg'
    cases hg'
    simp [hm]
  · simp [hfj]

/-- A mark in a bit vector that exists already. -/
theorem markBlock_step_bitmap {CHUNKSIZE : Int} {s : ObjStoreFsck} {fid : Int}
    {g : MetaFattr} {idx : Nat} (hinv : HeapInv CHUNKSIZE s)
    (hg : getFattr s.metatree fid = some g) (hc : isCandidate g = true)
    (hidx : (idx : Int) ≤ Int.tdiv g.nextChunkOffset CHUNKSIZE)
    (hb : HasBitmapSet CHUNKSIZE g = true) (hp : g.chunkcount ≠ 0)
    (ht : bitmapTest s.heap g.chunkcount idx = false) :
    HeapInv CHUNKSIZE (markBlock CHUNKSIZE s g idx).1 ∧
    ∀ fid' g', getFattr s.metatree fid' = some g' → isCandidate g' = true →
      ∃ c, getFattr (markBlock CHUNKSIZE s g idx).1.metatree fid' =
          some { g' with chunkcount := c } ∧
        ∀ j, isMarked CHUNKSIZE (markBlock CHUNKSIZE s g idx).1.heap
            { g' with chunkcount := c } j =
          (isMarked CHUNKSIZE s.heap g' j || decide (fid' = fid ∧ j = idx)) := by
  rw [markBlock_set_bitmap s hb hp ht]
  simp only []
  obtain ⟨hle, hlen, hdist⟩ := hinv fid g hg hc hb hp
  have hd : ∀ q, deref (bitmapSet s.heap g.chunkcount idx) q =
      if q = g.chunkcount then (deref s.heap g.chunkcount).set idx true else deref s.heap q :=
    fun q => deref_bitmapSet _ idx q hp hle
  constructor
  · intro fid1 g1 hg1 hc1 hb1 hp1
    simp only [] at hg1 ⊢
    obtain ⟨h1, h2, h3⟩ := hinv fid1 g1 hg1 hc1 hb1 hp1
    rw [length_bitmapSet]
    refine ⟨h1, ?_, h3⟩
    rw [hd]
    by_cases hq : g1.chunkcount = g.chunkcount
    · rw [if_pos hq, List.length_set, ← hq]; exact h2
    · rw [if_neg hq]; exact h2
  · intro fid' g' hg' hc'
    refine ⟨g'.chunkcount, hg', ?_⟩
    intro j
    have hcc : ({ g' with chunkcount := g'.chunkcount } : MetaFattr) = g' := rfl
    rw [hcc]
    by_cases hf' : fid' = fid
    · subst hf'
      rw [hg] at hg'
      cases hg'
      rw [isMarked_bitmap hb, isMarked_bitmap hb, hd, if_pos rfl, getD_set_true, hlen]
      have hlt : idx < (1 + Int.tdiv g.nextChunkOffset CHUNKSIZE).toNat := by omega
      simp [hlt]
    · simp only [hf', false_and, decide_False, Bool.or_false]
      by_cases hb' : HasBitmapSet CHUNKSIZE g' = true
      · rw [isMarked_bitmap hb', isMarked_bitmap hb', hd]
        by_cases hq : g'.chunkcount = g.chunkcount
        · exact absurd hq (hdist fid' g' hf' hg' hc' hb')
        · rw [if_neg hq]
      · rw [Bool.not_eq_true] at hb'
        exact isMarked_inline hb' _ _ j

/-- A mark in the inline mask. -/
theorem markBlock_step_inline {CHUNKSIZE : Int} (hCS : 0 < CHUNKSIZE) {s : ObjStoreFsck}
    {fid : Int} {g : MetaFattr} {idx : Nat} (hinv : HeapInv CHUNKSIZE s)
    (hg : getFattr s.metatree fid = some g)
    (hidx : (idx : Int) ≤ Int.tdiv g.nextChunkOffset CHUNKSIZE)
    (hb : HasBitmapSet CHUNKSIZE g = false) (ht : g.chunkcount &&& bitOf idx = 0) :
    HeapInv CHUNKSIZE (markBlock CHUNKSIZE s g idx).1 ∧
    ∀ fid' g', getFattr s.metatree fid' = some g' → isCandidate g' = true →
      ∃ c, getFattr (markBlock CHUNKSIZE s g idx).1.metatree fid' =
          some { g' with chunkcount := c } ∧
        ∀ j, isMarked CHUNKSIZE (markBlock CHUNKSIZE s g idx).1.heap
            { g' with chunkcount := c } j =
          (isMarked CHUNKSIZE s.heap g' j || decide (fid' = fid ∧ j = idx)) := by
  have hgid := getFattr_id hg
  rw [markBlock_set_inline s hb ht]
  simp only []
  rw [hgid]
  have hself : getFattr (setChunkcount s.metatree fid (g.chunkcount ||| bitOf idx)) fid =
      some { g with chunkcount := g.chunkcount ||| bitOf idx } := by
    rw [getFattr_setChunkcount_same, hg]; rfl
  constructor
  · intro fid1 g1 hg1 hc1 hb1 hp1
    simp only [] at hg1 ⊢
    by_cases hf1 : fid1 = fid
    · subst hf1
      rw [hself] at hg1
      cases hg1
      have hb2 : HasBitmapSet CHUNKSIZE g = true := hb1
      rw [hb] at hb2
      exact absurd hb2 (by simp)
    · rw [getFattr_setChunkcount_other _ _ hf1] at hg1
      obtain ⟨h1, h2, h3⟩ := hinv fid1 g1 hg1 hc1 hb1 hp1
      refine ⟨h1, h2, ?_⟩
      intro fid' g' hne hg' hc' hb'
      by_cases hf' : fid' = fid
      · subst hf'
        rw [hself] at hg'
        cases hg'
        have hb2 : HasBitmapSet CHUNKSIZE g = true := hb'
        rw [hb] at hb2
        exact absurd hb2 (by simp)
      · rw [getFattr_setChunkcount_other _ _ hf'] at hg'
        exact h3 fid' g' hne hg' hc' hb'
  · intro fid' g' hg' _
    by_cases hf' : fid' = fid
    · subst hf'
      rw [hg] at hg'
      cases hg'
      refine ⟨g.chunkcount ||| bitOf idx, hself, ?_⟩
      intro j
      rw [isMarked_inline_set hCS hb hidx s.heap s.heap j]
      simp
    · refine ⟨g'.chunkcount, ?_, ?_⟩
      · rw [getFattr_setChunkcount_other _ _ hf', hg']
      · intro j
        simp [hf']

/-- What a mark of block `idx` of the file `fid` does: the free store stays
well formed, every file keeps its attributes but for the slot, and the set
of marked blocks of each candidate changes by `idx` of `fid` only. -/
theorem markBlock_step {CHUNKSIZE : Int} (hCS : 0 < CHUNKSIZE) {s : ObjStoreFsck} {fid : Int}
    {g : MetaFattr} {idx : Nat} (hinv : HeapInv CHUNKSIZE s)
    (hg : getFattr s.metatree fid = some g) (hc : isCandidate g = true)
    (hidx : (idx : Int) ≤ Int.tdiv g.nextChunkOffset CHUNKSIZE) :
    HeapInv CHUNKSIZE (markBlock CHUNKSIZE s g idx).1 ∧
    ∀ fid' g', getFattr s.metatree fid' = some g' → isCandidate g' = true →
      ∃ c, getFattr (markBlock CHUNKSIZE s g idx).1.metatree fid' =
          some { g' with chunkcount := c } ∧
        ∀ j, isMarked CHUNKSIZE (markBlock CHUNKSIZE s g idx).1.heap
            { g' with chunkcount := c } j =
          (isMarked CHUNKSIZE s.heap g' j || decide (fid' = fid ∧ j = idx)) := by
  by_cases hb : HasBitmapSet CHUNKSIZE g = true
  · by_cases hp : g.chunkcount = 0
    · exact markBlock_step_new hinv hg hidx hb hp
    · cases ht : bitmapTest s.heap g.chunkcount idx
      · exact markBlock_step_bitmap hinv hg hc hidx hb hp ht
      · refine markBlock_step_dup hinv hg ?_ ?_
        · rw [markBlock_dup_bitmap s hb hp ht]
        · simpa [isMarked, hb, GetBitmapPtr] using ht
  · rw [Bool.not_eq_true] at hb
    by_cases ht : g.chunkcount &&& bitOf idx = 0
    · exact markBlock_step_inline hCS hinv hg hidx hb ht
    · refine markBlock_step_dup hinv hg ?_ ?_
      · rw [markBlock_dup_inline s hb ht]
      · simpa [isMarked, hb] using ht

/-! ## One key, one line, all lines -/

theorem isCandidate_iff (g : MetaFattr) :
    isCandidate g = true ↔
      g.type = FileType.KFS_FILE ∧ g.numReplicas = 0 ∧ 0 < g.filesize := by
  simp [isCandidate, and_assoc]

theorem ingestKey_not_candidate (CHUNKSIZE : Int) (s : ObjStoreFsck) {g : MetaFattr} (v : Int)
    (hc : isCandidate g = false) : (ingestKey CHUNKSIZE s g v).1 = s := by
  have hn : ¬ (g.type = FileType.KFS_FILE ∧ g.numReplicas = 0 ∧ 0 < g.filesize) := by
    rw [← isCandidate_iff, hc]; simp
  unfold ingestKey
  by_cases h1 : g.type = FileType.KFS_FILE
  · by_cases h2 : g.numReplicas = 0
    · have h3 : g.filesize ≤ 0 := by
        by_contra h3
        exact hn ⟨h1, h2, by omega⟩
      simp [h1, h2, h3]
    · simp [h1, h2]
  · simp [h1]

theorem ingestKey_bad_pos (CHUNKSIZE : Int) (s : ObjStoreFsck) {g : MetaFattr} {v : Int}
    (hpos : ¬ posOk CHUNKSIZE g v) : (ingestKey CHUNKSIZE s g v).1 = s := by
  unfold ingestKey
  split
  · rfl
  split
  · rfl
  split
  · rfl
  simp only []
  split
  · rfl
  split
  · rfl
  rename_i h4 h5
  exact absurd ⟨by omega, by tauto, by omega⟩ hpos

theorem ingestKey_ok (CHUNKSIZE : Int) (s : ObjStoreFsck) {g : MetaFattr} {v : Int}
    (hc : isCandidate g = true) (hpos : posOk CHUNKSIZE g v) :
    ingestKey CHUNKSIZE s g v =
      markBlock CHUNKSIZE s g (Int.tdiv (blockPos g v) CHUNKSIZE).toNat := by
  obtain ⟨h1, h2, h3⟩ := (isCandidate_iff g).1 hc
  obtain ⟨p1, p2, p3⟩ := hpos
  unfold ingestKey
  have h3' : ¬ g.filesize ≤ 0 := by omega
  have p1' : ¬ blockPos g v < 0 := by omega
  have p3' : ¬ g.nextChunkOffset < blockPos g v := by omega
  simp [h1, h2, h3', p1', p2, p3']

theorem idx_le_last {CHUNKSIZE : Int} (hCS : 0 < CHUNKSIZE) {g : MetaFattr} {v : Int}
    (hpos : posOk CHUNKSIZE g v) :
    (((Int.tdiv (blockPos g v) CHUNKSIZE).toNat : Nat) : Int) ≤
      Int.tdiv g.nextChunkOffset CHUNKSIZE := by
  obtain ⟨p1, _, p3⟩ := hpos
  rw [Int.toNat_of_nonneg (Int.tdiv_nonneg p1 (le_of_lt hCS)),
    Int.tdiv_eq_ediv p1 (le_of_lt hCS), Int.tdiv_eq_ediv (le_trans p1 p3) (le_of_lt hCS)]
  exact Int.ediv_le_ediv hCS p3

/-- What the checks and the mark of the ingest loop do for a decoded key of
the file `fid`. -/
theorem ingestKey_step {CHUNKSIZE : Int} (hCS : 0 < CHUNKSIZE) {s : ObjStoreFsck} {fid : Int}
    {g : MetaFattr} (v : Int) (hinv : HeapInv CHUNKSIZE s)
    (hg : getFattr s.metatree fid = some g) :
    HeapInv CHUNKSIZE (ingestKey CHUNKSIZE s g v).1 ∧
    ∀ fid' g', getFattr s.metatree fid' = some g' → isCandidate g' = true →
      ∃ c, getFattr (ingestKey CHUNKSIZE s g v).1.metatree fid' =
          some { g' with chunkcount := c } ∧
        ∀ j, isMarked CHUNKSIZE (ingestKey CHUNKSIZE s g v).1.heap
            { g' with chunkcount := c } j =
          (isMarked CHUNKSIZE s.heap g' j ||
            decide (fid' = fid ∧ posOk CHUNKSIZE g v ∧
              j = (Int.tdiv (blockPos g v) CHUNKSIZE).toNat)) := by
  by_cases hok : isCandidate g = true ∧ posOk CHUNKSIZE g v
  · obtain ⟨hc, hpos⟩ := hok
    rw [ingestKey_ok CHUNKSIZE s hc hpos]
    obtain ⟨h1, h2⟩ := markBlock_step hCS hinv hg hc (idx_le_last hCS hpos)
    refine ⟨h1, ?_⟩
    intro fid' g' hg' hc'
    obtain ⟨c, hc1, hc2⟩ := h2 fid' g' hg' hc'
    refine ⟨c, hc1, ?_⟩
    intro j
    rw [hc2 j]
    simp [hpos]
  · have hs : (ingestKey CHUNKSIZE s g v).1 = s := by
      by_cases hc : isCandidate g = true
      · exact ingestKey_bad_pos CHUNKSIZE s (fun hp => hok ⟨hc, hp⟩)
      · rw [Bool.not_eq_true] at hc
        exact ingestKey_not_candidate CHUNKSIZE s v hc
    rw [hs]
    refine ⟨hinv, ?_⟩
    intro fid' g' hg' hc'
    refine ⟨g'.chunkcount, hg', ?_⟩
    intro j
    have hcc : ({ g' with chunkcount := g'.chunkcount } : MetaFattr) = g' := rfl
    rw [hcc]
    have hfalse : ¬ (fid' = fid ∧ posOk CHUNKSIZE g v ∧
        j = (Int.tdiv (blockPos g v) CHUNKSIZE).toNat) := by
      rintro ⟨hf, hp, _⟩
      subst hf
      rw [hg] at hg'
      cases hg'
      exact hok ⟨hc', hp⟩
    simp [hfalse]

theorem parseKey_nil (K : KeyCodec) : parseKey K [] = none := by
  simp [parseKey]

/-- The lines that the ingest loop takes to the checks on the file: the
decoded key is canonical and its file exists. In every other case the tree
and the free store stay as they are. -/
theorem ingestLine_cases (CHUNKSIZE : Int) (K : KeyCodec) (fsId : Int) (s : ObjStoreFsck)
    (l : List Char) :
    (∃ fid v g, parseKey K l = some (fid, v) ∧
        K.AppendChunkFileNameOrObjectStoreBlockKey fsId fid fid v = some l ∧
        getFattr s.metatree fid = some g ∧
        ingestLine CHUNKSIZE K fsId s l =
          ingestKey CHUNKSIZE { s with theKeysCount := s.theKeysCount + 1 } g v) ∨
    ((ingestLine CHUNKSIZE K fsId s l).1.metatree = s.metatree ∧
      (ingestLine CHUNKSIZE K fsId s l).1.heap = s.heap ∧
      ∀ fid v, parseKey K l = some (fid, v) →
        K.AppendChunkFileNameOrObjectStoreBlockKey fsId fid fid v = some l →
        getFattr s.metatree fid = none) := by
  unfold ingestLine
  by_cases hl : l = []
  · subst hl
    right
    simp [parseKey_nil]
  · simp only [hl, if_false]
    cases hpk : parseKey K l with
    | none => right; simp
    | some p =>
      obtain ⟨fid, v⟩ := p
      simp only []
      cases happ : K.AppendChunkFileNameOrObjectStoreBlockKey fsId fid fid v with
      | none =>
        right
        refine ⟨rfl, rfl, ?_⟩
        intro fid' v' h1 h2
        cases h1
        rw [happ] at h2
        cases h2
      | some e =>
        simp only []
        by_cases he : e = l
        · subst he
          simp only [ne_eq, not_true_eq_false, if_false]
          cases hg : getFattr s.metatree fid with
          | none =>
            right
            refine ⟨rfl, rfl, ?_⟩
            intro fid' v' h1 _
            cases h1
            exact hg
          | some g =>
            left
            exact ⟨fid, v, g, rfl, happ, hg, rfl⟩
        · right
          simp only [ne_eq, he, not_false_eq_true, if_true]
          refine ⟨trivial, trivial, ?_⟩
          intro fid' v' h1 h2
          cases h1
          rw [happ] at h2
          cases h2
          exact absurd rfl he

/-- What one pass of the ingest loop does: the free store stays well
formed, every file keeps its attributes but for the slot, and a block of a
candidate is marked after the pass when it was marked before or the line is
an accepted key of that block. -/
theorem ingestLine_step {CHUNKSIZE : Int} (hCS : 0 < CHUNKSIZE) (K : KeyCodec) (fsId : Int)
    {s : ObjStoreFsck} (l : List Char) (hinv : HeapInv CHUNKSIZE s) :
    HeapInv CHUNKSIZE (ingestLine CHUNKSIZE K fsId s l).1 ∧
    ∀ fid' g', getFattr s.metatree fid' = some g' → isCandidate g' = true →
      ∃ c, getFattr (ingestLine CHUNKSIZE K fsId s l).1.metatree fid' =
          some { g' with chunkcount := c } ∧
        ∀ j, isMarked CHUNKSIZE (ingestLine CHUNKSIZE K fsId s l).1.heap
            { g' with chunkcount := c } j =
          (isMarked CHUNKSIZE s.heap g' j ||
            decide (acceptedIdx CHUNKSIZE K fsId g' l = some j)) := by
  rcases ingestLine_cases CHUNKSIZE K fsId s l with ⟨fid, v, g, hpk, happ, hg, heq⟩ | ⟨ht, hh, hno⟩
  · rw [heq]
    have hinv1 : HeapInv CHUNKSIZE { s with theKeysCount := s.theKeysCount + 1 } := hinv
    have hg1 : getFattr ({ s with theKeysCount := s.theKeysCount + 1 } : ObjStoreFsck).metatree
        fid = some g := hg
    obtain ⟨h1, h2⟩ := ingestKey_step hCS v hinv1 hg1
    refine ⟨h1, ?_⟩
    intro fid' g' hg' hc'
    obtain ⟨c, hc1, hc2⟩ := h2 fid' g' hg' hc'
    refine ⟨c, hc1, ?_⟩
    intro j
    rw [hc2 j]
    congr 1
    rw [decide_eq_decide]
    have hid' := getFattr_id hg'
    unfold acceptedIdx
    rw [hpk]
    simp only []
    constructor
    · rintro ⟨hf, hp, hj⟩
      subst hf
      rw [hg] at hg'
      cases hg'
      rw [if_pos ⟨hid'.symm, happ, hp⟩, hj]
    · intro h
      split at h
      · rename_i hcond
        obtain ⟨hf, _, hp⟩ := hcond
        have hff : fid' = fid := by rw [← hid', hf]
        subst hff
        rw [hg] at hg'
        cases hg'
        exact ⟨rfl, hp, (Option.some.inj h).symm⟩
      · cases h
  · constructor
    · intro fid1 g1 hg1 hc1 hb1 hp1
      rw [ht] at hg1
      rw [hh]
      obtain ⟨h1, h2, h3⟩ := hinv fid1 g1 hg1 hc1 hb1 hp1
      refine ⟨h1, h2, ?_⟩
      intro fid' g' hne hg'
      rw [ht] at hg'
      exact h3 fid' g' hne hg'
    · intro fid' g' hg' _
      refine ⟨g'.chunkcount, ?_, ?_⟩
      · rw [ht]; exact hg'
      · intro j
        have hcc : ({ g' with chunkcount := g'.chunkcount } : MetaFattr) = g' := rfl
        rw [hcc, hh]
        have hid' := getFattr_id hg'
        have hfalse : ¬ (acceptedIdx CHUNKSIZE K fsId g' l = some j) := by
          unfold acceptedIdx
          cases hpk : parseKey K l with
          | none => simp
          | some p =>
            obtain ⟨fid, v⟩ := p
            simp only []
            intro h
            split at h
            · rename_i hcond
              obtain ⟨hf, happ, _⟩ := hcond
              have hnone := hno fid v hpk happ
              rw [hf, hid', hg'] at hnone
              cases hnone
            · cases h
        simp [hfalse]

theorem getFattr_mem {tree : List Meta} {fid : Int} {g : MetaFattr}
    (h : getFattr tree fid = some g) : Meta.fattr g ∈ tree := by
  induction tree with
  | nil => simp [getFattr] at h
  | cons m rest ih =>
    cases m with
    | other => exact List.mem_cons_of_mem _ (ih (by simpa [getFattr] using h))
    | fattr f =>
      by_cases hf : f.id = fid
      · simp [getFattr, hf] at h
        rw [h]; exact List.mem_cons_self _ _
      · simp [getFattr, hf] at h
        exact List.mem_cons_of_mem _ (ih h)

theorem HeapInv_of_NullHandles {CHUNKSIZE : Int} {s : ObjStoreFsck}
    (h : NullHandles CHUNKSIZE s.metatree) : HeapInv CHUNKSIZE s := by
  intro fid g hg hc hb hp
  exact absurd (h g (getFattr_mem hg) hc hb) hp

/-- The marks of a candidate after the ingest loop: those it had before and
the blocks of the accepted keys of the input. -/
theorem ingest_marks {CHUNKSIZE : Int} (hCS : 0 < CHUNKSIZE) (K : KeyCodec) (fsId : Int)
    (lines : List (List Char)) :
    ∀ (s : ObjStoreFsck), HeapInv CHUNKSIZE s →
      HeapInv CHUNKSIZE (ingest CHUNKSIZE K fsId s lines) ∧
      ∀ fid g, getFattr s.metatree fid = some g → isCandidate g = true →
        ∃ c, getFattr (ingest CHUNKSIZE K fsId s lines).metatree fid =
            some { g with chunkcount := c } ∧
          ∀ j, isMarked CHUNKSIZE (ingest CHUNKSIZE K fsId s lines).heap
              { g with chunkcount := c } j = true ↔
            (isMarked CHUNKSIZE s.heap g j = true ∨
              ∃ l ∈ lines, acceptedIdx CHUNKSIZE K fsId g l = some j) := by
  induction lines with
  | nil =>
    intro s hinv
    refine ⟨hinv, ?_⟩
    intro fid g hg _
    exact ⟨g.chunkcount, hg, fun j => by simp [ingest]⟩
  | cons l rest ih =>
    intro s hinv
    obtain ⟨h1, h2⟩ := ingestLine_step hCS K fsId l hinv
    obtain ⟨i1, i2⟩ := ih (ingestLine CHUNKSIZE K fsId s l).1 h1
    have hunf : ingest CHUNKSIZE K fsId s (l :: rest) =
        ingest CHUNKSIZE K fsId (ingestLine CHUNKSIZE K fsId s l).1 rest := rfl
    rw [hunf]
    refine ⟨i1, ?_⟩
    intro fid g hg hc
    obtain ⟨c1, hc1, hm1⟩ := h2 fid g hg hc
    obtain ⟨c, hc2, hm2⟩ := i2 fid { g with chunkcount := c1 } hc1 hc
    refine ⟨c, hc2, ?_⟩
    intro j
    have hm := hm2 j
    simp only [] at hm
    rw [hm, hm1 j]
    have hacc : ∀ l', acceptedIdx CHUNKSIZE K fsId { g with chunkcount := c1 } l' =
        acceptedIdx CHUNKSIZE K fsId g l' := fun _ => rfl
    simp only [hacc, Bool.or_eq_true, decide_eq_true_iff, List.mem_cons, exists_eq_or_imp]
    tauto

/-- The loop condition of the scan in terms of the marks. -/
theorem scanPasses_iff {CHUNKSIZE : Int} (heap : List BlocksBitmap) (g : MetaFattr) (j : Nat) :
    scanPasses CHUNKSIZE heap g j ↔
      isMarked CHUNKSIZE heap g j = true ∧
        (HasBitmapSet CHUNKSIZE g = false →
          (j : Int) ≤ Int.tdiv g.nextChunkOffset CHUNKSIZE) := by
  unfold scanPasses isMarked
  cases hb : HasBitmapSet CHUNKSIZE g <;> simp
  tauto

/-- An accepted key addresses a block up to the last one. -/
theorem acceptedIdx_le {CHUNKSIZE : Int} (hCS : 0 < CHUNKSIZE) {K : KeyCodec} {fsId : Int}
    {g : MetaFattr} {l : List Char} {j : Nat}
    (h : acceptedIdx CHUNKSIZE K fsId g l = some j) :
    (j : Int) ≤ Int.tdiv g.nextChunkOffset CHUNKSIZE := by
  unfold acceptedIdx at h
  split at h
  · cases h
  · split at h
    · rename_i hcond
      cases h
      exact idx_le_last hCS hcond.2.2
    · cases h

theorem isMarked_zero {CHUNKSIZE : Int} (heap : List BlocksBitmap) {g : MetaFattr}
    (h0 : g.chunkcount = 0) (j : Nat) : isMarked CHUNKSIZE heap g j = false := by
  unfold isMarked
  cases hb : HasBitmapSet CHUNKSIZE g
  · simp [h0]
  · simp [h0, bitmapTest, GetBitmapPtr, deref]

/-! ## Marks in the inline mask -/

theorem markFile_inline_step {CHUNKSIZE : Int} (hCS : 0 < CHUNKSIZE) {s : ObjStoreFsck}
    {fid : Int} {g : MetaFattr} {idx : Nat} (hg : getFattr s.metatree fid = some g)
    (hb : HasBitmapSet CHUNKSIZE g = false)
    (hidx : (idx : Int) ≤ Int.tdiv g.nextChunkOffset CHUNKSIZE) :
    ∃ c, getFattr (markFile CHUNKSIZE fid s idx).metatree fid = some { g with chunkcount := c } ∧
      ∀ (heap heap' : List BlocksBitmap) (j : Nat),
        isMarked CHUNKSIZE heap' { g with chunkcount := c } j =
          (isMarked CHUNKSIZE heap g j || decide (j = idx)) := by
  have hgid := getFattr_id hg
  subst hgid
  unfold markFile
  rw [hg]
  simp only []
  by_cases ht : g.chunkcount &&& bitOf idx = 0
  · rw [markBlock_set_inline s hb ht]
    refine ⟨g.chunkcount ||| bitOf idx, ?_, ?_⟩
    · simp only []
      rw [getFattr_setChunkcount_same, hg]; rfl
    · intro heap heap' j
      exact isMarked_inline_set hCS hb hidx heap heap' j
  · rw [markBlock_dup_inline s hb ht]
    refine ⟨g.chunkcount, hg, ?_⟩
    intro heap heap' j
    have hcc : ({ g with chunkcount := g.chunkcount } : MetaFattr) = g := rfl
    rw [hcc, isMarked_inline hb heap heap' j]
    by_cases hj : j = idx
    · subst hj
      have : isMarked CHUNKSIZE heap g j = true := by simpa [isMarked, hb] using ht
      simp [this]
    · simp [hj]

theorem markFile_inline_fold {CHUNKSIZE : Int} (hCS : 0 < CHUNKSIZE) {fid : Int}
    (idxs : List Nat) :
    ∀ (s : ObjStoreFsck) (g : MetaFattr), getFattr s.metatree fid = some g →
      HasBitmapSet CHUNKSIZE g = false →
      (∀ i ∈ idxs, (i : Int) ≤ Int.tdiv g.nextChunkOffset CHUNKSIZE) →
      ∃ c, getFattr (idxs.foldl (markFile CHUNKSIZE fid) s).metatree fid =
          some { g with chunkcount := c } ∧
        ∀ (heap heap' : List BlocksBitmap) (j : Nat),
          isMarked CHUNKSIZE heap' { g with chunkcount := c } j = true ↔
            (isMarked CHUNKSIZE heap g j = true ∨ j ∈ idxs) := by
  induction idxs with
  | nil =>
    intro s g hg hb _
    refine ⟨g.chunkcount, hg, ?_⟩
    intro heap heap' j
    have hcc : ({ g with chunkcount := g.chunkcount } : MetaFattr) = g := rfl
    rw [hcc, isMarked_inline hb heap heap' j]
    simp
  | cons i rest ih =>
    intro s g hg hb hall
    obtain ⟨c1, hc1, hm1⟩ := markFile_inline_step hCS hg hb (hall i (List.mem_cons_self _ _))
    obtain ⟨c, hc2, hm2⟩ := ih (markFile CHUNKSIZE fid s i) { g with chunkcount := c1 } hc1 hb
      (fun k hk => hall k (List.mem_cons_of_mem _ hk))
    refine ⟨c, hc2, ?_⟩
    intro heap heap' j
    have hm := hm2 heap heap' j
    simp only [] at hm
    rw [hm, hm1 heap heap j]
    simp only [Bool.or_eq_true, decide_eq_true_iff, List.mem_cons]
    tauto

/-! ## Outcomes of a line -/

theorem ingestKey_not_candidate_result (CHUNKSIZE : Int) (s : ObjStoreFsck) {g : MetaFattr}
    (v : Int) (hc : isCandidate g = false) :
    (ingestKey CHUNKSIZE s g v).2 = KeyResult.wrongType ∨
    (ingestKey CHUNKSIZE s g v).2 = KeyResult.replicated ∨
    (ingestKey CHUNKSIZE s g v).2 = KeyResult.zeroSize := by
  have hn : ¬ (g.type = FileType.KFS_FILE ∧ g.numReplicas = 0 ∧ 0 < g.filesize) := by
    rw [← isCandidate_iff, hc]; simp
  unfold ingestKey
  by_cases h1 : g.type = FileType.KFS_FILE
  · by_cases h2 : g.numReplicas = 0
    · have h3 : g.filesize ≤ 0 := by
        by_contra h3
        exact hn ⟨h1, h2, by omega⟩
      simp [h1, h2, h3]
    · simp [h1, h2]
  · simp [h1]

theorem ingestKey_bad_pos_result (CHUNKSIZE : Int) (s : ObjStoreFsck) {g : MetaFattr} {v : Int}
    (hc : isCandidate g = true) (hpos : ¬ posOk CHUNKSIZE g v) :
    (ingestKey CHUNKSIZE s g v).2 = KeyResult.badPosition ∨
    (ingestKey CHUNKSIZE s g v).2 = KeyResult.pastLastBlock := by
  obtain ⟨h1, h2, h3⟩ := (isCandidate_iff g).1 hc
  have h3' : ¬ g.filesize ≤ 0 := by omega
  unfold ingestKey
  simp only [h1, h2, h3', ne_eq, not_true_eq_false, if_false]
  by_cases hp1 : blockPos g v < 0 ∨ Int.tmod (blockPos g v) CHUNKSIZE ≠ 0
  · simp [hp1]
  · rw [if_neg hp1]
    by_cases hp2 : g.nextChunkOffset < blockPos g v
    · simp [hp2]
    · exact absurd ⟨by omega, by tauto, by omega⟩ hpos

theorem markBlock_result (CHUNKSIZE : Int) (s : ObjStoreFsck) (g : MetaFattr) (idx : Nat) :
    (markBlock CHUNKSIZE s g idx).2 = KeyResult.marked ∨
    (markBlock CHUNKSIZE s g idx).2 = KeyResult.duplicate := by
  by_cases hb : HasBitmapSet CHUNKSIZE g = true
  · by_cases hp : g.chunkcount = 0
    · rw [markBlock_new s idx hb hp]; exact Or.inl rfl
    · cases ht : bitmapTest s.heap g.chunkcount idx
      · rw [markBlock_set_bitmap s hb hp ht]; exact Or.inl rfl
      · rw [markBlock_dup_bitmap s hb hp ht]; exact Or.inr rfl
  · rw [Bool.not_eq_true] at hb
    by_cases ht : g.chunkcount &&& bitOf idx = 0
    · rw [markBlock_set_inline s hb ht]; exact Or.inl rfl
    · rw [markBlock_dup_inline s hb ht]; exact Or.inr rfl

/-- A mark of a block that is marked already is the "duplicate input key"
branch and changes nothing. -/
theorem markBlock_of_marked {CHUNKSIZE : Int} (s : ObjStoreFsck) {g : MetaFattr} {idx : Nat}
    (hm : isMarked CHUNKSIZE s.heap g idx = true) :
    markBlock CHUNKSIZE s g idx = (s, KeyResult.duplicate) := by
  by_cases hb : HasBitmapSet CHUNKSIZE g = true
  · have ht : bitmapTest s.heap g.chunkcount idx = true := by
      simpa [isMarked, hb, GetBitmapPtr] using hm
    have hp : g.chunkcount ≠ 0 := by
      intro h
      rw [h] at ht
      simp [bitmapTest, deref] at ht
    exact markBlock_dup_bitmap s hb hp ht
  · rw [Bool.not_eq_true] at hb
    have ht : g.chunkcount &&& bitOf idx ≠ 0 := by
      simpa [isMarked, hb] using hm
    exact markBlock_dup_inline s hb ht

/-- The mark of a block that is not marked yet has the result `marked`. -/
theorem markBlock_of_not_marked {CHUNKSIZE : Int} (s : ObjStoreFsck) {g : MetaFattr}
    {idx : Nat} (hm : isMarked CHUNKSIZE s.heap g idx = false) :
    (markBlock CHUNKSIZE s g idx).2 = KeyResult.marked := by
  by_cases hb : HasBitmapSet CHUNKSIZE g = true
  · by_cases hp : g.chunkcount = 0
    · rw [markBlock_new s idx hb hp]
    · have ht : bitmapTest s.heap g.chunkcount idx = false := by
        simpa [isMarked, hb, GetBitmapPtr] using hm
      rw [markBlock_set_bitmap s hb hp ht]
  · rw [Bool.not_eq_true] at hb
    have ht : g.chunkcount &&& bitOf idx = 0 := by
      simpa [isMarked, hb] using hm
    rw [markBlock_set_inline s hb ht]

/-- The pass of the ingest loop on a decoded, canonical key of an existing
file is the checks on that file. -/
theorem ingestLine_eq (CHUNKSIZE : Int) {K : KeyCodec} {fsId : Int} (s : ObjStoreFsck)
    {l : List Char} {fid v : Int} {g : MetaFattr} (hpk : parseKey K l = some (fid, v))
    (happ : K.AppendChunkFileNameOrObjectStoreBlockKey fsId fid fid v = some l)
    (hg : getFattr s.metatree fid = some g) :
    ingestLine CHUNKSIZE K fsId s l =
      ingestKey CHUNKSIZE { s with theKeysCount := s.theKeysCount + 1 } g v := by
  have hl : l ≠ [] := by
    intro h
    rw [h, parseKey_nil] at hpk
    cases hpk
  unfold ingestLine
  simp [hl, hpk, happ, hg]

/-- Every way a pass of the ingest loop can end before the checks on the
file. -/
theorem ingestLine_skip_result (CHUNKSIZE : Int) (K : KeyCodec) (fsId : Int) (s : ObjStoreFsck)
    (l : List Char) :
    (∃ fid v g, parseKey K l = some (fid, v) ∧
        K.AppendChunkFileNameOrObjectStoreBlockKey fsId fid fid v = some l ∧
        getFattr s.metatree fid = some g) ∨
    (ingestLine CHUNKSIZE K fsId s l).2 = KeyResult.emptyLine ∨
    (ingestLine CHUNKSIZE K fsId s l).2 = KeyResult.malformed ∨
    (ingestLine CHUNKSIZE K fsId s l).2 = KeyResult.generationFailure ∨
    (ingestLine CHUNKSIZE K fsId s l).2 = KeyResult.invalidKey ∨
    (ingestLine CHUNKSIZE K fsId s l).2 = KeyResult.noSuchFile := by
  unfold ingestLine
  by_cases hl : l = []
  · simp [hl]
  · simp only [hl, if_false]
    cases hpk : parseKey K l with
    | none => simp
    | some p =>
      obtain ⟨fid, v⟩ := p
      simp only []
      cases happ : K.AppendChunkFileNameOrObjectStoreBlockKey fsId fid fid v with
      | none => simp
      | some e =>
        simp only []
        by_cases he : e = l
        · subst he
          simp only [ne_eq, not_true_eq_false, if_false]
          cases hg : getFattr s.metatree fid with
          | none => simp
          | some g => exact Or.inl ⟨fid, v, g, rfl, happ, hg⟩
        · simp [he]

/-- A line that reaches the mark: its key decodes, is canonical, addresses a
candidate, and passes the position checks. -/
theorem ingestLine_reaches_mark {CHUNKSIZE : Int} {K : KeyCodec} {fsId : Int}
    {s : ObjStoreFsck} {l : List Char}
    (h : (ingestLine CHUNKSIZE K fsId s l).2 = KeyResult.marked ∨
      (ingestLine CHUNKSIZE K fsId s l).2 = KeyResult.duplicate) :
    ∃ fid v g, parseKey K l = some (fid, v) ∧
      K.AppendChunkFileNameOrObjectStoreBlockKey fsId fid fid v = some l ∧
      getFattr s.metatree fid = some g ∧ isCandidate g = true ∧ posOk CHUNKSIZE g v ∧
      ingestLine CHUNKSIZE K fsId s l =
        markBlock CHUNKSIZE { s with theKeysCount := s.theKeysCount + 1 } g
          (Int.tdiv (blockPos g v) CHUNKSIZE).toNat := by
  rcases ingestLine_skip_result CHUNKSIZE K fsId s l with
    ⟨fid, v, g, hpk, happ, hg⟩ | h1 | h1 | h1 | h1 | h1
  · have heq := ingestLine_eq CHUNKSIZE s hpk happ hg
    rw [heq] at h
    by_cases hc : isCandidate g = true
    · by_cases hpos : posOk CHUNKSIZE g v
      · exact ⟨fid, v, g, hpk, happ, hg, hc, hpos, by rw [heq, ingestKey_ok _ _ hc hpos]⟩
      · rcases ingestKey_bad_pos_result CHUNKSIZE
          { s with theKeysCount := s.theKeysCount + 1 } hc hpos with h2 | h2 <;>
          rw [h2] at h <;> simp at h
    · rw [Bool.not_eq_true] at hc
      rcases ingestKey_not_candidate_result CHUNKSIZE
        { s with theKeysCount := s.theKeysCount + 1 } v hc with h2 | h2 | h2 <;>
        rw [h2] at h <;> simp at h
  all_goals (rw [h1] at h; simp at h)

/-- The handles of the example tree are null. -/
theorem sampleRun_null : NullHandles sampleChunk sampleRun.metatree := by
  intro g hg hc hb
  simp only [sampleRun, List.mem_cons, List.mem_singleton, Meta.fattr.injEq,
    List.not_mem_nil, or_false] at hg
  rcases hg with hg | hg | hg | hg
  · cases hg
  · subst hg; rfl
  · subst hg; exact absurd hc (by decide)
  · subst hg; rfl

theorem dropWhile_no_dot {l : List Char} (h : '.' ∉ l) :
    l.dropWhile (fun c => c ≠ '.') = [] := by
  induction l with
  | nil => rfl
  | cons c rest ih =>
    have hc : c ≠ '.' := fun hc => h (by rw [hc]; exact List.mem_cons_self _ _)
    have hr : '.' ∉ rest := fun hr => h (List.mem_cons_of_mem _ hr)
    rw [List.dropWhile_cons, if_pos (by simpa using hc)]
    exact ih hr

theorem dropWhile_first_dot {pre : List Char} (p1 : List Char) (h : '.' ∉ pre) :
    (pre ++ '.' :: p1).dropWhile (fun c => c ≠ '.') = '.' :: p1 := by
  induction pre with
  | nil => simp [List.dropWhile]
  | cons c rest ih =>
    have hc : c ≠ '.' := fun hc => h (by rw [hc]; exact List.mem_cons_self _ _)
    have hr : '.' ∉ rest := fun hr => h (List.mem_cons_of_mem _ hr)
    rw [List.cons_append, List.dropWhile_cons, if_pos (by simpa using hc)]
    exact ih hr

/-- The lines the decoding condition rejects, field by field. -/
theorem parseKey_eq_none_iff (K : KeyCodec) {pre : List Char} (p1 : List Char)
    (h : '.' ∉ pre) :
    parseKey K (pre ++ '.' :: p1) = none ↔
      (p1 = [] ∨ K.Parse p1 = none ∨
        ∃ fid p2, K.Parse p1 = some (fid, p2) ∧
          (fid < 0 ∨ p2.head? ≠ some '.' ∨
            ∃ p3, p2 = '.' :: p3 ∧
              (p3 = [] ∨ K.Parse p3 = none ∨
                ∃ v p4, K.Parse p3 = some (v, p4) ∧ (0 ≤ v ∨ p4.head? ≠ some '.')))) := by
  unfold parseKey
  rw [dropWhile_first_dot p1 h]
  simp only []
  by_cases hp1 : p1 = []
  · simp [hp1]
  simp only [hp1, if_false, false_or]
  cases hP1 : K.Parse p1 with
  | none => simp
  | some r1 =>
    obtain ⟨fid, p2⟩ := r1
    by_cases hfid : fid < 0
    · simp [hfid, and_assoc]
    cases p2 with
    | nil => simp [hfid, and_assoc]
    | cons c2 p3 =>
      by_cases hc2 : c2 = '.'
      · subst hc2
        by_cases hp3 : p3 = []
        · simp [hfid, hp3, and_assoc]
        cases hP3 : K.Parse p3 with
        | none => simp [hfid, hp3, hP3, and_assoc]
        | some r3 =>
          obtain ⟨v, p4⟩ := r3
          by_cases hv : 0 ≤ v
          · simp [hfid, hp3, hP3, hv, and_assoc]
          cases p4 with
          | nil => simp [hfid, hp3, hP3, hv, and_assoc]
          | cons c4 p5 =>
            by_cases hc4 : c4 = '.'
            · simp [hfid, hp3, hP3, hv, hc4, and_assoc]
            · simp [hfid, hp3, hP3, hv, hc4, and_assoc]
      · simp [hfid, hc2, and_assoc]

theorem ingestKey_result_cases (CHUNKSIZE : Int) (s : ObjStoreFsck) (g : MetaFattr) (v : Int) :
    (ingestKey CHUNKSIZE s g v).2 = KeyResult.wrongType ∨
    (ingestKey CHUNKSIZE s g v).2 = KeyResult.replicated ∨
    (ingestKey CHUNKSIZE s g v).2 = KeyResult.zeroSize ∨
    (ingestKey CHUNKSIZE s g v).2 = KeyResult.badPosition ∨
    (ingestKey CHUNKSIZE s g v).2 = KeyResult.pastLastBlock ∨
    (ingestKey CHUNKSIZE s g v).2 = KeyResult.marked ∨
    (ingestKey CHUNKSIZE s g v).2 = KeyResult.duplicate := by
  by_cases hc : isCandidate g = true
  · by_cases hpos : posOk CHUNKSIZE g v
    · rw [ingestKey_ok _ _ hc hpos]
      rcases markBlock_result CHUNKSIZE s g (Int.tdiv (blockPos g v) CHUNKSIZE).toNat with h | h
      · simp [h]
      · simp [h]
    · rcases ingestKey_bad_pos_result CHUNKSIZE s hc hpos with h | h
      · simp [h]
      · simp [h]
  · rw [Bool.not_eq_true] at hc
    rcases ingestKey_not_candidate_result CHUNKSIZE s v hc with h | h | h
    · simp [h]
    · simp [h]
    · simp [h]

/-- A non-empty line is logged as malformed exactly when the decoding
condition rejects it, and then only the key counter changes. -/
theorem ingestLine_malformed_iff (CHUNKSIZE : Int) (K : KeyCodec) (fsId : Int)
    (s : ObjStoreFsck) {l : List Char} (hl : l ≠ []) :
    ((ingestLine CHUNKSIZE K fsId s l).2 = KeyResult.malformed ↔ parseKey K l = none) ∧
    (parseKey K l = none →
      ingestLine CHUNKSIZE K fsId s l =
        ({ s with theKeysCount := s.theKeysCount + 1 }, KeyResult.malformed)) := by
  have hback : parseKey K l = none →
      ingestLine CHUNKSIZE K fsId s l =
        ({ s with theKeysCount := s.theKeysCount + 1 }, KeyResult.malformed) := by
    intro h
    unfold ingestLine
    simp [hl, h]
  refine ⟨⟨?_, fun h => by rw [hback h]⟩, hback⟩
  intro h
  cases hpk : parseKey K l with
  | none => rfl
  | some p =>
    exfalso
    obtain ⟨fid, v⟩ := p
    unfold ingestLine at h
    simp only [hl, if_false, hpk] at h
    cases happ : K.AppendChunkFileNameOrObjectStoreBlockKey fsId fid fid v with
    | none =>
      rw [happ] at h
      simp at h
    | some e =>
      rw [happ] at h
      simp only [] at h
      by_cases he : e = l
      · subst he
        simp only [ne_eq, not_true_eq_false, if_false] at h
        cases hg : getFattr s.metatree fid with
        | none =>
          rw [hg] at h
          simp at h
        | some g =>
          rw [hg] at h
          simp only [] at h
          rcases ingestKey_result_cases CHUNKSIZE
            { s with theKeysCount := s.theKeysCount + 1 } g v
            with h2 | h2 | h2 | h2 | h2 | h2 | h2 <;> rw [h2] at h <;> simp at h
      · simp [he] at h

/-! ## Files that are not candidates -/

theorem setChunkcount_keeps (fid : Int) (c : Nat) (g : MetaFattr) (hrep : g.numReplicas ≠ 0) :
    ∀ (tree : List Meta) (i : Nat),
      (∀ g', getFattr tree fid = some g' → g'.numReplicas = 0) →
      tree[i]? = some (Meta.fattr g) →
      (setChunkcount tree fid c)[i]? = some (Meta.fattr g) := by
  intro tree
  induction tree with
  | nil => intro i _ hi; simp at hi
  | cons m rest ih =>
    intro i hcand hi
    cases m with
    | other =>
      cases i with
      | zero => simp at hi
      | succ k =>
        simp only [setChunkcount, List.getElem?_cons_succ] at hi ⊢
        exact ih k (fun g' hg' => hcand g' (by simpa [getFattr] using hg')) hi
    | fattr f =>
      by_cases hf : f.id = fid
      · cases i with
        | zero =>
          simp only [List.getElem?_cons_zero, Option.some.injEq, Meta.fattr.injEq] at hi
          subst hi
          exact absurd (hcand f (by simp [getFattr, hf])) hrep
        | succ k =>
          simp only [setChunkcount, hf, if_true, List.getElem?_cons_succ] at hi ⊢
          exact hi
      · cases i with
        | zero =>
          simp only [setChunkcount, hf, if_false, List.getElem?_cons_zero] at hi ⊢
          exact hi
        | succ k =>
          simp only [setChunkcount, hf, if_false, List.getElem?_cons_succ] at hi ⊢
          exact ih k (fun g' hg' => hcand g' (by simpa [getFattr, hf] using hg')) hi

theorem markBlock_tree (CHUNKSIZE : Int) (s : ObjStoreFsck) (g : MetaFattr) (idx : Nat) :
    (markBlock CHUNKSIZE s g idx).1.metatree = s.metatree ∨
    ∃ c, (markBlock CHUNKSIZE s g idx).1.metatree = setChunkcount s.metatree g.id c := by
  by_cases hb : HasBitmapSet CHUNKSIZE g = true
  · by_cases hp : g.chunkcount = 0
    · rw [markBlock_new s idx hb hp]; exact Or.inr ⟨_, rfl⟩
    · cases ht : bitmapTest s.heap g.chunkcount idx
      · rw [markBlock_set_bitmap s hb hp ht]; exact Or.inl rfl
      · rw [markBlock_dup_bitmap s hb hp ht]; exact Or.inl rfl
  · rw [Bool.not_eq_true] at hb
    by_cases ht : g.chunkcount &&& bitOf idx = 0
    · rw [markBlock_set_inline s hb ht]; exact Or.inr ⟨_, rfl⟩
    · rw [markBlock_dup_inline s hb ht]; exact Or.inl rfl

/-- A pass of the ingest loop leaves every node with a replication factor
other than zero as it is. -/
theorem ingestLine_keeps (CHUNKSIZE : Int) (K : KeyCodec) (fsId : Int) (s : ObjStoreFsck)
    (l : List Char) (g : MetaFattr) (hrep : g.numReplicas ≠ 0) (i : Nat)
    (hi : s.metatree[i]? = some (Meta.fattr g)) :
    (ingestLine CHUNKSIZE K fsId s l).1.metatree[i]? = some (Meta.fattr g) := by
  rcases ingestLine_cases CHUNKSIZE K fsId s l with
    ⟨fid, v, g', _, _, hg', heq⟩ | ⟨ht, _, _⟩
  · rw [heq]
    by_cases hok : isCandidate g' = true ∧ posOk CHUNKSIZE g' v
    · obtain ⟨hc, hpos⟩ := hok
      rw [ingestKey_ok CHUNKSIZE _ hc hpos]
      rcases markBlock_tree CHUNKSIZE { s with theKeysCount := s.theKeysCount + 1 } g'
        (Int.tdiv (blockPos g' v) CHUNKSIZE).toNat with h | ⟨c, h⟩
      · rw [h]; exact hi
      · rw [h, getFattr_id hg']
        refine setChunkcount_keeps fid c g hrep _ i ?_ hi
        intro g'' hg''
        have hg1 : getFattr s.metatree fid = some g'' := hg''
        rw [hg'] at hg1
        cases hg1
        exact ((isCandidate_iff g').1 hc).2.1
    · have hs : (ingestKey CHUNKSIZE { s with theKeysCount := s.theKeysCount + 1 } g' v).1 =
          { s with theKeysCount := s.theKeysCount + 1 } := by
        by_cases hc : isCandidate g' = true
        · exact ingestKey_bad_pos CHUNKSIZE _ (fun hp => hok ⟨hc, hp⟩)
        · rw [Bool.not_eq_true] at hc
          exact ingestKey_not_candidate CHUNKSIZE _ v hc
      rw [hs]
      exact hi
  · rw [ht]; exact hi

theorem ingest_keeps (CHUNKSIZE : Int) (K : KeyCodec) (fsId : Int) (g : MetaFattr)
    (hrep : g.numReplicas ≠ 0) (i : Nat) (lines : List (List Char)) :
    ∀ s : ObjStoreFsck, s.metatree[i]? = some (Meta.fattr g) →
      (ingest CHUNKSIZE K fsId s lines).metatree[i]? = some (Meta.fattr g) := by
  induction lines with
  | nil => intro s hi; exact hi
  | cons l rest ih =>
    intro s hi
    exact ih _ (ingestLine_keeps CHUNKSIZE K fsId s l g hrep i hi)

/-- The files a run of the scanner reports or submits are candidates among
the leaves it walks, each flagged lost: in query mode their ids are added
to the queue, in validation mode their path names to the output. -/
theorem NextLoop_flags_candidates (CHUNKSIZE : Int) (enqueue : Nat → Bool)
    (getPathname : MetaFattr → String) (leaves : List Meta) :
    ∀ (hasOp : Bool) (s : ObjStoreFsck),
      ∃ flagged : List MetaFattr,
        (∀ h ∈ flagged, Meta.fattr h ∈ leaves ∧ isCandidate h = true ∧
          isLost CHUNKSIZE s.heap h = true) ∧
        (NextLoop CHUNKSIZE enqueue getPathname leaves hasOp s).queue =
          s.queue ++ (if s.mQueryFlag then flagged.map (fun h => h.id) else []) ∧
        (NextLoop CHUNKSIZE enqueue getPathname leaves hasOp s).cout =
          s.cout ++ (if s.mQueryFlag then [] else flagged.map getPathname) := by
  induction leaves with
  | nil =>
    intro hasOp s
    exact ⟨[], by simp, by simp [NextLoop], by simp [NextLoop]⟩
  | cons m rest ih =>
    intro hasOp s
    have lift : ∀ (op : Bool) (s1 : ObjStoreFsck), s1.heap = s.heap →
        s1.mQueryFlag = s.mQueryFlag → s1.queue = s.queue → s1.cout = s.cout →
        ∃ flagged : List MetaFattr,
          (∀ h ∈ flagged, Meta.fattr h ∈ m :: rest ∧ isCandidate h = true ∧
            isLost CHUNKSIZE s.heap h = true) ∧
          (NextLoop CHUNKSIZE enqueue getPathname rest op s1).queue =
            s.queue ++ (if s.mQueryFlag then flagged.map (fun h => h.id) else []) ∧
          (NextLoop CHUNKSIZE enqueue getPathname rest op s1).cout =
            s.cout ++ (if s.mQueryFlag then [] else flagged.map getPathname) := by
      intro op s1 hh hq hqu hco
      obtain ⟨fl, h1, h2, h3⟩ := ih op s1
      rw [hh, hq, hqu, hco] at *
      exact ⟨fl, fun h hm => ⟨List.mem_cons_of_mem _ (h1 h hm).1, (h1 h hm).2⟩, h2, h3⟩
    cases m with
    | other =>
      simp only [NextLoop]
      exact lift hasOp s rfl rfl rfl rfl
    | fattr f =>
      by_cases hc : isCandidate f = true
      · have hc' := (isCandidate_iff f).1 hc
        have hnot : ¬ (f.type ≠ FileType.KFS_FILE ∨ f.numReplicas ≠ 0 ∨ f.filesize ≤ 0) := by
          rintro (h | h | h)
          · exact h hc'.1
          · exact h hc'.2.1
          · omega
        simp only [NextLoop, hnot, if_false]
        by_cases hlost : isLost CHUNKSIZE s.heap f = true
        · simp only [hlost, if_true]
          cases hq : s.mQueryFlag
          · simp only [Bool.false_eq_true, if_false]
            obtain ⟨fl, h1, h2, h3⟩ := ih hasOp (ReportLost s (getPathname f))
            refine ⟨f :: fl, ?_, ?_, ?_⟩
            · intro h hm
              rcases List.mem_cons.1 hm with rfl | hm
              · exact ⟨List.mem_cons_self _ _, hc, hlost⟩
              · exact ⟨List.mem_cons_of_mem _ (h1 h hm).1, (h1 h hm).2⟩
            · rw [h2]
              simp [ReportLost, hq]
            · rw [h3]
              simp [ReportLost, hq]
          · simp only [if_true]
            by_cases hcap : hasOp = false ∧ s.mMaxInFlightCnt ≤ s.mInFlightCnt
            · rw [if_pos hcap]
              exact ⟨[], by simp, by simp [hq], by simp [hq]⟩
            · rw [if_neg hcap]
              cases henq : enqueue rest.length
              · simp only [Bool.false_eq_true, if_false]
                exact ⟨[], by simp, by simp [hq], by simp [hq]⟩
              · simp only [if_true]
                obtain ⟨fl, h1, h2, h3⟩ := ih false
                  { s with mInFlightCnt := s.mInFlightCnt + 1, queue := s.queue ++ [f.id] }
                simp only [hq] at h1 h2 h3
                refine ⟨f :: fl, ?_, ?_, ?_⟩
                · intro h hm
                  rcases List.mem_cons.1 hm with rfl | hm
                  · exact ⟨List.mem_cons_self _ _, hc, hlost⟩
                  · exact ⟨List.mem_cons_of_mem _ (h1 h hm).1, (h1 h hm).2⟩
                · rw [h2]
                  simp [hq]
                · rw [h3]
                  simp [hq]
        · simp only [hlost, if_false]
          exact lift hasOp s rfl rfl rfl rfl
      · have hyes : f.type ≠ FileType.KFS_FILE ∨ f.numReplicas ≠ 0 ∨ f.filesize ≤ 0 := by
          by_contra hno
          apply hc
          rw [isCandidate_iff]
          refine ⟨?_, ?_, ?_⟩
          · by_contra h; exact hno (Or.inl h)
          · by_contra h; exact hno (Or.inr (Or.inl h))
          · by_contra h; exact hno (Or.inr (Or.inr (by omega)))
        simp only [NextLoop, hyes, if_true]
        exact lift hasOp s rfl rfl rfl rfl

/-! ## The count of requests in flight -/

/-- A run of the scanner keeps the count of requests in flight equal to the
length of the queue and within the bound. When it runs with a request to
reuse, the count is below the bound at the start. -/
theorem NextLoop_inflight (CHUNKSIZE : Int) (enqueue : Nat → Bool)
    (getPathname : MetaFattr → String) (leaves : List Meta) :
    ∀ (hasOp : Bool) (s : ObjStoreFsck),
      s.mInFlightCnt = s.queue.length → s.mInFlightCnt ≤ s.mMaxInFlightCnt →
      (hasOp = true → s.mInFlightCnt < s.mMaxInFlightCnt) →
      (NextLoop CHUNKSIZE enqueue getPathname leaves hasOp s).mInFlightCnt =
          (NextLoop CHUNKSIZE enqueue getPathname leaves hasOp s).queue.length ∧
        (NextLoop CHUNKSIZE enqueue getPathname leaves hasOp s).mInFlightCnt ≤
          s.mMaxInFlightCnt ∧
        (NextLoop CHUNKSIZE enqueue getPathname leaves hasOp s).mMaxInFlightCnt =
          s.mMaxInFlightCnt ∧
        (NextLoop CHUNKSIZE enqueue getPathname leaves hasOp s).mQueryFlag = s.mQueryFlag := by
  induction leaves with
  | nil =>
    intro hasOp s h1 h2 _
    exact ⟨h1, h2, rfl, rfl⟩
  | cons m rest ih =>
    intro hasOp s h1 h2 h3
    cases m with
    | other =>
      simp only [NextLoop]
      exact ih hasOp s h1 h2 h3
    | fattr f =>
      simp only [NextLoop]
      split
      · exact ih hasOp s h1 h2 h3
      · split
        · split
          · split
            · exact ⟨h1, h2, rfl, rfl⟩
            · rename_i hcap
              split
              · have hlt : s.mInFlightCnt < s.mMaxInFlightCnt := by
                  cases hasOp with
                  | true => exact h3 rfl
                  | false =>
                    by_contra hge
                    exact hcap ⟨rfl, by omega⟩
                exact ih false
                  { s with mInFlightCnt := s.mInFlightCnt + 1, queue := s.queue ++ [f.id] }
                  (by simp [h1]) (by simp only []; omega) (fun h => by cases h)
              · refine ⟨?_, ?_, rfl, rfl⟩
                · simp only []
                  omega
                · simp only []
                  omega
          · exact ih hasOp (ReportLost s (getPathname f)) h1 h2 h3
        · exact ih hasOp s h1 h2 h3

/-- A completion in query mode, after the client has taken the request off
its queue, keeps the count equal to the length of the queue and within the
bound. -/
theorem OpDone_inflight (CHUNKSIZE : Int) (enqueue : Nat → Bool)
    (getPathname : MetaFattr → String) (status : Int) (pathname : String) (canceled : Bool)
    (s : ObjStoreFsck) (hq : s.mQueryFlag = true)
    (h1 : s.mInFlightCnt = s.queue.length + 1) (h2 : s.mInFlightCnt ≤ s.mMaxInFlightCnt) :
    (OpDone CHUNKSIZE enqueue getPathname status pathname canceled s).mInFlightCnt =
        (OpDone CHUNKSIZE enqueue getPathname status pathname canceled s).queue.length ∧
      (OpDone CHUNKSIZE enqueue getPathname status pathname canceled s).mInFlightCnt ≤
        s.mMaxInFlightCnt ∧
      (OpDone CHUNKSIZE enqueue getPathname status pathname canceled s).mMaxInFlightCnt =
        s.mMaxInFlightCnt ∧
      (OpDone CHUNKSIZE enqueue getPathname status pathname canceled s).mQueryFlag = true := by
  unfold OpDone
  rw [if_neg (by rw [hq]; simp)]
  simp only []
  cases canceled with
  | true =>
    simp only [if_true]
    refine ⟨?_, ?_, ?_, ?_⟩
    · show s.mInFlightCnt - 1 = (s.queue.length : Int)
      omega
    · show s.mInFlightCnt - 1 ≤ s.mMaxInFlightCnt
      omega
    · trivial
    · exact hq
  | false =>
    simp only [Bool.false_eq_true, if_false]
    unfold Next
    split
    · split
      · have h := NextLoop_inflight CHUNKSIZE enqueue getPathname s.mLeafIter true
          { s with mInFlightCnt := s.mInFlightCnt - 1,
                   mError := if s.mError = 0 then -status else s.mError }
          (by simp only []; omega) (by simp only []; omega) (fun _ => by simp only []; omega)
        exact ⟨h.1, h.2.1, h.2.2.1, h.2.2.2.trans hq⟩
      · have h := NextLoop_inflight CHUNKSIZE enqueue getPathname s.mLeafIter true
          { s with mInFlightCnt := s.mInFlightCnt - 1 }
          (by simp only []; omega) (by simp only []; omega) (fun _ => by simp only []; omega)
        exact ⟨h.1, h.2.1, h.2.2.1, h.2.2.2.trans hq⟩
    · have h := NextLoop_inflight CHUNKSIZE enqueue getPathname s.mLeafIter true
        (ReportLost { s with mInFlightCnt := s.mInFlightCnt - 1 } pathname)
        (by simp only [ReportLost]; omega) (by simp only [ReportLost]; omega)
        (fun _ => by simp only [ReportLost]; omega)
      exact ⟨h.1, h.2.1, h.2.2.1, h.2.2.2.trans hq⟩

/-- The invariant of the events of a run in query mode. -/
theorem runEvent_inflight (CHUNKSIZE : Int) (getPathname : MetaFattr → String)
    (s : ObjStoreFsck) (e : Event) (hq : s.mQueryFlag = true)
    (h1 : s.mInFlightCnt = s.queue.length) (h2 : s.mInFlightCnt ≤ s.mMaxInFlightCnt) :
    (runEvent CHUNKSIZE getPathname s e).mQueryFlag = true ∧
      (runEvent CHUNKSIZE getPathname s e).mInFlightCnt =
        (runEvent CHUNKSIZE getPathname s e).queue.length ∧
      (runEvent CHUNKSIZE getPathname s e).mInFlightCnt ≤ s.mMaxInFlightCnt ∧
      (runEvent CHUNKSIZE getPathname s e).mMaxInFlightCnt = s.mMaxInFlightCnt := by
  cases e with
  | scan enqueue =>
    have h := NextLoop_inflight CHUNKSIZE enqueue getPathname s.mLeafIter false s h1 h2
      (fun h => by cases h)
    exact ⟨h.2.2.2.trans hq, h.1, h.2.1, h.2.2.1⟩
  | done i status pathname canceled enqueue =>
    simp only [runEvent]
    by_cases hi : i < s.queue.length
    · rw [if_pos hi]
      have hlen : (s.queue.eraseIdx i).length = s.queue.length - 1 := by
        rw [List.length_eraseIdx, if_pos hi]
      have h := OpDone_inflight CHUNKSIZE enqueue getPathname status pathname canceled
        { s with queue := s.queue.eraseIdx i } hq
        (by simp only []; rw [hlen, h1]; omega) h2
      exact ⟨h.2.2.2, h.1, h.2.1, h.2.2.1⟩
    · rw [if_neg hi]
      exact ⟨hq, h1, h2, rfl⟩

theorem runEvents_inflight (CHUNKSIZE : Int) (getPathname : MetaFattr → String)
    (events : List Event) :
    ∀ s : ObjStoreFsck, s.mQueryFlag = true → s.mInFlightCnt = s.queue.length →
      s.mInFlightCnt ≤ s.mMaxInFlightCnt →
      (events.foldl (runEvent CHUNKSIZE getPathname) s).mInFlightCnt =
          (events.foldl (runEvent CHUNKSIZE getPathname) s).queue.length ∧
        (events.foldl (runEvent CHUNKSIZE getPathname) s).mInFlightCnt ≤ s.mMaxInFlightCnt := by
  induction events with
  | nil => intro s _ h1 h2; exact ⟨h1, h2⟩
  | cons e rest ih =>
    intro s hq h1 h2
    obtain ⟨g1, g2, g3, g4⟩ := runEvent_inflight CHUNKSIZE getPathname s e hq h1 h2
    have h := ih (runEvent CHUNKSIZE getPathname s e) g1 g2 (by rw [g4]; exact g3)
    rw [g4] at h
    exact h

/-- A run of the scanner changes neither the tree nor the free store, nor
the mode, the bound and the key counter. -/
theorem NextLoop_frame (CHUNKSIZE : Int) (enqueue : Nat → Bool)
    (getPathname : MetaFattr → String) (leaves : List Meta) :
    ∀ (hasOp : Bool) (s : ObjStoreFsck),
      (NextLoop CHUNKSIZE enqueue getPathname leaves hasOp s).metatree = s.metatree ∧
      (NextLoop CHUNKSIZE enqueue getPathname leaves hasOp s).heap = s.heap ∧
      (NextLoop CHUNKSIZE enqueue getPathname leaves hasOp s).mQueryFlag = s.mQueryFlag ∧
      (NextLoop CHUNKSIZE enqueue getPathname leaves hasOp s).mMaxInFlightCnt =
        s.mMaxInFlightCnt ∧
      (NextLoop CHUNKSIZE enqueue getPathname leaves hasOp s).theKeysCount = s.theKeysCount := by
  induction leaves with
  | nil => intro hasOp s; exact ⟨rfl, rfl, rfl, rfl, rfl⟩
  | cons m rest ih =>
    intro hasOp s
    cases m with
    | other => simp only [NextLoop]; exact ih hasOp s
    | fattr f =>
      simp only [NextLoop]
      split
      · exact ih hasOp s
      · split
        · split
          · split
            · exact ⟨rfl, rfl, rfl, rfl, rfl⟩
            · split
              · exact ih false _
              · exact ⟨rfl, rfl, rfl, rfl, rfl⟩
          · exact ih hasOp (ReportLost s (getPathname f))
        · exact ih hasOp s

/-- A run of the scanner writes the error status only when it is zero, and
then with `-EFAULT`. -/
theorem NextLoop_mError (CHUNKSIZE : Int) (enqueue : Nat → Bool)
    (getPathname : MetaFattr → String) (leaves : List Meta) :
    ∀ (hasOp : Bool) (s : ObjStoreFsck),
      (NextLoop CHUNKSIZE enqueue getPathname leaves hasOp s).mError = s.mError ∨
      (s.mError = 0 ∧
        (NextLoop CHUNKSIZE enqueue getPathname leaves hasOp s).mError = -EFAULT) := by
  induction leaves with
  | nil => intro hasOp s; exact Or.inl rfl
  | cons m rest ih =>
    intro hasOp s
    cases m with
    | other => simp only [NextLoop]; exact ih hasOp s
    | fattr f =>
      simp only [NextLoop]
      split
      · exact ih hasOp s
      · split
        · split
          · split
            · exact Or.inl rfl
            · split
              · exact ih false _
              · by_cases h0 : s.mError = 0
                · right; exact ⟨h0, by simp [h0]⟩
                · left; simp [h0]
          · exact ih hasOp (ReportLost s (getPathname f))
        · exact ih hasOp s

theorem NextLoop_mError_sticky (CHUNKSIZE : Int) (enqueue : Nat → Bool)
    (getPathname : MetaFattr → String) (leaves : List Meta) (hasOp : Bool)
    (s : ObjStoreFsck) (h : s.mError ≠ 0) :
    (NextLoop CHUNKSIZE enqueue getPathname leaves hasOp s).mError = s.mError := by
  rcases NextLoop_mError CHUNKSIZE enqueue getPathname leaves hasOp s with h1 | ⟨h1, _⟩
  · exact h1
  · exact absurd h1 h

/-! ## Completions -/

theorem OpDone_canceled (CHUNKSIZE : Int) (enqueue : Nat → Bool)
    (getPathname : MetaFattr → String) (status : Int) (pathname : String)
    (s : ObjStoreFsck) (hq : s.mQueryFlag = true) :
    OpDone CHUNKSIZE enqueue getPathname status pathname true s =
      { s with mInFlightCnt := s.mInFlightCnt - 1 } := by
  unfold OpDone
  rw [if_neg (by rw [hq]; simp)]
  simp

theorem OpDone_enoent (CHUNKSIZE : Int) (enqueue : Nat → Bool)
    (getPathname : MetaFattr → String) (pathname : String)
    (s : ObjStoreFsck) (hq : s.mQueryFlag = true) :
    OpDone CHUNKSIZE enqueue getPathname (-ENOENT) pathname false s =
      Next CHUNKSIZE enqueue getPathname true { s with mInFlightCnt := s.mInFlightCnt - 1 } := by
  unfold OpDone
  rw [if_neg (by rw [hq]; simp)]
  simp [ENOENT]

theorem OpDone_error (CHUNKSIZE : Int) (enqueue : Nat → Bool)
    (getPathname : MetaFattr → String) (status : Int) (pathname : String)
    (s : ObjStoreFsck) (hq : s.mQueryFlag = true) (hneg : status < 0)
    (hne : status ≠ -ENOENT) :
    OpDone CHUNKSIZE enqueue getPathname status pathname false s =
      Next CHUNKSIZE enqueue getPathname true
        { s with mInFlightCnt := s.mInFlightCnt - 1
                 mError := if s.mError = 0 then -status else s.mError } := by
  unfold OpDone
  rw [if_neg (by rw [hq]; simp)]
  have hne' : ¬ (-ENOENT = status) := fun h => hne h.symm
  simp [hneg, hne']

theorem OpDone_path (CHUNKSIZE : Int) (enqueue : Nat → Bool)
    (getPathname : MetaFattr → String) (status : Int) (pathname : String)
    (s : ObjStoreFsck) (hq : s.mQueryFlag = true) (hok : 0 ≤ status) :
    OpDone CHUNKSIZE enqueue getPathname status pathname false s =
      Next CHUNKSIZE enqueue getPathname true
        (ReportLost { s with mInFlightCnt := s.mInFlightCnt - 1 } pathname) := by
  unfold OpDone
  rw [if_neg (by rw [hq]; simp)]
  have : ¬ status < 0 := by omega
  simp [this]

/-- No completion changes an error status that is not zero. -/
theorem OpDone_mError_sticky (CHUNKSIZE : Int) (enqueue : Nat → Bool)
    (getPathname : MetaFattr → String) (status : Int) (pathname : String) (canceled : Bool)
    (s : ObjStoreFsck) (h : s.mError ≠ 0) :
    (OpDone CHUNKSIZE enqueue getPathname status pathname canceled s).mError = s.mError := by
  by_cases hq : s.mQueryFlag = true
  · cases canceled with
    | true => rw [OpDone_canceled _ _ _ _ _ _ hq]
    | false =>
      by_cases hneg : status < 0
      · by_cases hne : status = -ENOENT
        · subst hne
          rw [OpDone_enoent _ _ _ _ _ hq]
          exact NextLoop_mError_sticky _ _ _ _ _ _ h
        · rw [OpDone_error _ _ _ _ _ _ hq hneg hne]
          unfold Next
          rw [NextLoop_mError_sticky _ _ _ _ _ _ (by simp [h])]
          simp [h]
      · rw [OpDone_path _ _ _ _ _ _ hq (by omega)]
        exact NextLoop_mError_sticky _ _ _ _ _ _ h
  · unfold OpDone
    rw [if_pos (by simpa using hq)]

theorem runEvent_mError_sticky (CHUNKSIZE : Int) (getPathname : MetaFattr → String)
    (s : ObjStoreFsck) (e : Event) (h : s.mError ≠ 0) :
    (runEvent CHUNKSIZE getPathname s e).mError = s.mError := by
  cases e with
  | scan enqueue => exact NextLoop_mError_sticky _ _ _ _ _ _ h
  | done i status pathname canceled enqueue =>
    simp only [runEvent]
    split
    · exact OpDone_mError_sticky _ _ _ _ _ _ { s with queue := s.queue.eraseIdx i } h
    · rfl

theorem runEvents_mError_sticky (CHUNKSIZE : Int) (getPathname : MetaFattr → String)
    (events : List Event) :
    ∀ s : ObjStoreFsck, s.mError ≠ 0 →
      (events.foldl (runEvent CHUNKSIZE getPathname) s).mError = s.mError := by
  induction events with
  | nil => intro s _; rfl
  | cons e rest ih =>
    intro s h
    have h1 := runEvent_mError_sticky CHUNKSIZE getPathname s e h
    have h2 := ih (runEvent CHUNKSIZE getPathname s e) (by rw [h1]; exact h)
    exact h2.trans h1

/-- With a zero slot the scan of `Next` stops at index 0. -/
theorem missingIdx_of_zero_slot (CHUNKSIZE : Int) (heap : List BlocksBitmap) {g : MetaFattr}
    (h0 : g.chunkcount = 0) : missingIdx CHUNKSIZE heap g = 0 := by
  obtain ⟨h1, _⟩ := missingIdx_spec CHUNKSIZE heap g
  by_contra hne
  have hp := h1 0 (by omega)
  rw [scanPasses_iff, isMarked_zero heap h0 0] at hp
  exact absurd hp.1 (by simp)

theorem isLost_of_zero_slot (CHUNKSIZE : Int) (heap : List BlocksBitmap) {g : MetaFattr}
    (h0 : g.chunkcount = 0) : isLost CHUNKSIZE heap g = decide (0 < g.filesize) := by
  unfold isLost
  rw [missingIdx_of_zero_slot CHUNKSIZE heap h0]
  simp

theorem not_candidate_iff (f : MetaFattr) :
    (f.type ≠ FileType.KFS_FILE ∨ f.numReplicas ≠ 0 ∨ f.filesize ≤ 0) ↔
      isCandidate f = false := by
  rw [← Bool.not_eq_true, isCandidate_iff]
  constructor
  · rintro (h | h | h) ⟨h1, h2, h3⟩
    · exact h h1
    · exact h h2
    · omega
  · intro h
    by_contra hno
    apply h
    refine ⟨?_, ?_, ?_⟩
    · by_contra h1; exact hno (Or.inl h1)
    · by_contra h2; exact hno (Or.inr (Or.inl h2))
    · by_contra h3; exact hno (Or.inr (Or.inr (by omega)))

theorem NextLoop_not_flagged (CHUNKSIZE : Int) (enqueue : Nat → Bool)
    (getPathname : MetaFattr → String) (f : MetaFattr) (rest : List Meta) (hasOp : Bool)
    (s : ObjStoreFsck) (h : isFlagged CHUNKSIZE s.heap f = false) :
    NextLoop CHUNKSIZE enqueue getPathname (Meta.fattr f :: rest) hasOp s =
      NextLoop CHUNKSIZE enqueue getPathname rest hasOp s := by
  simp only [NextLoop]
  by_cases hc : isCandidate f = true
  · have hl : isLost CHUNKSIZE s.heap f = false := by
      simpa [isFlagged, hc] using h
    have hn : ¬ (f.type ≠ FileType.KFS_FILE ∨ f.numReplicas ≠ 0 ∨ f.filesize ≤ 0) := by
      rw [not_candidate_iff, hc]; simp
    rw [if_neg hn, hl]
    simp
  · rw [Bool.not_eq_true] at hc
    rw [if_pos ((not_candidate_iff f).2 hc)]

theorem NextLoop_flagged (CHUNKSIZE : Int) (enqueue : Nat → Bool)
    (getPathname : MetaFattr → String) (f : MetaFattr) (rest : List Meta) (hasOp : Bool)
    (s : ObjStoreFsck) (h : isFlagged CHUNKSIZE s.heap f = true) :
    NextLoop CHUNKSIZE enqueue getPathname (Meta.fattr f :: rest) hasOp s =
      if s.mQueryFlag then
        if hasOp = false ∧ s.mMaxInFlightCnt ≤ s.mInFlightCnt then
          { s with mLeafIter := Meta.fattr f :: rest }
        else if enqueue rest.length then
          NextLoop CHUNKSIZE enqueue getPathname rest false
            { s with mInFlightCnt := s.mInFlightCnt + 1, queue := s.queue ++ [f.id] }
        else
          { s with
              mError := if s.mError = 0 then -EFAULT else s.mError
              mInFlightCnt := s.mInFlightCnt + 1 - 1
              mLeafIter := Meta.fattr f :: rest }
      else
        NextLoop CHUNKSIZE enqueue getPathname rest hasOp (ReportLost s (getPathname f)) := by
  have hc : isCandidate f = true := by
    simp only [isFlagged, Bool.and_eq_true] at h; exact h.1
  have hl : isLost CHUNKSIZE s.heap f = true := by
    simp only [isFlagged, Bool.and_eq_true] at h; exact h.2
  have hn : ¬ (f.type ≠ FileType.KFS_FILE ∨ f.numReplicas ≠ 0 ∨ f.filesize ≤ 0) := by
    rw [not_candidate_iff, hc]; simp
  simp only [NextLoop]
  rw [if_neg hn, hl]
  simp

/-- In query mode a run of the scanner reports nothing itself: the lost
count and the output stay as they are. -/
theorem NextLoop_query_frame (CHUNKSIZE : Int) (enqueue : Nat → Bool)
    (getPathname : MetaFattr → String) (leaves : List Meta) :
    ∀ (hasOp : Bool) (s : ObjStoreFsck), s.mQueryFlag = true →
      (NextLoop CHUNKSIZE enqueue getPathname leaves hasOp s).mLostCount = s.mLostCount ∧
      (NextLoop CHUNKSIZE enqueue getPathname leaves hasOp s).cout = s.cout := by
  induction leaves with
  | nil => intro hasOp s _; exact ⟨rfl, rfl⟩
  | cons m rest ih =>
    intro hasOp s hq
    cases m with
    | other => simp only [NextLoop]; exact ih hasOp s hq
    | fattr f =>
      simp only [NextLoop]
      split
      · exact ih hasOp s hq
      · split
        · split
          · exact ⟨rfl, rfl⟩
          · split
            · exact ih false _ hq
            · exact ⟨rfl, rfl⟩
        · exact ih hasOp s hq

/-- Canceled completions in query mode change the count of requests in
flight and the queue only. -/
theorem runEvents_canceled_frame (CHUNKSIZE : Int) (getPathname : MetaFattr → String)
    (events : List Event) :
    ∀ s : ObjStoreFsck, s.mQueryFlag = true →
      (∀ e ∈ events, ∃ i status pathname enqueue,
        e = Event.done i status pathname true enqueue) →
      (events.foldl (runEvent CHUNKSIZE getPathname) s).mError = s.mError ∧
      (events.foldl (runEvent CHUNKSIZE getPathname) s).mLostCount = s.mLostCount ∧
      (events.foldl (runEvent CHUNKSIZE getPathname) s).cout = s.cout ∧
      (events.foldl (runEvent CHUNKSIZE getPathname) s).mLeafIter = s.mLeafIter := by
  induction events with
  | nil => intro s _ _; exact ⟨rfl, rfl, rfl, rfl⟩
  | cons e rest ih =>
    intro s hq hall
    obtain ⟨i, status, pathname, enqueue, he⟩ := hall e (List.mem_cons_self _ _)
    subst he
    have hstep : runEvent CHUNKSIZE getPathname s (Event.done i status pathname true enqueue) =
        if i < s.queue.length then
          { s with queue := s.queue.eraseIdx i, mInFlightCnt := s.mInFlightCnt - 1 }
        else s := by
      simp only [runEvent]
      split
      · exact OpDone_canceled _ _ _ _ _ { s with queue := s.queue.eraseIdx i } hq
      · rfl
    rw [List.foldl_cons, hstep]
    split
    · exact ih _ hq (fun e he => hall e (List.mem_cons_of_mem _ he))
    · exact ih _ hq (fun e he => hall e (List.mem_cons_of_mem _ he))

theorem sampleQueryRun2_flagged :
    isFlagged sampleChunk sampleQueryRun2.heap fileA = true ∧
    (∀ h, isFlagged sampleChunk h fileB = false) ∧
    (∀ h, isFlagged sampleChunk h fileC = true) := by
  refine ⟨?_, ?_, ?_⟩
  · unfold isFlagged
    rw [isLost_of_zero_slot sampleChunk _ rfl]; decide
  · intro h
    have : isCandidate fileB = false := by decide
    simp [isFlagged, this]
  · intro h
    unfold isFlagged
    rw [isLost_of_zero_slot sampleChunk _ rfl]; decide

/-- The example scan in which the request for file A is accepted and the
one for file C is rejected. -/
theorem sampleScan_rejected :
    runEvent sampleChunk (fun _ => "") sampleQueryRun2 (Event.scan (fun n => decide (n = 2))) =
      { sampleQueryRun2 with
          mError := -14, mInFlightCnt := 1, queue := [5], mLeafIter := [Meta.fattr fileC] } := by
  obtain ⟨hA, hB, hC⟩ := sampleQueryRun2_flagged
  show NextLoop _ _ _ [Meta.other, Meta.fattr fileA, Meta.fattr fileB, Meta.fattr fileC] false _ = _
  rw [NextLoop, NextLoop_flagged _ _ _ _ _ _ _ hA]
  simp +decide only [sampleQueryRun2, sampleRun, if_true, if_false, List.length_cons,
    List.length_nil, List.nil_append]

/-- The example scan in which both requests are accepted. -/
theorem sampleScan_accepted :
    runEvent sampleChunk (fun _ => "") sampleQueryRun2 (Event.scan (fun _ => true)) =
      { sampleQueryRun2 with mInFlightCnt := 2, queue := [5, 7], mLeafIter := [] } := by
  obtain ⟨hA, hB, hC⟩ := sampleQueryRun2_flagged
  show NextLoop _ _ _ [Meta.other, Meta.fattr fileA, Meta.fattr fileB, Meta.fattr fileC] false _ = _
  rw [NextLoop, NextLoop_flagged _ _ _ _ _ _ _ hA]
  simp +decide only [sampleQueryRun2, sampleRun, if_true, if_false, List.length_cons,
    List.length_nil, List.nil_append]

/-- The example run after its scan: both requests are canceled, the one
for file C first. -/
theorem sampleCanceled :
    [Event.done 1 (-5) "" true (fun _ => true), Event.done 0 (-5) "" true (fun _ => true)].foldl
        (runEvent sampleChunk (fun _ => ""))
        { sampleQueryRun2 with mInFlightCnt := 2, queue := [5, 7], mLeafIter := [] } =
      { sampleQueryRun2 with mInFlightCnt := 0, queue := [], mLeafIter := [] } := by
  rw [List.foldl_cons, List.foldl_cons, List.foldl_nil]
  simp only [runEvent]
  rw [if_pos (by decide), OpDone_canceled _ _ _ _ _ _ rfl]
  rw [if_pos (by decide), OpDone_canceled _ _ _ _ _ _ rfl]
  simp +decide only [sampleQueryRun2, sampleRun, List.eraseIdx]

/-- In validation mode a run of the scanner walks all leaves and reports
the flagged candidates in leaf order. -/
theorem NextLoop_validation (CHUNKSIZE : Int) (enqueue : Nat → Bool)
    (getPathname : MetaFattr → String) (leaves : List Meta) :
    ∀ (hasOp : Bool) (s : ObjStoreFsck), s.mQueryFlag = false →
      NextLoop CHUNKSIZE enqueue getPathname leaves hasOp s =
        { s with
            mLeafIter := []
            mLostCount := s.mLostCount + (lostCandidates CHUNKSIZE s.heap leaves).length
            cout := s.cout ++ (lostCandidates CHUNKSIZE s.heap leaves).map getPathname } := by
  induction leaves with
  | nil =>
    intro hasOp s _
    simp [NextLoop, lostCandidates]
  | cons m rest ih =>
    intro hasOp s hq
    cases m with
    | other =>
      rw [NextLoop, ih hasOp s hq]
      rfl
    | fattr f =>
      cases hfl : isFlagged CHUNKSIZE s.heap f
      · rw [NextLoop_not_flagged _ _ _ _ _ _ _ hfl, ih hasOp s hq]
        simp [lostCandidates, hfl]
      · rw [NextLoop_flagged _ _ _ _ _ _ _ hfl, if_neg (by rw [hq]; simp),
          ih hasOp (ReportLost s (getPathname f)) hq]
        simp only [lostCandidates, hfl, if_true, ReportLost, List.length_cons, List.map_cons,
          Nat.cast_add, Nat.cast_one, List.append_assoc, List.singleton_append]
        congr 1
        omega

/-- In query mode with every enqueue accepted, a run of the scanner submits
a first part of the flagged candidates ahead of the cursor, in leaf order,
and leaves the cursor at the rest; it stops before the end only at the
bound. -/
theorem NextLoop_accepting (CHUNKSIZE : Int) (enqueue : Nat → Bool)
    (getPathname : MetaFattr → String) (henq : ∀ n, enqueue n = true) (leaves : List Meta) :
    ∀ (hasOp : Bool) (s : ObjStoreFsck), s.mQueryFlag = true →
      ∃ pre : List MetaFattr,
        lostCandidates CHUNKSIZE s.heap leaves =
          pre ++ lostCandidates CHUNKSIZE s.heap
            (NextLoop CHUNKSIZE enqueue getPathname leaves hasOp s).mLeafIter ∧
        (NextLoop CHUNKSIZE enqueue getPathname leaves hasOp s).queue =
          s.queue ++ pre.map (fun f => f.id) ∧
        (lostCandidates CHUNKSIZE s.heap
            (NextLoop CHUNKSIZE enqueue getPathname leaves hasOp s).mLeafIter = [] ∨
          s.mMaxInFlightCnt ≤
            (NextLoop CHUNKSIZE enqueue getPathname leaves hasOp s).mInFlightCnt) := by
  induction leaves with
  | nil =>
    intro hasOp s _
    exact ⟨[], by simp [NextLoop, lostCandidates], by simp [NextLoop],
      Or.inl (by simp [NextLoop, lostCandidates])⟩
  | cons m rest ih =>
    intro hasOp s hq
    cases m with
    | other =>
      rw [NextLoop]
      obtain ⟨pre, h1, h2, h3⟩ := ih hasOp s hq
      exact ⟨pre, by rw [lostCandidates]; exact h1, h2, h3⟩
    | fattr f =>
      cases hfl : isFlagged CHUNKSIZE s.heap f
      · rw [NextLoop_not_flagged _ _ _ _ _ _ _ hfl]
        obtain ⟨pre, h1, h2, h3⟩ := ih hasOp s hq
        refine ⟨pre, ?_, h2, h3⟩
        rw [lostCandidates, hfl]
        exact h1
      · rw [NextLoop_flagged _ _ _ _ _ _ _ hfl, if_pos hq]
        by_cases hcap : hasOp = false ∧ s.mMaxInFlightCnt ≤ s.mInFlightCnt
        · rw [if_pos hcap]
          exact ⟨[], by simp, by simp, Or.inr hcap.2⟩
        · rw [if_neg hcap, if_pos (henq _)]
          obtain ⟨pre, h1, h2, h3⟩ := ih false
            { s with mInFlightCnt := s.mInFlightCnt + 1, queue := s.queue ++ [f.id] } hq
          refine ⟨f :: pre, ?_, ?_, h3⟩
          · rw [lostCandidates, hfl, if_pos rfl, List.cons_append]
            exact congrArg (List.cons f) h1
          · rw [h2]
            simp

/-- In query mode a completion that is not canceled is a run of `Next` with
the request to reuse, on a state that has the tree, the free store, the
cursor, the queue, the mode and the bound of before and one request less in
flight. -/
theorem OpDone_as_Next (CHUNKSIZE : Int) (enqueue : Nat → Bool)
    (getPathname : MetaFattr → String) (status : Int) (pathname : String)
    (s : ObjStoreFsck) (hq : s.mQueryFlag = true) :
    ∃ s2 : ObjStoreFsck,
      OpDone CHUNKSIZE enqueue getPathname status pathname false s =
        NextLoop CHUNKSIZE enqueue getPathname s.mLeafIter true s2 ∧
      s2.heap = s.heap ∧ s2.queue = s.queue ∧ s2.mQueryFlag = true ∧
      s2.mMaxInFlightCnt = s.mMaxInFlightCnt ∧ s2.mInFlightCnt = s.mInFlightCnt - 1 := by
  by_cases hneg : status < 0
  · by_cases hne : status = -ENOENT
    · subst hne
      exact ⟨_, OpDone_enoent _ _ _ _ _ hq, rfl, rfl, hq, rfl, rfl⟩
    · exact ⟨_, OpDone_error _ _ _ _ _ _ hq hneg hne, rfl, rfl, hq, rfl, rfl⟩
  · exact ⟨_, OpDone_path _ _ _ _ _ _ hq (by omega), rfl, rfl, hq, rfl, rfl⟩

/-- What an event with every enqueue accepted and no cancellation does in
query mode. -/
theorem runEvent_accepting (CHUNKSIZE : Int) (getPathname : MetaFattr → String)
    (s : ObjStoreFsck) (e : Event) (hq : s.mQueryFlag = true) (hacc : allAccepted e) :
    ∃ pre : List MetaFattr,
      lostCandidates CHUNKSIZE s.heap s.mLeafIter =
        pre ++ lostCandidates CHUNKSIZE s.heap
          (runEvent CHUNKSIZE getPathname s e).mLeafIter ∧
      (runEvent CHUNKSIZE getPathname s e).queue =
        queueBefore s e ++ pre.map (fun f => f.id) ∧
      (runEvent CHUNKSIZE getPathname s e).heap = s.heap ∧
      (runEvent CHUNKSIZE getPathname s e).mQueryFlag = true ∧
      (runEvent CHUNKSIZE getPathname s e).mMaxInFlightCnt = s.mMaxInFlightCnt ∧
      ((lostCandidates CHUNKSIZE s.heap s.mLeafIter = [] ∨
          s.mMaxInFlightCnt ≤ s.mInFlightCnt) ∨
        (∃ enqueue, e = Event.scan enqueue) →
        (lostCandidates CHUNKSIZE s.heap (runEvent CHUNKSIZE getPathname s e).mLeafIter = [] ∨
          s.mMaxInFlightCnt ≤ (runEvent CHUNKSIZE getPathname s e).mInFlightCnt)) := by
  cases e with
  | scan enqueue =>
    obtain ⟨pre, h1, h2, h3⟩ :=
      NextLoop_accepting CHUNKSIZE enqueue getPathname hacc s.mLeafIter false s hq
    obtain ⟨_, f2, f3, f4, _⟩ := NextLoop_frame CHUNKSIZE enqueue getPathname s.mLeafIter false s
    exact ⟨pre, h1, h2, f2, f3.trans hq, f4, fun _ => h3⟩
  | done i status pathname canceled enqueue =>
    obtain ⟨hc, henq⟩ := hacc
    subst hc
    simp only [runEvent, queueBefore]
    by_cases hi : i < s.queue.length
    · rw [if_pos hi, if_pos hi]
      obtain ⟨s2, e1, e2, e3, e4, e5, _⟩ := OpDone_as_Next CHUNKSIZE enqueue getPathname status
        pathname { s with queue := s.queue.eraseIdx i } hq
      rw [e1]
      obtain ⟨pre, h1, h2, h3⟩ :=
        NextLoop_accepting CHUNKSIZE enqueue getPathname henq s.mLeafIter true s2 e4
      obtain ⟨_, f2, f3, f4, _⟩ :=
        NextLoop_frame CHUNKSIZE enqueue getPathname s.mLeafIter true s2
      rw [e2] at h1 h3
      rw [e3] at h2
      rw [e5] at h3 f4
      exact ⟨pre, h1, h2, f2.trans e2, f3.trans e4, f4, fun _ => h3⟩
    · rw [if_neg hi, if_neg hi]
      refine ⟨[], by simp, by simp, rfl, hq, rfl, ?_⟩
      rintro (h | ⟨_, h⟩)
      · exact h
      · cases h

theorem submittedBy_eq (CHUNKSIZE : Int) (getPathname : MetaFattr → String)
    (s : ObjStoreFsck) (e : Event) (ids : List Int)
    (h : (runEvent CHUNKSIZE getPathname s e).queue = queueBefore s e ++ ids) :
    submittedBy CHUNKSIZE getPathname s e = ids := by
  unfold submittedBy
  rw [h, List.drop_left]

theorem queueBefore_sublist (s : ObjStoreFsck) (e : Event) :
    (queueBefore s e).Sublist s.queue := by
  cases e with
  | scan _ => exact List.Sublist.refl _
  | done i _ _ _ _ =>
    simp only [queueBefore]
    split
    · exact List.eraseIdx_sublist _ _
    · exact List.Sublist.refl _

/-- Over a run of events with every enqueue accepted and no cancellation:
the flagged candidates ahead of the cursor at the start are the submissions
of the run, in order, followed by the flagged candidates ahead of the cursor
at the end; and the requests in the queue are among those of the start and
the submissions. -/
theorem runEvents_accepting (CHUNKSIZE : Int) (getPathname : MetaFattr → String)
    (events : List Event) :
    ∀ s : ObjStoreFsck, s.mQueryFlag = true → (∀ e ∈ events, allAccepted e) →
      (lostCandidates CHUNKSIZE s.heap s.mLeafIter).map (fun f => f.id) =
        submissions CHUNKSIZE getPathname s events ++
          (lostCandidates CHUNKSIZE s.heap
            (events.foldl (runEvent CHUNKSIZE getPathname) s).mLeafIter).map (fun f => f.id) ∧
      (events.foldl (runEvent CHUNKSIZE getPathname) s).queue.Sublist
        (s.queue ++ submissions CHUNKSIZE getPathname s events) ∧
      (events.foldl (runEvent CHUNKSIZE getPathname) s).heap = s.heap ∧
      ((lostCandidates CHUNKSIZE s.heap s.mLeafIter = [] ∨
          s.mMaxInFlightCnt ≤ s.mInFlightCnt) →
        (lostCandidates CHUNKSIZE s.heap
            (events.foldl (runEvent CHUNKSIZE getPathname) s).mLeafIter = [] ∨
          s.mMaxInFlightCnt ≤
            (events.foldl (runEvent CHUNKSIZE getPathname) s).mInFlightCnt)) := by
  induction events with
  | nil =>
    intro s _ _
    exact ⟨by simp [submissions], by simp [submissions], rfl, fun h => h⟩
  | cons e rest ih =>
    intro s hq hall
    obtain ⟨pre, h1, h2, h3, h4, h5, h6⟩ :=
      runEvent_accepting CHUNKSIZE getPathname s e hq (hall e (List.mem_cons_self _ _))
    obtain ⟨i1, i2, i3, i4⟩ := ih (runEvent CHUNKSIZE getPathname s e) h4
      (fun e' he' => hall e' (List.mem_cons_of_mem _ he'))
    have hsub := submittedBy_eq CHUNKSIZE getPathname s e _ h2
    rw [h3] at i1 i4
    rw [h5] at i4
    rw [List.foldl_cons]
    refine ⟨?_, ?_, i3.trans h3, ?_⟩
    · rw [submissions, hsub, h1, List.map_append, i1, List.append_assoc]
    · rw [submissions, hsub]
      refine i2.trans ?_
      rw [h2, List.append_assoc]
      exact List.Sublist.append (queueBefore_sublist s e) (List.Sublist.refl _)
    · intro hP
      exact i4 (h6 (Or.inl hP))

/-- The flagged candidates of the example tree before the ingest loop. -/
theorem sample_lostCandidates (heap : List BlocksBitmap) :
    lostCandidates sampleChunk heap sampleRun.metatree = [fileA, fileC] := by
  obtain ⟨_, hB, hC⟩ := sampleQueryRun2_flagged
  have hA : isFlagged sampleChunk heap fileA = true := by
    unfold isFlagged
    rw [isLost_of_zero_slot sampleChunk _ rfl]; decide
  show lostCandidates sampleChunk heap
    [Meta.other, Meta.fattr fileA, Meta.fattr fileB, Meta.fattr fileC] = _
  simp only [lostCandidates, hA, hB heap, hC heap, if_true, if_false, Bool.false_eq_true]

/-- Which files of the example tree are flagged before the ingest loop. -/
theorem sampleFlagged :
    (∀ h, isFlagged sampleChunk h fileA = true) ∧
    (∀ h, isFlagged sampleChunk h fileB = false) ∧
    (∀ h, isFlagged sampleChunk h fileC = true) := by
  refine ⟨?_, ?_, ?_⟩
  · intro h
    unfold isFlagged
    rw [isLost_of_zero_slot sampleChunk _ rfl]; decide
  · intro h
    have : isCandidate fileB = false := by decide
    simp [isFlagged, this]
  · intro h
    unfold isFlagged
    rw [isLost_of_zero_slot sampleChunk _ rfl]; decide

/-- First step of the example run with the bound 1. -/
theorem sampleStep1 :
    runEvent sampleChunk (fun _ => "") sampleQueryRun (Event.scan (fun _ => true)) =
      { sampleQueryRun with mInFlightCnt := 1, queue := [5], mLeafIter := [Meta.fattr fileC] } := by
  obtain ⟨hA, hB, hC⟩ := sampleFlagged
  show NextLoop _ _ _ [Meta.other, Meta.fattr fileA, Meta.fattr fileB, Meta.fattr fileC] false _ = _
  rw [NextLoop, NextLoop_flagged _ _ _ _ _ _ _ (hA _)]
  simp +decide only [sampleQueryRun, sampleRun, if_true, if_false, List.length_cons,
    List.length_nil, List.nil_append]

/-- Second step of the example run with the bound 1. -/
theorem sampleStep2 :
    runEvent sampleChunk (fun _ => "")
        { sampleQueryRun with mInFlightCnt := 1, queue := [5], mLeafIter := [Meta.fattr fileC] }
        (Event.done 0 0 "/A" false (fun _ => true)) =
      { sampleQueryRun with
          mInFlightCnt := 1, queue := [7], mLeafIter := [], mLostCount := 1, cout := ["/A"] } := by
  obtain ⟨hA, hB, hC⟩ := sampleFlagged
  simp only [runEvent]
  rw [if_pos (by decide), OpDone_path _ _ _ _ _ _ rfl (by decide)]
  show NextLoop _ _ _ [Meta.fattr fileC] true _ = _
  rw [NextLoop_flagged _ _ _ _ _ _ _ (hC _)]
  simp +decide only [sampleQueryRun, sampleRun, if_true, if_false, List.length_cons,
    List.length_nil, List.nil_append, ReportLost, NextLoop, List.eraseIdx]

/-- Third step of the example run with the bound 1. -/
theorem sampleStep3 :
    runEvent sampleChunk (fun _ => "")
        { sampleQueryRun with
          mInFlightCnt := 1, queue := [7], mLeafIter := [], mLostCount := 1, cout := ["/A"] }
        (Event.done 0 0 "/C" false (fun _ => true)) =
      { sampleQueryRun with
          mInFlightCnt := 0, queue := [], mLeafIter := [], mLostCount := 2,
          cout := ["/A", "/C"] } := by
  simp only [runEvent]
  rw [if_pos (by decide), OpDone_path _ _ _ _ _ _ rfl (by decide)]
  show NextLoop _ _ _ [] true _ = _
  simp +decide only [sampleQueryRun, sampleRun, List.nil_append, ReportLost, NextLoop,
    List.eraseIdx, List.cons_append]

/-- The example run with the bound 1: the scan submits file A and stops at
file C; the completion for A resumes the scan, which submits C; the
completion for C ends the run. -/
theorem sampleBoundedRun :
    [Event.scan (fun _ => true), Event.done 0 0 "/A" false (fun _ => true),
        Event.done 0 0 "/C" false (fun _ => true)].foldl
      (runEvent sampleChunk (fun _ => "")) sampleQueryRun =
      { sampleQueryRun with
          mInFlightCnt := 0, queue := [], mLeafIter := [], mLostCount := 2,
          cout := ["/A", "/C"] } := by
  rw [List.foldl_cons, sampleStep1, List.foldl_cons, sampleStep2, List.foldl_cons, sampleStep3,
    List.foldl_nil]

theorem bitmapReads_lt (bm : BlocksBitmap) :
    ∀ (n start : Nat), bm.length - start = n → ∀ j ∈ bitmapReads bm start, j < bm.length := by
  intro n
  induction n with
  | zero =>
    intro start hn j hj
    rw [bitmapReads, if_neg (by omega)] at hj
    cases hj
  | succ n ih =>
    intro start hn j hj
    rw [bitmapReads] at hj
    split at hj
    · rename_i hlt
      rcases List.mem_cons.1 hj with rfl | hj
      · exact hlt
      · split at hj
        · exact ih (start + 1) (by omega) j hj
        · cases hj
    · cases hj

theorem testBit_foldl_or (S : List Nat) (hS : ∀ i ∈ S, i < 64) :
    ∀ (c j : Nat), (S.foldl (fun c i => c ||| bitOf i) c).testBit j =
      (c.testBit j || decide (j ∈ S)) := by
  induction S with
  | nil => intro c j; simp
  | cons a rest ih =>
    intro c j
    rw [List.foldl_cons, ih (fun i hi => hS i (List.mem_cons_of_mem _ hi)),
      Nat.testBit_lor, bitOf_lt (hS a (List.mem_cons_self _ _)), Nat.testBit_two_pow]
    by_cases hj : a = j
    · subst hj; simp
    · have hj' : ¬ j = a := fun h => hj h.symm
      simp [hj, hj']

theorem getD_foldl_set (S : List Nat) :
    ∀ (bm : BlocksBitmap) (j : Nat),
      ((S.foldl (fun bm i => bm.set i true) bm).getD j false =
        (bm.getD j false || decide (j ∈ S ∧ j < bm.length))) ∧
      (S.foldl (fun bm i => bm.set i true) bm).length = bm.length := by
  induction S with
  | nil => intro bm j; simp
  | cons a rest ih =>
    intro bm j
    rw [List.foldl_cons]
    obtain ⟨h1, h2⟩ := ih (bm.set a true) j
    rw [h1, h2, getD_set_true, List.length_set]
    refine ⟨?_, rfl⟩
    by_cases hj : j = a
    · subst hj
      by_cases hl : j < bm.length
      · simp [hl]
      · simp [hl]
    · simp [hj]

/-! ## The scan reads, the ingest loop writes -/

/-- Where a run of the scanner leaves the cursor: at the end of the leaves,
or at a leaf it walked to, and then at a flagged candidate in query mode. -/
theorem NextLoop_cursor (CHUNKSIZE : Int) (enqueue : Nat → Bool)
    (getPathname : MetaFattr → String) (leaves : List Meta) :
    ∀ (hasOp : Bool) (s : ObjStoreFsck),
      (NextLoop CHUNKSIZE enqueue getPathname leaves hasOp s).mLeafIter <:+ leaves ∧
      ((NextLoop CHUNKSIZE enqueue getPathname leaves hasOp s).mLeafIter = [] ∨
        ∃ f rest,
          (NextLoop CHUNKSIZE enqueue getPathname leaves hasOp s).mLeafIter =
            Meta.fattr f :: rest ∧
          s.mQueryFlag = true ∧ isFlagged CHUNKSIZE s.heap f = true) := by
  induction leaves with
  | nil => intro hasOp s; exact ⟨List.suffix_refl _, Or.inl rfl⟩
  | cons m rest ih =>
    intro hasOp s
    have up : ∀ t : ObjStoreFsck, t.heap = s.heap → t.mQueryFlag = s.mQueryFlag →
        ∀ b : Bool,
        (NextLoop CHUNKSIZE enqueue getPathname rest b t).mLeafIter <:+ m :: rest ∧
        ((NextLoop CHUNKSIZE enqueue getPathname rest b t).mLeafIter = [] ∨
          ∃ f rest1,
            (NextLoop CHUNKSIZE enqueue getPathname rest b t).mLeafIter =
              Meta.fattr f :: rest1 ∧
            s.mQueryFlag = true ∧ isFlagged CHUNKSIZE s.heap f = true) := by
      intro t ht hq b
      obtain ⟨h1, h2⟩ := ih b t
      rw [ht, hq] at h2
      exact ⟨h1.trans (List.suffix_cons m rest), h2⟩
    cases m with
    | other => simp only [NextLoop]; exact up s rfl rfl hasOp
    | fattr f =>
      by_cases hf : isFlagged CHUNKSIZE s.heap f = true
      · rw [NextLoop_flagged _ _ _ _ _ _ _ hf]
        split
        · rename_i hq
          split
          · exact ⟨List.suffix_refl _, Or.inr ⟨f, rest, rfl, hq, hf⟩⟩
          · split
            · exact up { s with mInFlightCnt := s.mInFlightCnt + 1, queue := s.queue ++ [f.id] }
                rfl rfl false
            · exact ⟨List.suffix_refl _, Or.inr ⟨f, rest, rfl, hq, hf⟩⟩
        · exact up (ReportLost s (getPathname f)) rfl rfl hasOp
      · rw [NextLoop_not_flagged _ _ _ _ _ _ _ (by simpa using hf)]
        exact up s rfl rfl hasOp

/-- A call of `Next` changes neither the tree nor the free store, and moves
the cursor forward over the leaves it had. -/
theorem Next_frame (CHUNKSIZE : Int) (enqueue : Nat → Bool)
    (getPathname : MetaFattr → String) (hasOp : Bool) (s : ObjStoreFsck) :
    (Next CHUNKSIZE enqueue getPathname hasOp s).metatree = s.metatree ∧
    (Next CHUNKSIZE enqueue getPathname hasOp s).heap = s.heap ∧
    (Next CHUNKSIZE enqueue getPathname hasOp s).mLeafIter <:+ s.mLeafIter := by
  unfold Next
  obtain ⟨h1, h2, _⟩ := NextLoop_frame CHUNKSIZE enqueue getPathname s.mLeafIter hasOp s
  exact ⟨h1, h2, (NextLoop_cursor CHUNKSIZE enqueue getPathname s.mLeafIter hasOp s).1⟩

/-- A call of `OpDone` changes neither the tree nor the free store, and
moves the cursor forward over the leaves it had. -/
theorem OpDone_frame (CHUNKSIZE : Int) (enqueue : Nat → Bool)
    (getPathname : MetaFattr → String) (status : Int) (pathname : String) (canceled : Bool)
    (s : ObjStoreFsck) :
    (OpDone CHUNKSIZE enqueue getPathname status pathname canceled s).metatree = s.metatree ∧
    (OpDone CHUNKSIZE enqueue getPathname status pathname canceled s).heap = s.heap ∧
    (OpDone CHUNKSIZE enqueue getPathname status pathname canceled s).mLeafIter <:+
      s.mLeafIter := by
  by_cases hq : s.mQueryFlag = true
  · cases canceled with
    | true =>
      rw [OpDone_canceled _ _ _ _ _ _ hq]
      exact ⟨rfl, rfl, List.suffix_refl _⟩
    | false =>
      by_cases hneg : status < 0
      · by_cases hne : status = -ENOENT
        · subst hne
          rw [OpDone_enoent _ _ _ _ _ hq]
          exact Next_frame _ _ _ _ _
        · rw [OpDone_error _ _ _ _ _ _ hq hneg hne]
          exact Next_frame _ _ _ _ _
      · rw [OpDone_path _ _ _ _ _ _ hq (by omega)]
        exact Next_frame _ _ _ _ _
  · unfold OpDone
    rw [if_pos (by simpa using hq)]
    exact ⟨rfl, rfl, List.suffix_refl _⟩

/-- One event changes neither the tree nor the free store, and moves the
cursor forward over the leaves it had. -/
theorem runEvent_frame (CHUNKSIZE : Int) (getPathname : MetaFattr → String)
    (s : ObjStoreFsck) (e : Event) :
    (runEvent CHUNKSIZE getPathname s e).metatree = s.metatree ∧
    (runEvent CHUNKSIZE getPathname s e).heap = s.heap ∧
    (runEvent CHUNKSIZE getPathname s e).mLeafIter <:+ s.mLeafIter := by
  cases e with
  | scan enqueue => exact Next_frame _ _ _ _ _
  | done i status pathname canceled enqueue =>
    simp only [runEvent]
    split
    · exact OpDone_frame _ _ _ _ _ _ { s with queue := s.queue.eraseIdx i }
    · exact ⟨rfl, rfl, List.suffix_refl _⟩

/-- No sequence of events changes the tree or the free store, and the
cursor only moves forward over the leaves it had. -/
theorem runEvents_frame (CHUNKSIZE : Int) (getPathname : MetaFattr → String)
    (es : List Event) :
    ∀ s : ObjStoreFsck,
      (es.foldl (runEvent CHUNKSIZE getPathname) s).metatree = s.metatree ∧
      (es.foldl (runEvent CHUNKSIZE getPathname) s).heap = s.heap ∧
      (es.foldl (runEvent CHUNKSIZE getPathname) s).mLeafIter <:+ s.mLeafIter := by
  induction es with
  | nil => intro s; exact ⟨rfl, rfl, List.suffix_refl _⟩
  | cons e es ih =>
    intro s
    obtain ⟨h1, h2, h3⟩ := ih (runEvent CHUNKSIZE getPathname s e)
    obtain ⟨g1, g2, g3⟩ := runEvent_frame CHUNKSIZE getPathname s e
    rw [List.foldl_cons]
    exact ⟨h1.trans g1, h2.trans g2, h3.trans g3⟩

/-! ## The claims -/

/-- C1. A candidate whose slot is zero before the ingest loop is flagged lost
by the decision rule of `Next` after the loop exactly when some block index
`i` with `i * CHUNKSIZE < filesize` has no accepted key in the input, in
inline and in overflow mode alike. -/
theorem C1_lost_iff_block_without_key (CHUNKSIZE : Int) (hCS : 0 < CHUNKSIZE) (K : KeyCodec)
    (fsId : Int) (s : ObjStoreFsck) (lines : List (List Char)) (fid : Int) (f : MetaFattr)
    (hnull : NullHandles CHUNKSIZE s.metatree)
    (hf : getFattr s.metatree fid = some f) (hc : isCandidate f = true)
    (h0 : f.chunkcount = 0) :
    ∃ f', getFattr (ingest CHUNKSIZE K fsId s lines).metatree fid = some f' ∧
      (isLost CHUNKSIZE (ingest CHUNKSIZE K fsId s lines).heap f' = true ↔
        ∃ i : Nat, (i : Int) * CHUNKSIZE < f.filesize ∧
          ¬ ∃ l ∈ lines, acceptedIdx CHUNKSIZE K fsId f l = some i) := by
  obtain ⟨_, h2⟩ := ingest_marks hCS K fsId lines s (HeapInv_of_NullHandles hnull)
  obtain ⟨c, hc1, hm⟩ := h2 fid f hf hc
  refine ⟨_, hc1, ?_⟩
  rw [isLost_iff CHUNKSIZE hCS]
  have hkey : ∀ i : Nat,
      scanPasses CHUNKSIZE (ingest CHUNKSIZE K fsId s lines).heap { f with chunkcount := c } i ↔
        ∃ l ∈ lines, acceptedIdx CHUNKSIZE K fsId f l = some i := by
    intro i
    rw [scanPasses_iff, hm i, isMarked_zero s.heap h0 i]
    constructor
    · rintro ⟨h | h, _⟩
      · cases h
      · exact h
    · rintro ⟨l, hl, hacc⟩
      exact ⟨Or.inr ⟨l, hl, hacc⟩, fun _ => acceptedIdx_le hCS hacc⟩
  constructor
  · rintro ⟨i, hi, hn⟩
    exact ⟨i, hi, fun h => hn ((hkey i).2 h)⟩
  · rintro ⟨i, hi, hn⟩
    exact ⟨i, hi, fun h => hn ((hkey i).1 h)⟩

/-- C1, the scenario of the claim: file A has size `3 * CHUNKSIZE` and the
input holds its keys for the blocks 0 and 2 but not 1; it is flagged lost. -/
theorem C1_lost_iff_block_without_key_witness :
    ∃ f', getFattr (ingest sampleChunk sampleCodec 9 sampleRun
          ["o.5.-1.9".toList, "o.5.-134217729.9".toList]).metatree 5 = some f' ∧
      isLost sampleChunk (ingest sampleChunk sampleCodec 9 sampleRun
          ["o.5.-1.9".toList, "o.5.-134217729.9".toList]).heap f' = true := by
  obtain ⟨f', h1, h2⟩ := C1_lost_iff_block_without_key sampleChunk (by decide) sampleCodec 9
    sampleRun ["o.5.-1.9".toList, "o.5.-134217729.9".toList] 5 fileA sampleRun_null (by decide)
    (by decide) rfl
  exact ⟨f', h1, h2.2 ⟨1, by decide, by decide⟩⟩

/-- C2. A file in inline mode with `N` blocks, last block index
`nextChunkOffset / CHUNKSIZE = N - 1`, zero slot and size at most
`N * CHUNKSIZE`: `N` is at most 64, the width of the slot, and after the
marks of the indices `0 .. N-1` in any order the first gap found by the
scanner is `N` and the file is not flagged lost. -/
theorem C2_inline_all_marked_any_order (CHUNKSIZE : Int) (hCS : 0 < CHUNKSIZE)
    (s : ObjStoreFsck) (fid : Int) (f : MetaFattr) (N : Nat) (order : List Nat)
    (hf : getFattr s.metatree fid = some f)
    (hinl : HasBitmapSet CHUNKSIZE f = false)
    (hN : Int.tdiv f.nextChunkOffset CHUNKSIZE = (N : Int) - 1)
    (h0 : f.chunkcount = 0) (hsize : f.filesize ≤ (N : Int) * CHUNKSIZE)
    (hperm : order.Perm (List.range N)) :
    N ≤ 64 ∧
    ∃ f', getFattr (order.foldl (markFile CHUNKSIZE fid) s).metatree fid = some f' ∧
      missingIdx CHUNKSIZE (order.foldl (markFile CHUNKSIZE fid) s).heap f' = N ∧
      isLost CHUNKSIZE (order.foldl (markFile CHUNKSIZE fid) s).heap f' = false := by
  have hN64 : N ≤ 64 := by
    have h := hinl
    unfold HasBitmapSet kBits at h
    rw [decide_eq_false_iff_not, not_le] at h
    have := tdiv_lt_of_lt_mul hCS (by norm_num : (0 : Int) < 64) h
    omega
  refine ⟨hN64, ?_⟩
  have hmem : ∀ j, j ∈ order ↔ j < N := by
    intro j
    rw [hperm.mem_iff, List.mem_range]
  obtain ⟨c, hc1, hm⟩ := markFile_inline_fold hCS order s f hf hinl (by
    intro i hi
    have := (hmem i).1 hi
    omega)
  refine ⟨_, hc1, ?_⟩
  have hpass : ∀ j, scanPasses CHUNKSIZE (order.foldl (markFile CHUNKSIZE fid) s).heap
      { f with chunkcount := c } j ↔ j < N := by
    intro j
    rw [scanPasses_iff, hm s.heap _ j, isMarked_zero s.heap h0 j, hmem]
    constructor
    · rintro ⟨h | h, _⟩
      · cases h
      · exact h
    · intro h
      refine ⟨Or.inr h, fun _ => ?_⟩
      show (j : Int) ≤ Int.tdiv f.nextChunkOffset CHUNKSIZE
      omega
  obtain ⟨m1, m2⟩ := missingIdx_spec CHUNKSIZE (order.foldl (markFile CHUNKSIZE fid) s).heap
    { f with chunkcount := c }
  have hidx : missingIdx CHUNKSIZE (order.foldl (markFile CHUNKSIZE fid) s).heap
      { f with chunkcount := c } = N := by
    rw [hpass] at m2
    by_contra hne
    have hlt : N < missingIdx CHUNKSIZE (order.foldl (markFile CHUNKSIZE fid) s).heap
        { f with chunkcount := c } := by omega
    have := (hpass N).1 (m1 N hlt)
    omega
  refine ⟨hidx, ?_⟩
  unfold isLost
  rw [hidx, decide_eq_false_iff_not]
  show ¬ (N : Int) * CHUNKSIZE < f.filesize
  omega

/-- C2 at file A: the marks of its three blocks in the order 2, 0, 1. -/
theorem C2_inline_all_marked_any_order_witness :
    3 ≤ 64 ∧ ∃ f', getFattr ([2, 0, 1].foldl (markFile sampleChunk 5) sampleRun).metatree 5 = some f' ∧
      missingIdx sampleChunk ([2, 0, 1].foldl (markFile sampleChunk 5) sampleRun).heap f' = 3 ∧
      isLost sampleChunk ([2, 0, 1].foldl (markFile sampleChunk 5) sampleRun).heap f' = false :=
  C2_inline_all_marked_any_order sampleChunk (by decide) sampleRun 5 fileA 3 [2, 0, 1]
    (by decide) (by decide) (by decide) rfl (by decide) (by decide)

/-- C3. A candidate with `N` blocks, `nextChunkOffset / CHUNKSIZE = N - 1`,
and a null slot. With `N > 64` the file is in overflow mode, the first mark
of any block stores in the slot the address of a new bit vector of length
exactly `N`, and after the mark of block `N - 1` alone the first gap found
by the scanner is `0` and the file is flagged lost. With `N ≤ 64` the file
is not in overflow mode. -/
theorem C3_overflow_mode (CHUNKSIZE : Int) (hCS : 0 < CHUNKSIZE)
    (s : ObjStoreFsck) (fid : Int) (f : MetaFattr) (N : Nat)
    (hf : getFattr s.metatree fid = some f) (hc : isCandidate f = true)
    (h0 : f.chunkcount = 0)
    (hN : Int.tdiv f.nextChunkOffset CHUNKSIZE = (N : Int) - 1) :
    (64 < N →
      HasBitmapSet CHUNKSIZE f = true ∧
      (∀ idx, getFattr (markFile CHUNKSIZE fid s idx).metatree fid =
            some { f with chunkcount := s.heap.length + 1 } ∧
          (markFile CHUNKSIZE fid s idx).heap.length = s.heap.length + 1 ∧
          (deref (markFile CHUNKSIZE fid s idx).heap (s.heap.length + 1)).length = N) ∧
      ∃ f', getFattr (markFile CHUNKSIZE fid s (N - 1)).metatree fid = some f' ∧
        missingIdx CHUNKSIZE (markFile CHUNKSIZE fid s (N - 1)).heap f' = 0 ∧
        isLost CHUNKSIZE (markFile CHUNKSIZE fid s (N - 1)).heap f' = true) ∧
    (N ≤ 64 → HasBitmapSet CHUNKSIZE f = false) := by
  constructor
  · intro hbig
    have hb : HasBitmapSet CHUNKSIZE f = true := by
      unfold HasBitmapSet kBits
      rw [decide_eq_true_iff]
      by_contra hlt
      rw [not_le] at hlt
      have := tdiv_lt_of_lt_mul hCS (by norm_num : (0 : Int) < 64) hlt
      omega
    have hgid := getFattr_id hf
    subst hgid
    have hmark : ∀ idx, markFile CHUNKSIZE f.id s idx =
        { s with
          metatree := setChunkcount s.metatree f.id (s.heap.length + 1)
          heap := bitmapSet
            (s.heap ++ [List.replicate (1 + Int.tdiv f.nextChunkOffset CHUNKSIZE).toNat false])
            (s.heap.length + 1) idx } := by
      intro idx
      unfold markFile
      rw [hf]
      simp only []
      rw [markBlock_new s idx hb h0]
    have hself : getFattr (setChunkcount s.metatree f.id (s.heap.length + 1)) f.id =
        some { f with chunkcount := s.heap.length + 1 } := by
      rw [getFattr_setChunkcount_same, hf]; rfl
    have hvec : ∀ idx, deref (bitmapSet
        (s.heap ++ [List.replicate (1 + Int.tdiv f.nextChunkOffset CHUNKSIZE).toNat false])
        (s.heap.length + 1) idx) (s.heap.length + 1) =
          (List.replicate (1 + Int.tdiv f.nextChunkOffset CHUNKSIZE).toNat false).set idx true := by
      intro idx
      rw [deref_bitmapSet _ idx _ (by omega) (by simp), if_pos rfl, deref_append_new]
    have hlenN : (1 + Int.tdiv f.nextChunkOffset CHUNKSIZE).toNat = N := by omega
    refine ⟨hb, ?_, ?_⟩
    · intro idx
      rw [hmark idx]
      refine ⟨hself, ?_, ?_⟩
      · simp only []
        rw [length_bitmapSet]
        simp
      · simp only []
        rw [hvec, List.length_set, List.length_replicate, hlenN]
    · rw [hmark (N - 1)]
      refine ⟨_, hself, ?_⟩
      simp only []
      have hb2 : HasBitmapSet CHUNKSIZE { f with chunkcount := s.heap.length + 1 } = true := hb
      obtain ⟨m1, _⟩ := missingIdx_spec CHUNKSIZE (bitmapSet
        (s.heap ++ [List.replicate (1 + Int.tdiv f.nextChunkOffset CHUNKSIZE).toNat false])
        (s.heap.length + 1) (N - 1)) { f with chunkcount := s.heap.length + 1 }
      have hzero : missingIdx CHUNKSIZE (bitmapSet
          (s.heap ++ [List.replicate (1 + Int.tdiv f.nextChunkOffset CHUNKSIZE).toNat false])
          (s.heap.length + 1) (N - 1)) { f with chunkcount := s.heap.length + 1 } = 0 := by
        by_contra hne
        have hpass := m1 0 (by omega)
        rw [scanPasses_iff, isMarked_bitmap hb2] at hpass
        simp only [] at hpass
        rw [hvec, getD_set_true] at hpass
        have h1 : ¬ (0 = N - 1) := by omega
        simp [h1, List.getD_eq_getElem?_getD, List.getElem?_replicate] at hpass
        have h2 := hpass.1
        split at h2 <;> simp at h2
      refine ⟨hzero, ?_⟩
      unfold isLost
      rw [hzero, decide_eq_true_iff]
      have := ((isCandidate_iff f).1 hc).2.2
      simpa using this
  · intro hsmall
    unfold HasBitmapSet kBits
    rw [decide_eq_false_iff_not]
    intro hge
    have hnn : (0 : Int) ≤ f.nextChunkOffset := by
      have : (0 : Int) ≤ 64 * CHUNKSIZE := by positivity
      omega
    have h64 : (64 : Int) ≤ f.nextChunkOffset / CHUNKSIZE := Int.le_ediv_of_mul_le hCS hge
    rw [Int.tdiv_eq_ediv hnn (le_of_lt hCS)] at hN
    omega

/-- C3 at file C, which has 65 blocks: overflow mode, a vector of length 65
on the first mark, and first gap 0 and the verdict lost after the mark of
block 64 alone. -/
theorem C3_overflow_mode_witness :
    HasBitmapSet sampleChunk fileC = true ∧
    (∀ idx, getFattr (markFile sampleChunk 7 sampleRun idx).metatree 7 =
          some { fileC with chunkcount := sampleRun.heap.length + 1 } ∧
        (markFile sampleChunk 7 sampleRun idx).heap.length = sampleRun.heap.length + 1 ∧
        (deref (markFile sampleChunk 7 sampleRun idx).heap
          (sampleRun.heap.length + 1)).length = 65) ∧
    ∃ f', getFattr (markFile sampleChunk 7 sampleRun (65 - 1)).metatree 7 = some f' ∧
      missingIdx sampleChunk (markFile sampleChunk 7 sampleRun (65 - 1)).heap f' = 0 ∧
      isLost sampleChunk (markFile sampleChunk 7 sampleRun (65 - 1)).heap f' = true :=
  (C3_overflow_mode sampleChunk (by decide) sampleRun 7 fileC 65 (by decide) (by decide) rfl
    (by decide)).1 (by decide)

/-- C4. In a state the ingest loop reaches from a tree with null handles, a
line whose key is accepted for a block (it sets the bit or finds it set)
takes the "duplicate input key" branch when it is read a second time, and
the second pass leaves the tree and the free store, and so the first gap and
the verdict of every file, as they were after the first pass; it changes the
key counter only. This holds in inline and in overflow mode. -/
theorem C4_second_ingest_is_duplicate (CHUNKSIZE : Int) (hCS : 0 < CHUNKSIZE) (K : KeyCodec)
    (fsId : Int) (s0 : ObjStoreFsck) (before : List (List Char)) (l : List Char)
    (hnull : NullHandles CHUNKSIZE s0.metatree)
    (hacc : (ingestLine CHUNKSIZE K fsId (ingest CHUNKSIZE K fsId s0 before) l).2
        = KeyResult.marked ∨
      (ingestLine CHUNKSIZE K fsId (ingest CHUNKSIZE K fsId s0 before) l).2
        = KeyResult.duplicate) :
    ingestLine CHUNKSIZE K fsId
        (ingestLine CHUNKSIZE K fsId (ingest CHUNKSIZE K fsId s0 before) l).1 l =
      ({ (ingestLine CHUNKSIZE K fsId (ingest CHUNKSIZE K fsId s0 before) l).1 with
          theKeysCount :=
            (ingestLine CHUNKSIZE K fsId (ingest CHUNKSIZE K fsId s0 before) l).1.theKeysCount
              + 1 },
        KeyResult.duplicate) ∧
    ∀ g, missingIdx CHUNKSIZE (ingestLine CHUNKSIZE K fsId
          (ingestLine CHUNKSIZE K fsId (ingest CHUNKSIZE K fsId s0 before) l).1 l).1.heap g =
        missingIdx CHUNKSIZE
          (ingestLine CHUNKSIZE K fsId (ingest CHUNKSIZE K fsId s0 before) l).1.heap g ∧
      isLost CHUNKSIZE (ingestLine CHUNKSIZE K fsId
          (ingestLine CHUNKSIZE K fsId (ingest CHUNKSIZE K fsId s0 before) l).1 l).1.heap g =
        isLost CHUNKSIZE
          (ingestLine CHUNKSIZE K fsId (ingest CHUNKSIZE K fsId s0 before) l).1.heap g := by
  obtain ⟨hinv, _⟩ := ingest_marks hCS K fsId before s0 (HeapInv_of_NullHandles hnull)
  generalize ingest CHUNKSIZE K fsId s0 before = s at hinv hacc ⊢
  obtain ⟨fid, v, g, hpk, happ, hg, hc, hpos, heq⟩ := ingestLine_reaches_mark hacc
  have hinv1 : HeapInv CHUNKSIZE { s with theKeysCount := s.theKeysCount + 1 } := hinv
  have hg1 : getFattr ({ s with theKeysCount := s.theKeysCount + 1 } : ObjStoreFsck).metatree
      fid = some g := hg
  obtain ⟨_, hstep⟩ := markBlock_step hCS hinv1 hg1 hc (idx_le_last hCS hpos)
  obtain ⟨c, hc1, hc2⟩ := hstep fid g hg1 hc
  have hmk := hc2 (Int.tdiv (blockPos g v) CHUNKSIZE).toNat
  rw [← heq] at hc1 hmk
  simp only [true_and, decide_True, Bool.or_true] at hmk
  have hfirst : ingestLine CHUNKSIZE K fsId (ingestLine CHUNKSIZE K fsId s l).1 l =
      ({ (ingestLine CHUNKSIZE K fsId s l).1 with
          theKeysCount := (ingestLine CHUNKSIZE K fsId s l).1.theKeysCount + 1 },
        KeyResult.duplicate) := by
    rw [ingestLine_eq CHUNKSIZE _ hpk happ hc1]
    have hc' : isCandidate { g with chunkcount := c } = true := hc
    have hpos' : posOk CHUNKSIZE { g with chunkcount := c } v := hpos
    rw [ingestKey_ok CHUNKSIZE _ hc' hpos']
    exact markBlock_of_marked _ hmk
  refine ⟨hfirst, ?_⟩
  intro g'
  rw [hfirst]
  exact ⟨rfl, rfl⟩

/-- C4 at file C, in overflow mode: the key of its block 0 read twice. -/
theorem C4_second_ingest_is_duplicate_witness :
    (ingestLine sampleChunk sampleCodec 9
        (ingestLine sampleChunk sampleCodec 9 (ingest sampleChunk sampleCodec 9 sampleRun [])
          "o.7.-1.9".toList).1 "o.7.-1.9".toList).2 = KeyResult.duplicate :=
  congrArg Prod.snd (C4_second_ingest_is_duplicate sampleChunk (by decide) sampleCodec 9
    sampleRun [] "o.7.-1.9".toList sampleRun_null (Or.inl (by decide))).1

/-- C5. A line that the ingest loop logs as malformed is skipped: the tree,
the free store, the error status and the lost count stay as they are, and
only the key counter grows. A non-empty line is malformed when it has no
`.`, and a line with a first `.` is malformed exactly when nothing follows
that `.`, or the file id does not parse or is negative, or no `.` comes
right after it, or nothing follows that second `.`, or the version does not
parse or is not below zero (so also when it is `0`), or no `.` comes right
after the version. -/
theorem C5_malformed_line_is_skipped (CHUNKSIZE : Int) (K : KeyCodec) (fsId : Int)
    (s : ObjStoreFsck) (l : List Char) :
    ((ingestLine CHUNKSIZE K fsId s l).2 = KeyResult.malformed →
      (ingestLine CHUNKSIZE K fsId s l).1 =
        { s with theKeysCount := s.theKeysCount + 1 }) ∧
    (l ≠ [] → '.' ∉ l → (ingestLine CHUNKSIZE K fsId s l).2 = KeyResult.malformed) ∧
    (∀ pre p1, l = pre ++ '.' :: p1 → '.' ∉ pre →
      ((ingestLine CHUNKSIZE K fsId s l).2 = KeyResult.malformed ↔
        (p1 = [] ∨ K.Parse p1 = none ∨
          ∃ fid p2, K.Parse p1 = some (fid, p2) ∧
            (fid < 0 ∨ p2.head? ≠ some '.' ∨
              ∃ p3, p2 = '.' :: p3 ∧
                (p3 = [] ∨ K.Parse p3 = none ∨
                  ∃ v p4, K.Parse p3 = some (v, p4) ∧
                    (0 ≤ v ∨ p4.head? ≠ some '.')))))) := by
  refine ⟨?_, ?_, ?_⟩
  · intro h
    by_cases hl : l = []
    · subst hl
      simp [ingestLine] at h
    · obtain ⟨h1, h2⟩ := ingestLine_malformed_iff CHUNKSIZE K fsId s hl
      rw [h2 (h1.1 h)]
  · intro hl hdot
    obtain ⟨h1, _⟩ := ingestLine_malformed_iff CHUNKSIZE K fsId s hl
    rw [h1]
    unfold parseKey
    rw [dropWhile_no_dot hdot]
  · intro pre p1 hl hdot
    have hne : l ≠ [] := by
      rw [hl]; simp
    obtain ⟨h1, _⟩ := ingestLine_malformed_iff CHUNKSIZE K fsId s hne
    rw [h1, hl]
    exact parseKey_eq_none_iff K p1 hdot

/-- C6. A line that sets a presence bit, finds it set, or changes the tree
or the free store in any way decodes to a file id and a version whose
regenerated key is the line itself, character for character; and a line
that decodes but differs from its regenerated key is logged as an invalid
key and changes the key counter only. -/
theorem C6_marked_line_is_canonical (CHUNKSIZE : Int) (K : KeyCodec) (fsId : Int)
    (s : ObjStoreFsck) (l : List Char) :
    (((ingestLine CHUNKSIZE K fsId s l).2 = KeyResult.marked ∨
        (ingestLine CHUNKSIZE K fsId s l).2 = KeyResult.duplicate ∨
        (ingestLine CHUNKSIZE K fsId s l).1.metatree ≠ s.metatree ∨
        (ingestLine CHUNKSIZE K fsId s l).1.heap ≠ s.heap) →
      ∃ fid v, parseKey K l = some (fid, v) ∧
        K.AppendChunkFileNameOrObjectStoreBlockKey fsId fid fid v = some l) ∧
    (∀ fid v e, parseKey K l = some (fid, v) →
      K.AppendChunkFileNameOrObjectStoreBlockKey fsId fid fid v = some e → e ≠ l →
      ingestLine CHUNKSIZE K fsId s l =
        ({ s with theKeysCount := s.theKeysCount + 1 }, KeyResult.invalidKey)) := by
  constructor
  · intro h
    rcases ingestLine_cases CHUNKSIZE K fsId s l with
      ⟨fid, v, g, hpk, happ, _, _⟩ | ⟨ht, hh, _⟩
    · exact ⟨fid, v, hpk, happ⟩
    · rcases h with h | h | h | h
      · obtain ⟨fid, v, _, hpk, happ, _⟩ :=
          @ingestLine_reaches_mark CHUNKSIZE K fsId s l (Or.inl h)
        exact ⟨fid, v, hpk, happ⟩
      · obtain ⟨fid, v, _, hpk, happ, _⟩ :=
          @ingestLine_reaches_mark CHUNKSIZE K fsId s l (Or.inr h)
        exact ⟨fid, v, hpk, happ⟩
      · exact absurd ht h
      · exact absurd hh h
  · intro fid v e hpk happ hne
    have hl : l ≠ [] := by
      intro h
      rw [h, parseKey_nil] at hpk
      cases hpk
    unfold ingestLine
    simp [hl, hpk, happ, hne]

/-- C9. A decoded, canonical key whose file id is not in the tree, or whose
entry is not a file, has a replication factor other than zero, or has a size
of zero or less, is skipped: the tree, the free store, the error status and
the lost count stay as they are and only the key counter grows. The log
message is that of the first of these checks that fails. -/
theorem C9_key_of_non_candidate_is_skipped (CHUNKSIZE : Int) (K : KeyCodec) (fsId : Int)
    (s : ObjStoreFsck) (l : List Char) (fid v : Int)
    (hpk : parseKey K l = some (fid, v))
    (happ : K.AppendChunkFileNameOrObjectStoreBlockKey fsId fid fid v = some l)
    (hskip : getFattr s.metatree fid = none ∨
      ∃ g, getFattr s.metatree fid = some g ∧
        (g.type ≠ FileType.KFS_FILE ∨ g.numReplicas ≠ 0 ∨ g.filesize ≤ 0)) :
    (ingestLine CHUNKSIZE K fsId s l).1 = { s with theKeysCount := s.theKeysCount + 1 } ∧
    (getFattr s.metatree fid = none →
      (ingestLine CHUNKSIZE K fsId s l).2 = KeyResult.noSuchFile) ∧
    (∀ g, getFattr s.metatree fid = some g →
      (ingestLine CHUNKSIZE K fsId s l).2 =
        if g.type ≠ FileType.KFS_FILE then KeyResult.wrongType
        else if g.numReplicas ≠ 0 then KeyResult.replicated
        else KeyResult.zeroSize) := by
  have hl : l ≠ [] := by
    intro h
    rw [h, parseKey_nil] at hpk
    cases hpk
  rcases hskip with hnone | ⟨g, hg, hbad⟩
  · have heq : ingestLine CHUNKSIZE K fsId s l =
        ({ s with theKeysCount := s.theKeysCount + 1 }, KeyResult.noSuchFile) := by
      unfold ingestLine
      simp [hl, hpk, happ, hnone]
    rw [heq]
    refine ⟨rfl, fun _ => rfl, ?_⟩
    intro g hg
    rw [hnone] at hg
    cases hg
  · rw [ingestLine_eq CHUNKSIZE s hpk happ hg]
    have hc : isCandidate g = false := by
      rw [← Bool.not_eq_true, isCandidate_iff]
      rintro ⟨h1, h2, h3⟩
      rcases hbad with h | h | h
      · exact h h1
      · exact h h2
      · omega
    refine ⟨ingestKey_not_candidate CHUNKSIZE _ v hc, ?_, ?_⟩
    · intro hnone
      rw [hnone] at hg
      cases hg
    · intro g' hg'
      rw [hg] at hg'
      cases hg'
      unfold ingestKey
      by_cases h1 : g.type = FileType.KFS_FILE
      · by_cases h2 : g.numReplicas = 0
        · have h3 : g.filesize ≤ 0 := by
            rcases hbad with h | h | h
            · exact absurd h1 h
            · exact absurd h2 h
            · exact h
          simp [h1, h2, h3]
        · simp [h1, h2]
      · simp [h1]

/-- C9 at a key of the file id 77, which is not in the example tree. -/
theorem C9_key_of_non_candidate_is_skipped_witness :
    (ingestLine sampleChunk sampleCodec 9 sampleRun "o.77.-1.9".toList).1 =
      { sampleRun with theKeysCount := sampleRun.theKeysCount + 1 } ∧
    (ingestLine sampleChunk sampleCodec 9 sampleRun "o.77.-1.9".toList).2 =
      KeyResult.noSuchFile :=
  ⟨(C9_key_of_non_candidate_is_skipped sampleChunk sampleCodec 9 sampleRun "o.77.-1.9".toList
      77 (-1) (by decide) (by decide) (Or.inl (by decide))).1,
    (C9_key_of_non_candidate_is_skipped sampleChunk sampleCodec 9 sampleRun "o.77.-1.9".toList
      77 (-1) (by decide) (by decide) (Or.inl (by decide))).2.1 (by decide)⟩

/-- C10, the claim as stated fails. The key of file A with version
`-134217729` is accepted; with tier 0 the value `-v - 1 - t` is `134217728`,
the position of the block in bytes. After the pass the bit of that index is
not marked; the bit that the ingest loop has set is the one of index `2`,
the slot going from `0` to `2 ^ 2`. -/
theorem C10_marked_index_counterexample :
    (ingestLine sampleChunk sampleCodec 9 sampleRun "o.5.-134217729.9".toList).2 =
      KeyResult.marked ∧
    parseKey sampleCodec "o.5.-134217729.9".toList = some (5, -134217729) ∧
    getFattr sampleRun.metatree 5 = some fileA ∧
    -(-134217729 : Int) - 1 - fileA.minSTier = 134217728 ∧
    getFattr (ingestLine sampleChunk sampleCodec 9 sampleRun
        "o.5.-134217729.9".toList).1.metatree 5 = some { fileA with chunkcount := 2 ^ 2 } ∧
    isMarked sampleChunk (ingestLine sampleChunk sampleCodec 9 sampleRun
        "o.5.-134217729.9".toList).1.heap { fileA with chunkcount := 2 ^ 2 } 134217728 = false ∧
    isMarked sampleChunk (ingestLine sampleChunk sampleCodec 9 sampleRun
        "o.5.-134217729.9".toList).1.heap { fileA with chunkcount := 2 ^ 2 } 2 = true := by
  decide

/-- C10, amended. In a state the ingest loop reaches from a tree with null
handles, a key with version `v` that is accepted for a file with lowest tier
`t` addresses the byte position `-v - 1 - t`, which is a multiple of
`CHUNKSIZE`, and the block index whose presence bit the loop sets, or finds
set, is `(-v - 1 - t) / CHUNKSIZE`: the marks of the file after the pass are
those before it and that index, and the bit was clear before when the result
is `marked`. -/
theorem C10_marked_index_is_position_div_chunksize (CHUNKSIZE : Int) (hCS : 0 < CHUNKSIZE)
    (K : KeyCodec) (fsId : Int) (s0 : ObjStoreFsck) (before : List (List Char))
    (l : List Char) (fid v : Int) (g : MetaFattr)
    (hnull : NullHandles CHUNKSIZE s0.metatree)
    (hpk : parseKey K l = some (fid, v))
    (hg : getFattr (ingest CHUNKSIZE K fsId s0 before).metatree fid = some g)
    (hacc : (ingestLine CHUNKSIZE K fsId (ingest CHUNKSIZE K fsId s0 before) l).2
        = KeyResult.marked ∨
      (ingestLine CHUNKSIZE K fsId (ingest CHUNKSIZE K fsId s0 before) l).2
        = KeyResult.duplicate) :
    -v - 1 - g.minSTier =
      ((Int.tdiv (-v - 1 - g.minSTier) CHUNKSIZE).toNat : Int) * CHUNKSIZE ∧
    (∃ c, getFattr (ingestLine CHUNKSIZE K fsId (ingest CHUNKSIZE K fsId s0 before) l).1.metatree
          fid = some { g with chunkcount := c } ∧
        ∀ j, isMarked CHUNKSIZE
            (ingestLine CHUNKSIZE K fsId (ingest CHUNKSIZE K fsId s0 before) l).1.heap
            { g with chunkcount := c } j =
          (isMarked CHUNKSIZE (ingest CHUNKSIZE K fsId s0 before).heap g j ||
            decide (j = (Int.tdiv (-v - 1 - g.minSTier) CHUNKSIZE).toNat))) ∧
    ((ingestLine CHUNKSIZE K fsId (ingest CHUNKSIZE K fsId s0 before) l).2 = KeyResult.marked →
      isMarked CHUNKSIZE (ingest CHUNKSIZE K fsId s0 before).heap g
        (Int.tdiv (-v - 1 - g.minSTier) CHUNKSIZE).toNat = false) := by
  obtain ⟨hinv, _⟩ := ingest_marks hCS K fsId before s0 (HeapInv_of_NullHandles hnull)
  generalize ingest CHUNKSIZE K fsId s0 before = s at hinv hacc hg ⊢
  obtain ⟨fid', v', g', hpk', happ, hg', hc, hpos, heq⟩ := ingestLine_reaches_mark hacc
  rw [hpk] at hpk'
  cases hpk'
  rw [hg] at hg'
  cases hg'
  have hinv1 : HeapInv CHUNKSIZE { s with theKeysCount := s.theKeysCount + 1 } := hinv
  have hg1 : getFattr ({ s with theKeysCount := s.theKeysCount + 1 } : ObjStoreFsck).metatree
      fid = some g := hg
  obtain ⟨_, hstep⟩ := markBlock_step hCS hinv1 hg1 hc (idx_le_last hCS hpos)
  obtain ⟨c, hc1, hc2⟩ := hstep fid g hg1 hc
  rw [← heq] at hc1 hc2
  have hposeq : blockPos g v = -v - 1 - g.minSTier := rfl
  obtain ⟨p1, p2, _⟩ := hpos
  rw [hposeq] at hc2 heq p1 p2
  refine ⟨?_, ⟨c, hc1, ?_⟩, ?_⟩
  · rw [Int.toNat_of_nonneg (Int.tdiv_nonneg p1 (le_of_lt hCS))]
    have h := Int.tdiv_add_tmod (-v - 1 - g.minSTier) CHUNKSIZE
    rw [p2] at h
    rw [mul_comm]
    omega
  · intro j
    rw [hc2 j]
    simp
  · intro hm
    cases hb : isMarked CHUNKSIZE s.heap g (Int.tdiv (-v - 1 - g.minSTier) CHUNKSIZE).toNat
    · rfl
    · have hdup := markBlock_of_marked { s with theKeysCount := s.theKeysCount + 1 } hb
      rw [heq, hdup] at hm
      cases hm

/-- C10, amended, at the key of block 2 of file A: the position is
`2 * CHUNKSIZE` and the bit was clear before the pass. -/
theorem C10_marked_index_is_position_div_chunksize_witness :
    -(-134217729 : Int) - 1 - fileA.minSTier =
      ((Int.tdiv (-(-134217729 : Int) - 1 - fileA.minSTier) sampleChunk).toNat : Int)
        * sampleChunk ∧
    isMarked sampleChunk (ingest sampleChunk sampleCodec 9 sampleRun []).heap fileA
      (Int.tdiv (-(-134217729 : Int) - 1 - fileA.minSTier) sampleChunk).toNat = false :=
  ⟨(C10_marked_index_is_position_div_chunksize sampleChunk (by decide) sampleCodec 9 sampleRun
      [] "o.5.-134217729.9".toList 5 (-134217729) fileA sampleRun_null (by decide) (by decide)
      (Or.inl (by decide))).1,
    (C10_marked_index_is_position_div_chunksize sampleChunk (by decide) sampleCodec 9 sampleRun
      [] "o.5.-134217729.9".toList 5 (-134217729) fileA sampleRun_null (by decide) (by decide)
      (Or.inl (by decide))).2.2 (by decide)⟩

/-- C7. In query mode with a bound `N = mMaxInFlightCnt > 0`, from no
request in flight: after every step of every sequence of scanner runs
`Next(0)` and completions `OpDone` (with a path, not found, another error,
or canceled; with enqueues accepted or rejected), the count of requests in
flight is the number of queued requests and lies between `0` and `N`. -/
theorem C7_inflight_within_bound (CHUNKSIZE : Int) (getPathname : MetaFattr → String)
    (s0 : ObjStoreFsck) (events : List Event) (n : Nat)
    (hq : s0.mQueryFlag = true) (hN : 0 < s0.mMaxInFlightCnt)
    (h0 : s0.mInFlightCnt = 0) (hqueue : s0.queue = []) :
    0 ≤ ((events.take n).foldl (runEvent CHUNKSIZE getPathname) s0).mInFlightCnt ∧
    ((events.take n).foldl (runEvent CHUNKSIZE getPathname) s0).mInFlightCnt ≤
      s0.mMaxInFlightCnt ∧
    ((events.take n).foldl (runEvent CHUNKSIZE getPathname) s0).mInFlightCnt =
      ((events.take n).foldl (runEvent CHUNKSIZE getPathname) s0).queue.length := by
  obtain ⟨h1, h2⟩ := runEvents_inflight CHUNKSIZE getPathname (events.take n) s0 hq
    (by rw [h0, hqueue]; rfl) (by omega)
  refine ⟨?_, h2, h1⟩
  rw [h1]
  exact Int.natCast_nonneg _

/-- C7 at the example events with the bound 1. -/
theorem C7_inflight_within_bound_witness :
    0 ≤ ((sampleEvents.take 3).foldl (runEvent sampleChunk (fun _ => "/a"))
      sampleQueryRun).mInFlightCnt ∧
    ((sampleEvents.take 3).foldl (runEvent sampleChunk (fun _ => "/a"))
      sampleQueryRun).mInFlightCnt ≤ 1 :=
  ⟨(C7_inflight_within_bound sampleChunk (fun _ => "/a") sampleQueryRun sampleEvents 3
      rfl (by decide) rfl rfl).1,
    (C7_inflight_within_bound sampleChunk (fun _ => "/a") sampleQueryRun sampleEvents 3
      rfl (by decide) rfl rfl).2.1⟩

/-- C8. A file with a replication factor other than zero, whatever its
size and slot: the ingest loop leaves its node as it is for every input, the
scanner steps over its leaf in both modes without any effect, and it is not
among the files a run of the scanner reports or submits, all of which have
the replication factor zero. -/
theorem C8_replicated_file_is_never_a_candidate (CHUNKSIZE : Int) (K : KeyCodec) (fsId : Int)
    (enqueue : Nat → Bool) (getPathname : MetaFattr → String) (g : MetaFattr)
    (hrep : g.numReplicas ≠ 0) :
    (∀ (s : ObjStoreFsck) (lines : List (List Char)) (i : Nat),
      s.metatree[i]? = some (Meta.fattr g) →
      (ingest CHUNKSIZE K fsId s lines).metatree[i]? = some (Meta.fattr g)) ∧
    (∀ (rest : List Meta) (hasOp : Bool) (s : ObjStoreFsck),
      NextLoop CHUNKSIZE enqueue getPathname (Meta.fattr g :: rest) hasOp s =
        NextLoop CHUNKSIZE enqueue getPathname rest hasOp s) ∧
    (∀ (leaves : List Meta) (hasOp : Bool) (s : ObjStoreFsck),
      ∃ flagged : List MetaFattr,
        g ∉ flagged ∧ (∀ h ∈ flagged, Meta.fattr h ∈ leaves ∧ h.numReplicas = 0) ∧
        (NextLoop CHUNKSIZE enqueue getPathname leaves hasOp s).queue =
          s.queue ++ (if s.mQueryFlag then flagged.map (fun h => h.id) else []) ∧
        (NextLoop CHUNKSIZE enqueue getPathname leaves hasOp s).cout =
          s.cout ++ (if s.mQueryFlag then [] else flagged.map getPathname)) := by
  refine ⟨?_, ?_, ?_⟩
  · intro s lines i hi
    exact ingest_keeps CHUNKSIZE K fsId g hrep i lines s hi
  · intro rest hasOp s
    simp [NextLoop, hrep]
  · intro leaves hasOp s
    obtain ⟨flagged, h1, h2, h3⟩ :=
      NextLoop_flags_candidates CHUNKSIZE enqueue getPathname leaves hasOp s
    refine ⟨flagged, ?_, ?_, h2, h3⟩
    · intro hmem
      exact hrep ((isCandidate_iff g).1 (h1 g hmem).2.1).2.1
    · intro h hmem
      exact ⟨(h1 h hmem).1, ((isCandidate_iff h).1 (h1 h hmem).2.1).2.1⟩

/-- C8 at file B, which has two replicas: a key that names it leaves its
node as it is, and the scanner steps over its leaf. -/
theorem C8_replicated_file_is_never_a_candidate_witness :
    (ingest sampleChunk sampleCodec 9 sampleRun ["o.6.-1.9".toList]).metatree[2]? =
      some (Meta.fattr fileB) ∧
    NextLoop sampleChunk (fun _ => true) (fun _ => "/b") [Meta.fattr fileB] false sampleRun =
      NextLoop sampleChunk (fun _ => true) (fun _ => "/b") [] false sampleRun :=
  ⟨(C8_replicated_file_is_never_a_candidate sampleChunk sampleCodec 9 (fun _ => true)
      (fun _ => "/b") fileB (by decide)).1 sampleRun ["o.6.-1.9".toList] 2 (by decide),
    (C8_replicated_file_is_never_a_candidate sampleChunk sampleCodec 9 (fun _ => true)
      (fun _ => "/b") fileB (by decide)).2.1 [] false sampleRun⟩

/-- C11, the claim as stated fails. The run starts with the error status
zero. In the scan the request for file A is accepted and the one for file C
is rejected, which sets the error status to `-EFAULT`. The request for
file A then completes with the status `-5`, the first completion with a
negative status other than `-ENOENT`: the error status stays `-EFAULT` and
is not set to `5` by that completion. -/
theorem C11_first_error_counterexample :
    sampleQueryRun2.mError = 0 ∧
    ([Event.scan (fun n => decide (n = 2)),
        Event.done 0 (-5) "" false (fun _ => true)].foldl
      (runEvent sampleChunk (fun _ => "")) sampleQueryRun2).mError = -EFAULT ∧
    -EFAULT ≠ -(-5 : Int) := by
  refine ⟨?_, ?_, ?_⟩
  · rfl
  · rw [List.foldl_cons, List.foldl_cons, List.foldl_nil, sampleScan_rejected,
      runEvent_mError_sticky]
    · rfl
    · decide
  · decide

/-- C17, the claim as stated fails. In the example run the scan submits two
requests and both are then canceled: the error status and the lost count
are still zero and `RunSelf` returns `0`, the status of a run without
error and without lost file. -/
theorem C17_canceled_run_counterexample :
    RunSelfEnd 0 ([Event.scan (fun _ => true), Event.done 0 0 "" true (fun _ => true),
      Event.done 0 0 "" true (fun _ => true)].foldl
        (runEvent sampleChunk (fun _ => "")) sampleQueryRun2) = 0 := by
  rw [List.foldl_cons, sampleScan_accepted]
  obtain ⟨h1, h2, _, _⟩ := runEvents_canceled_frame sampleChunk (fun _ => "")
    [Event.done 0 0 "" true (fun _ => true), Event.done 0 0 "" true (fun _ => true)]
    { sampleQueryRun2 with mInFlightCnt := 2, queue := [5, 7], mLeafIter := [] } rfl
    (by
      intro e he
      simp only [List.mem_cons, List.mem_singleton, List.not_mem_nil, or_false, or_self] at he
      exact ⟨0, 0, "", fun _ => true, he⟩)
  unfold RunSelfEnd
  rw [h1, h2]
  decide

/-- C11, amended. In query mode a completion that is not canceled and has a
negative status other than `-ENOENT` sets the error status to `-status`
when it is still zero, that is when no earlier completion of this kind and
no earlier enqueue failure has set it, and leaves it as it is otherwise;
the scan is then resumed by `Next` with the request to reuse, and the error
status after the completion is not zero. Once the error status is not zero,
no later scan, completion or enqueue failure changes it. -/
theorem C11_first_error_is_kept (CHUNKSIZE : Int) (enqueue : Nat → Bool)
    (getPathname : MetaFattr → String) (status : Int) (pathname : String)
    (s : ObjStoreFsck) (hq : s.mQueryFlag = true) (hneg : status < 0)
    (hne : status ≠ -ENOENT) :
    OpDone CHUNKSIZE enqueue getPathname status pathname false s =
      Next CHUNKSIZE enqueue getPathname true
        { s with mInFlightCnt := s.mInFlightCnt - 1
                 mError := if s.mError = 0 then -status else s.mError } ∧
    (OpDone CHUNKSIZE enqueue getPathname status pathname false s).mError =
      (if s.mError = 0 then -status else s.mError) ∧
    (OpDone CHUNKSIZE enqueue getPathname status pathname false s).mError ≠ 0 ∧
    ∀ (s' : ObjStoreFsck) (events : List Event), s'.mError ≠ 0 →
      (events.foldl (runEvent CHUNKSIZE getPathname) s').mError = s'.mError := by
  have hnz : (if s.mError = 0 then -status else s.mError) ≠ 0 := by
    split
    · omega
    · assumption
  have heq := OpDone_error CHUNKSIZE enqueue getPathname status pathname s hq hneg hne
  have hm : (OpDone CHUNKSIZE enqueue getPathname status pathname false s).mError =
      (if s.mError = 0 then -status else s.mError) := by
    rw [heq]
    unfold Next
    rw [NextLoop_mError_sticky _ _ _ _ _ _ hnz]
  refine ⟨heq, hm, ?_, ?_⟩
  · rw [hm]; exact hnz
  · intro s' events h
    exact runEvents_mError_sticky CHUNKSIZE getPathname events s' h

/-- C11, amended, at the example run: the completion with status `-5`
sets the error status to `5`. -/
theorem C11_first_error_is_kept_witness :
    (OpDone sampleChunk (fun _ => true) (fun _ => "") (-5) "" false sampleQueryRun2).mError =
      (if sampleQueryRun2.mError = 0 then -(-5) else sampleQueryRun2.mError) :=
  (C11_first_error_is_kept sampleChunk (fun _ => true) (fun _ => "") (-5) ""
    sampleQueryRun2 rfl (by decide) (by decide)).2.1

/-- C12. In query mode a completion that is not canceled and has the status
`-ENOENT` only lowers the count of requests in flight by one and resumes
the scan: the state handed to `Next` has the lost count, the error status
and the output of before, and after the resumed scan the lost count and the
output are still those of before; the error status can change only from
zero to `-EFAULT`, by an enqueue failure of the resumed scan. -/
theorem C12_not_found_is_benign (CHUNKSIZE : Int) (enqueue : Nat → Bool)
    (getPathname : MetaFattr → String) (pathname : String)
    (s : ObjStoreFsck) (hq : s.mQueryFlag = true) :
    OpDone CHUNKSIZE enqueue getPathname (-ENOENT) pathname false s =
      Next CHUNKSIZE enqueue getPathname true { s with mInFlightCnt := s.mInFlightCnt - 1 } ∧
    (OpDone CHUNKSIZE enqueue getPathname (-ENOENT) pathname false s).mLostCount =
      s.mLostCount ∧
    (OpDone CHUNKSIZE enqueue getPathname (-ENOENT) pathname false s).cout = s.cout ∧
    ((OpDone CHUNKSIZE enqueue getPathname (-ENOENT) pathname false s).mError = s.mError ∨
      (s.mError = 0 ∧
        (OpDone CHUNKSIZE enqueue getPathname (-ENOENT) pathname false s).mError = -EFAULT)) := by
  have heq := OpDone_enoent CHUNKSIZE enqueue getPathname pathname s hq
  rw [heq]
  obtain ⟨h1, h2⟩ := NextLoop_query_frame CHUNKSIZE enqueue getPathname s.mLeafIter true
    { s with mInFlightCnt := s.mInFlightCnt - 1 } hq
  exact ⟨rfl, h1, h2,
    NextLoop_mError CHUNKSIZE enqueue getPathname s.mLeafIter true
      { s with mInFlightCnt := s.mInFlightCnt - 1 }⟩

/-- C12 at the example run. -/
theorem C12_not_found_is_benign_witness :
    (OpDone sampleChunk (fun _ => true) (fun _ => "") (-ENOENT) "" false
      sampleQueryRun2).mLostCount = sampleQueryRun2.mLostCount ∧
    (OpDone sampleChunk (fun _ => true) (fun _ => "") (-ENOENT) "" false
      sampleQueryRun2).cout = sampleQueryRun2.cout :=
  ⟨(C12_not_found_is_benign sampleChunk (fun _ => true) (fun _ => "") ""
      sampleQueryRun2 rfl).2.1,
    (C12_not_found_is_benign sampleChunk (fun _ => true) (fun _ => "") ""
      sampleQueryRun2 rfl).2.2.1⟩

/-- C13. In query mode a completion delivered with the canceled flag lowers
the count of requests in flight by exactly one and changes nothing else:
the lost count, the error status and the output stay as they are, and the
scan is not resumed. -/
theorem C13_canceled_is_neither_lost_nor_error (CHUNKSIZE : Int) (enqueue : Nat → Bool)
    (getPathname : MetaFattr → String) (status : Int) (pathname : String)
    (s : ObjStoreFsck) (hq : s.mQueryFlag = true) :
    OpDone CHUNKSIZE enqueue getPathname status pathname true s =
      { s with mInFlightCnt := s.mInFlightCnt - 1 } ∧
    (OpDone CHUNKSIZE enqueue getPathname status pathname true s).mLostCount = s.mLostCount ∧
    (OpDone CHUNKSIZE enqueue getPathname status pathname true s).mError = s.mError ∧
    (OpDone CHUNKSIZE enqueue getPathname status pathname true s).cout = s.cout ∧
    (OpDone CHUNKSIZE enqueue getPathname status pathname true s).mInFlightCnt =
      s.mInFlightCnt - 1 := by
  rw [OpDone_canceled CHUNKSIZE enqueue getPathname status pathname s hq]
  exact ⟨rfl, rfl, rfl, rfl, rfl⟩

/-- C13 at the example run, with a status that would count as an error. -/
theorem C13_canceled_is_neither_lost_nor_error_witness :
    OpDone sampleChunk (fun _ => true) (fun _ => "") (-5) "/a" true sampleQueryRun2 =
      { sampleQueryRun2 with mInFlightCnt := sampleQueryRun2.mInFlightCnt - 1 } :=
  (C13_canceled_is_neither_lost_nor_error sampleChunk (fun _ => true) (fun _ => "") (-5) "/a"
    sampleQueryRun2 rfl).1

/-- C14. The value `RunSelf` returns, for a lost count that is not
negative: it is `0` exactly when the error status is `0` and the lost count
is `0`; with the error status `0` and a positive lost count it is `-EINVAL`,
which is not `0`; and an error status other than `0` is returned as it is,
whatever the lost count. -/
theorem C14_final_status (theStatus mLostCount : Int) (hlost : 0 ≤ mLostCount) :
    (RunSelfReturn theStatus mLostCount = 0 ↔ theStatus = 0 ∧ mLostCount = 0) ∧
    (theStatus = 0 → 0 < mLostCount →
      RunSelfReturn theStatus mLostCount = -EINVAL ∧ RunSelfReturn theStatus mLostCount ≠ 0) ∧
    (theStatus ≠ 0 → RunSelfReturn theStatus mLostCount = theStatus) := by
  unfold RunSelfReturn EINVAL
  refine ⟨?_, ?_, ?_⟩
  · constructor
    · intro h
      split at h
      · rename_i h0
        split at h
        · omega
        · exact ⟨h0.symm, by omega⟩
      · rename_i h0
        exact absurd h.symm h0
    · rintro ⟨h1, h2⟩
      subst h1; subst h2
      simp
  · intro h1 h2
    subst h1
    simp [h2]
  · intro h
    have : ¬ (0 = theStatus) := fun h0 => h h0.symm
    simp [this]

/-- C14 with two lost files and no error. -/
theorem C14_final_status_witness :
    RunSelfReturn 0 2 = -EINVAL ∧ RunSelfReturn 0 2 ≠ 0 :=
  (C14_final_status 0 2 (by decide)).2.1 rfl (by decide)

/-- C15, the claim as stated fails: a run that found one lost file without
any error and a run with the error status `5` (a request completed with
`-5`) and no lost file both leave `Run` with the exit code `1`. -/
theorem C15_exit_codes_counterexample :
    Run 0 (RunSelfReturn 0 1) = 1 ∧ Run 0 (RunSelfReturn 5 0) = 1 ∧
    Run 0 (RunSelfReturn 0 1) = Run 0 (RunSelfReturn 5 0) := by
  decide

/-- C15, amended. The exit code of `Run` is `0` exactly when the
initialisation of the SSL library succeeded, the error status is `0` and no
lost file was found, and it is `1` in every other case: a run with an error
status and a run with lost files found and no error end with the same exit
code. The value `RunSelf` returns is `-EINVAL` for lost files found without
error and the error status otherwise; the two values are equal exactly when
the error status is `-EINVAL`. -/
theorem C15_exit_code_is_zero_or_one (theError theStatus mLostCount : Int) :
    (Run theError (RunSelfReturn theStatus mLostCount) = 0 ↔
      theError = 0 ∧ theStatus = 0 ∧ ¬ 0 < mLostCount) ∧
    (Run theError (RunSelfReturn theStatus mLostCount) = 0 ∨
      Run theError (RunSelfReturn theStatus mLostCount) = 1) ∧
    (theStatus = 0 → 0 < mLostCount →
      RunSelfReturn theStatus mLostCount = -EINVAL ∧
      Run theError (RunSelfReturn theStatus mLostCount) = 1) ∧
    (theStatus ≠ 0 →
      RunSelfReturn theStatus mLostCount = theStatus ∧
      Run theError (RunSelfReturn theStatus mLostCount) = 1) ∧
    (theStatus ≠ 0 → ∀ theLost : Int, 0 < theLost →
      Run theError (RunSelfReturn theStatus mLostCount) =
        Run theError (RunSelfReturn 0 theLost) ∧
      (RunSelfReturn theStatus mLostCount = RunSelfReturn 0 theLost ↔
        theStatus = -EINVAL)) := by
  have h4 : (Run theError (RunSelfReturn theStatus mLostCount) = 0 ↔
        theError = 0 ∧ theStatus = 0 ∧ ¬ 0 < mLostCount) ∧
      (Run theError (RunSelfReturn theStatus mLostCount) = 0 ∨
        Run theError (RunSelfReturn theStatus mLostCount) = 1) ∧
      (theStatus = 0 → 0 < mLostCount →
        RunSelfReturn theStatus mLostCount = -EINVAL ∧
        Run theError (RunSelfReturn theStatus mLostCount) = 1) ∧
      (theStatus ≠ 0 →
        RunSelfReturn theStatus mLostCount = theStatus ∧
        Run theError (RunSelfReturn theStatus mLostCount) = 1) := by
    unfold Run RunSelfReturn EINVAL
    by_cases he : theError = 0
    · by_cases hs : theStatus = 0
      · by_cases hl : 0 < mLostCount
        · simp [he, hs, hl]
        · simp [he, hs, hl]
      · have hs' : ¬ (0 = theStatus) := fun h => hs h.symm
        simp [he, hs, hs']
    · have he' : ¬ (0 = theError) := fun h => he h.symm
      by_cases hs : theStatus = 0
      · by_cases hl : 0 < mLostCount
        · simp [he, he', hs, hl]
        · simp [he, he', hs, hl]
      · have hs' : ¬ (0 = theStatus) := fun h => hs h.symm
        simp [he, he', hs, hs']
  obtain ⟨a1, a2, a3, a4⟩ := h4
  refine ⟨a1, a2, a3, a4, ?_⟩
  intro hs theLost hl
  have hlost : RunSelfReturn 0 theLost = -EINVAL := by
    unfold RunSelfReturn
    simp [hl]
  have hcode : ∀ v : Int, v ≠ 0 → Run theError v = 1 := by
    intro v hv
    have hv' : ¬ (0 = v) := fun h => hv h.symm
    unfold Run
    by_cases he : 0 = theError
    · simp [← he, hv']
    · have he' : theError ≠ 0 := fun h => he h.symm
      simp [he, he']
  rw [(a4 hs).1, hlost, hcode _ hs, hcode _ (by decide)]
  exact ⟨rfl, Iff.rfl⟩

/-- C15, amended, at two runs with an error and no lost file, compared
with a run that found one lost file: with the error status `5` the exit
codes agree and the values `RunSelf` returns differ; with the error status
`-EINVAL` the exit codes and the values `RunSelf` returns agree. -/
theorem C15_exit_code_is_zero_or_one_witness :
    Run 0 (RunSelfReturn 5 0) = Run 0 (RunSelfReturn 0 1) ∧
    RunSelfReturn 5 0 ≠ RunSelfReturn 0 1 ∧
    Run 0 (RunSelfReturn (-EINVAL) 0) = Run 0 (RunSelfReturn 0 1) ∧
    RunSelfReturn (-EINVAL) 0 = RunSelfReturn 0 1 :=
  ⟨((C15_exit_code_is_zero_or_one 0 5 0).2.2.2.2 (by decide) 1 (by decide)).1,
    fun h => absurd (((C15_exit_code_is_zero_or_one 0 5 0).2.2.2.2 (by decide) 1 (by decide)).2.1 h) (by decide),
    ((C15_exit_code_is_zero_or_one 0 (-EINVAL) 0).2.2.2.2 (by decide) 1 (by decide)).1,
    ((C15_exit_code_is_zero_or_one 0 (-EINVAL) 0).2.2.2.2 (by decide) 1 (by decide)).2.2 rfl⟩

/-- C17, amended. In query mode, completions delivered with the canceled
flag leave the error status, the lost count, the output and the cursor as
they are, so the value `RunSelf` returns after them is the one it would
return without them: `0` when no error was recorded and no lost file
reported, `-EINVAL` when lost files were reported without error, and a
recorded error status otherwise. A cancellation alone gives no error
status: the canceled completion of a request in the queue takes the request
off the queue, lowers the count of requests in flight by one and changes
nothing else. -/
theorem C17_canceled_requests_keep_status (CHUNKSIZE : Int)
    (getPathname : MetaFattr → String) (s : ObjStoreFsck) (events : List Event)
    (hq : s.mQueryFlag = true)
    (hall : ∀ e ∈ events, ∃ i status pathname enqueue,
      e = Event.done i status pathname true enqueue) :
    (events.foldl (runEvent CHUNKSIZE getPathname) s).mError = s.mError ∧
    (events.foldl (runEvent CHUNKSIZE getPathname) s).mLostCount = s.mLostCount ∧
    (events.foldl (runEvent CHUNKSIZE getPathname) s).cout = s.cout ∧
    RunSelfEnd 0 (events.foldl (runEvent CHUNKSIZE getPathname) s) = RunSelfEnd 0 s ∧
    (s.mError = 0 → ¬ 0 < s.mLostCount →
      RunSelfEnd 0 (events.foldl (runEvent CHUNKSIZE getPathname) s) = 0) ∧
    (∀ (i : Nat) (status : Int) (pathname : String) (enqueue : Nat → Bool),
      i < s.queue.length →
      runEvent CHUNKSIZE getPathname s (Event.done i status pathname true enqueue) =
        { s with queue := s.queue.eraseIdx i, mInFlightCnt := s.mInFlightCnt - 1 }) := by
  obtain ⟨h1, h2, h3, _⟩ := runEvents_canceled_frame CHUNKSIZE getPathname events s hq hall
  have hend : RunSelfEnd 0 (events.foldl (runEvent CHUNKSIZE getPathname) s) =
      RunSelfEnd 0 s := by
    unfold RunSelfEnd
    rw [h1, h2]
  refine ⟨h1, h2, h3, hend, ?_, ?_⟩
  · intro he hl
    rw [hend]
    unfold RunSelfEnd RunSelfReturn
    simp [he, hl]
  · intro i status pathname enqueue hi
    simp only [runEvent]
    rw [if_pos hi]
    exact OpDone_canceled _ _ _ _ _ { s with queue := s.queue.eraseIdx i } hq

/-- C17, amended, at the example run: the scan submits the requests for
the files A and C, both are outstanding when they are canceled, the one for
file C first; afterwards no request is in flight and `RunSelf` returns `0`. -/
theorem C17_canceled_requests_keep_status_witness :
    (runEvent sampleChunk (fun _ => "") sampleQueryRun2 (Event.scan (fun _ => true))).queue =
      [5, 7] ∧
    (runEvent sampleChunk (fun _ => "") sampleQueryRun2
      (Event.scan (fun _ => true))).mInFlightCnt = 2 ∧
    ([Event.done 1 (-5) "" true (fun _ => true),
        Event.done 0 (-5) "" true (fun _ => true)].foldl (runEvent sampleChunk (fun _ => ""))
      (runEvent sampleChunk (fun _ => "") sampleQueryRun2
        (Event.scan (fun _ => true)))).queue = [] ∧
    ([Event.done 1 (-5) "" true (fun _ => true),
        Event.done 0 (-5) "" true (fun _ => true)].foldl (runEvent sampleChunk (fun _ => ""))
      (runEvent sampleChunk (fun _ => "") sampleQueryRun2
        (Event.scan (fun _ => true)))).mInFlightCnt = 0 ∧
    RunSelfEnd 0
      ([Event.done 1 (-5) "" true (fun _ => true),
          Event.done 0 (-5) "" true (fun _ => true)].foldl (runEvent sampleChunk (fun _ => ""))
        (runEvent sampleChunk (fun _ => "") sampleQueryRun2
          (Event.scan (fun _ => true)))) = 0 := by
  have h := C17_canceled_requests_keep_status sampleChunk (fun _ => "")
    { sampleQueryRun2 with mInFlightCnt := 2, queue := [5, 7], mLeafIter := [] }
    [Event.done 1 (-5) "" true (fun _ => true), Event.done 0 (-5) "" true (fun _ => true)]
    rfl
    (by
      intro e he
      simp only [List.mem_cons, List.mem_singleton, List.not_mem_nil, or_false] at he
      rcases he with he | he
      · exact ⟨1, -5, "", fun _ => true, he⟩
      · exact ⟨0, -5, "", fun _ => true, he⟩)
  rw [sampleScan_accepted]
  refine ⟨rfl, rfl, ?_, ?_, h.2.2.2.2.1 rfl (by decide)⟩
  · rw [sampleCanceled]
  · rw [sampleCanceled]

/-- C16. In query mode with a bound `N > 0`, from no request in flight, over
every run of scanner calls and completions in which every enqueue is
accepted and no completion is canceled: the ids of the candidates flagged
lost ahead of the cursor at the start are exactly the ids submitted during
the run, in leaf order, followed by those of the flagged candidates still
ahead of the cursor, so no flagged candidate is skipped or submitted twice,
also where the scan stopped at the bound and resumed; the requests in the
queue are among the submissions, so with distinct file ids no id is queued
twice; and a run that starts with the scan `Next(0)` and ends with an empty
queue has submitted every flagged candidate. -/
theorem C16_each_flagged_submitted_once (CHUNKSIZE : Int) (getPathname : MetaFattr → String)
    (s0 : ObjStoreFsck) (events : List Event)
    (hq : s0.mQueryFlag = true) (hN : 0 < s0.mMaxInFlightCnt)
    (h0 : s0.mInFlightCnt = 0) (hqueue : s0.queue = [])
    (hall : ∀ e ∈ events, allAccepted e) :
    (lostCandidates CHUNKSIZE s0.heap s0.mLeafIter).map (fun f => f.id) =
      submissions CHUNKSIZE getPathname s0 events ++
        (lostCandidates CHUNKSIZE s0.heap
          (events.foldl (runEvent CHUNKSIZE getPathname) s0).mLeafIter).map (fun f => f.id) ∧
    (events.foldl (runEvent CHUNKSIZE getPathname) s0).queue.Sublist
      (submissions CHUNKSIZE getPathname s0 events) ∧
    (((lostCandidates CHUNKSIZE s0.heap s0.mLeafIter).map (fun f => f.id)).Nodup →
      (submissions CHUNKSIZE getPathname s0 events).Nodup ∧
      (events.foldl (runEvent CHUNKSIZE getPathname) s0).queue.Nodup) ∧
    (∀ enqueue rest, events = Event.scan enqueue :: rest →
      (events.foldl (runEvent CHUNKSIZE getPathname) s0).queue = [] →
      lostCandidates CHUNKSIZE s0.heap
          (events.foldl (runEvent CHUNKSIZE getPathname) s0).mLeafIter = [] ∧
        submissions CHUNKSIZE getPathname s0 events =
          (lostCandidates CHUNKSIZE s0.heap s0.mLeafIter).map (fun f => f.id)) := by
  obtain ⟨h1, h2, _, _⟩ := runEvents_accepting CHUNKSIZE getPathname events s0 hq hall
  rw [hqueue, List.nil_append] at h2
  refine ⟨h1, h2, ?_, ?_⟩
  · intro hnd
    rw [h1] at hnd
    have hs := (List.nodup_append.1 hnd).1
    exact ⟨hs, h2.nodup hs⟩
  · intro enqueue rest hev hempty
    subst hev
    obtain ⟨_, _, _, p3, _, p5, p6⟩ := runEvent_accepting CHUNKSIZE getPathname s0
      (Event.scan enqueue) hq (hall _ (List.mem_cons_self _ _))
    have hq1 : (runEvent CHUNKSIZE getPathname s0 (Event.scan enqueue)).mQueryFlag = true := by
      obtain ⟨_, _, _, _, r, _⟩ := runEvent_accepting CHUNKSIZE getPathname s0
        (Event.scan enqueue) hq (hall _ (List.mem_cons_self _ _))
      exact r
    obtain ⟨_, _, _, i4⟩ := runEvents_accepting CHUNKSIZE getPathname rest
      (runEvent CHUNKSIZE getPathname s0 (Event.scan enqueue)) hq1
      (fun e he => hall e (List.mem_cons_of_mem _ he))
    rw [p3, p5] at i4
    have hP := i4 (p6 (Or.inr ⟨enqueue, rfl⟩))
    obtain ⟨c1, _⟩ := runEvents_inflight CHUNKSIZE getPathname (Event.scan enqueue :: rest) s0 hq
      (by rw [h0, hqueue]; rfl) (by omega)
    rw [List.foldl_cons] at hempty c1 h1 ⊢
    rw [hempty] at c1
    have hnil : lostCandidates CHUNKSIZE s0.heap
        (rest.foldl (runEvent CHUNKSIZE getPathname)
          (runEvent CHUNKSIZE getPathname s0 (Event.scan enqueue))).mLeafIter = [] := by
      rcases hP with h | h
      · exact h
      · rw [c1] at h
        simp at h
        omega
    refine ⟨hnil, ?_⟩
    rw [h1, hnil]
    simp

/-- C18. In validation mode a call of `Next` walks the leaves from the
cursor to the end without stopping, leaves the count of requests in flight
and the queue as they are, adds to the lost count the number of candidates
whose verdict is lost, and writes one path per such candidate to the output,
in leaf order. -/
theorem C18_validation_scan (CHUNKSIZE : Int) (enqueue : Nat → Bool)
    (getPathname : MetaFattr → String) (s : ObjStoreFsck) (hq : s.mQueryFlag = false) :
    Next CHUNKSIZE enqueue getPathname false s =
      { s with
          mLeafIter := []
          mLostCount := s.mLostCount + (lostCandidates CHUNKSIZE s.heap s.mLeafIter).length
          cout := s.cout ++ (lostCandidates CHUNKSIZE s.heap s.mLeafIter).map getPathname } ∧
    (Next CHUNKSIZE enqueue getPathname false s).mLeafIter = [] ∧
    (Next CHUNKSIZE enqueue getPathname false s).mInFlightCnt = s.mInFlightCnt ∧
    (Next CHUNKSIZE enqueue getPathname false s).queue = s.queue ∧
    (Next CHUNKSIZE enqueue getPathname false s).mLostCount =
      s.mLostCount + (lostCandidates CHUNKSIZE s.heap s.mLeafIter).length ∧
    (Next CHUNKSIZE enqueue getPathname false s).cout =
      s.cout ++ (lostCandidates CHUNKSIZE s.heap s.mLeafIter).map getPathname ∧
    (∀ f ∈ lostCandidates CHUNKSIZE s.heap s.mLeafIter,
      Meta.fattr f ∈ s.mLeafIter ∧ isCandidate f = true ∧ isLost CHUNKSIZE s.heap f = true) := by
  have h := NextLoop_validation CHUNKSIZE enqueue getPathname s.mLeafIter false s hq
  unfold Next
  rw [h]
  refine ⟨rfl, rfl, rfl, rfl, rfl, rfl, ?_⟩
  generalize s.mLeafIter = leaves
  induction leaves with
  | nil => intro f hf; simp [lostCandidates] at hf
  | cons m rest ih =>
    intro f hf
    cases m with
    | other =>
      rw [lostCandidates] at hf
      exact ⟨List.mem_cons_of_mem _ (ih f hf).1, (ih f hf).2⟩
    | fattr g =>
      rw [lostCandidates] at hf
      split at hf
      · rename_i hfl
        rcases List.mem_cons.1 hf with rfl | hf
        · simp only [isFlagged, Bool.and_eq_true] at hfl
          exact ⟨List.mem_cons_self _ _, hfl.1, hfl.2⟩
        · exact ⟨List.mem_cons_of_mem _ (ih f hf).1, (ih f hf).2⟩
      · exact ⟨List.mem_cons_of_mem _ (ih f hf).1, (ih f hf).2⟩

/-- C18 at the example tree in validation mode, from the first leaf: the
files A and C are reported, in this order. -/
theorem C18_validation_scan_witness :
    (Next sampleChunk (fun _ => true) (fun f => if f.id = 5 then "/A" else "/C") false
      { sampleRun with mLeafIter := sampleRun.metatree }).cout = ["/A", "/C"] ∧
    (Next sampleChunk (fun _ => true) (fun f => if f.id = 5 then "/A" else "/C") false
      { sampleRun with mLeafIter := sampleRun.metatree }).mLostCount = 2 ∧
    (Next sampleChunk (fun _ => true) (fun f => if f.id = 5 then "/A" else "/C") false
      { sampleRun with mLeafIter := sampleRun.metatree }).mInFlightCnt = 0 := by
  obtain ⟨_, _, h3, _, h5, h6, _⟩ := C18_validation_scan sampleChunk (fun _ => true)
    (fun f => if f.id = 5 then "/A" else "/C")
    { sampleRun with mLeafIter := sampleRun.metatree } rfl
  rw [h3, h5, h6]
  simp only []
  rw [sample_lostCandidates]
  decide

/-- C16 at the example run with the bound 1: the scan submits file A and
stops at file C, the completion for A resumes the scan, which submits C, and
the completion for C empties the queue; the submissions are the ids of A
and C, once each. -/
theorem C16_each_flagged_submitted_once_witness :
    submissions sampleChunk (fun _ => "") sampleQueryRun
      [Event.scan (fun _ => true), Event.done 0 0 "/A" false (fun _ => true),
        Event.done 0 0 "/C" false (fun _ => true)] = [fileA.id, fileC.id] := by
  have h := (C16_each_flagged_submitted_once sampleChunk (fun _ => "") sampleQueryRun
    [Event.scan (fun _ => true), Event.done 0 0 "/A" false (fun _ => true),
      Event.done 0 0 "/C" false (fun _ => true)] rfl (by decide) rfl rfl
    (by
      intro e he
      simp only [List.mem_cons, List.mem_singleton, List.not_mem_nil, or_false] at he
      rcases he with rfl | rfl | rfl
      · exact fun _ => rfl
      · exact ⟨rfl, fun _ => rfl⟩
      · exact ⟨rfl, fun _ => rfl⟩)).2.2.2 _ _ rfl (by rw [sampleBoundedRun])
  rw [h.2]
  show List.map _ (lostCandidates sampleChunk _ sampleRun.metatree) = _
  rw [sample_lostCandidates]
  rfl

/-- C19. A key that passes the position checks of the ingest loop (position
not negative, a multiple of `CHUNKSIZE`, not past `nextChunkOffset`)
addresses a block index below 64 when the file is in inline mode, so the
mask `1 << theIdx` is the single bit `2 ^ theIdx` of the 64 bit slot, and
below `1 + nextChunkOffset / CHUNKSIZE` when the file is in overflow mode,
which is the length of its bit vector in a well formed free store; and the
scan of a bit vector in `Next` reads only indices below the length of the
vector and ends at most there. -/
theorem C19_indices_in_range (CHUNKSIZE : Int) (hCS : 0 < CHUNKSIZE) (g : MetaFattr)
    (v : Int) (hpos : posOk CHUNKSIZE g v) :
    (HasBitmapSet CHUNKSIZE g = false →
      (Int.tdiv (blockPos g v) CHUNKSIZE).toNat < 64 ∧
      bitOf (Int.tdiv (blockPos g v) CHUNKSIZE).toNat =
        2 ^ (Int.tdiv (blockPos g v) CHUNKSIZE).toNat) ∧
    (HasBitmapSet CHUNKSIZE g = true →
      (Int.tdiv (blockPos g v) CHUNKSIZE).toNat <
        (1 + Int.tdiv g.nextChunkOffset CHUNKSIZE).toNat ∧
      (Int.tdiv (blockPos g v) CHUNKSIZE).toNat <
        (List.replicate (1 + Int.tdiv g.nextChunkOffset CHUNKSIZE).toNat false).length ∧
      ∀ (s : ObjStoreFsck) (fid : Int), HeapInv CHUNKSIZE s →
        getFattr s.metatree fid = some g → isCandidate g = true → g.chunkcount ≠ 0 →
        (Int.tdiv (blockPos g v) CHUNKSIZE).toNat < (deref s.heap g.chunkcount).length) ∧
    (∀ (bm : BlocksBitmap) (j : Nat), j ∈ bitmapReads bm 0 → j < bm.length) ∧
    (∀ bm : BlocksBitmap, bitmapScan bm 0 ≤ bm.length) := by
  have hle := idx_le_last hCS hpos
  refine ⟨?_, ?_, ?_, ?_⟩
  · intro hinl
    have h64 := idx_lt_64 hCS hinl hle
    exact ⟨h64, bitOf_lt h64⟩
  · intro hb
    have hlt : (Int.tdiv (blockPos g v) CHUNKSIZE).toNat <
        (1 + Int.tdiv g.nextChunkOffset CHUNKSIZE).toNat := by omega
    refine ⟨hlt, by rw [List.length_replicate]; exact hlt, ?_⟩
    intro s fid hinv hg hc hp
    rw [(hinv fid g hg hc hb hp).2.1]
    exact hlt
  · intro bm j hj
    exact bitmapReads_lt bm _ 0 rfl j hj
  · intro bm
    obtain ⟨_, _, _, h⟩ := bitmapScan_spec bm _ 0 rfl
    simpa using h

/-- C19 at the key of block 64 of file C, which is in overflow mode. -/
theorem C19_indices_in_range_witness :
    (Int.tdiv (blockPos fileC (-(64 * 67108864 + 1))) sampleChunk).toNat <
      (1 + Int.tdiv fileC.nextChunkOffset sampleChunk).toNat :=
  ((C19_indices_in_range sampleChunk (by decide) fileC (-(64 * 67108864 + 1))
    (by decide)).2.1 (by decide)).1

/-- C20. For a last block index `L` and marked indices `S` within `0 .. L`:
the scan of the bit vector of length `L + 1` that holds `S` returns the
least index not in `S`, which is at most `L + 1`; for `L ≤ 63` the scan of
the 64 bit mask of `S` up to `L` returns that least index too, so both
scans return the same index; and these scans are what `Next` computes as
`theMissingIdx` for a file with `nextChunkOffset / CHUNKSIZE = L` whose
slot holds the mask, or the address of the vector. -/
theorem C20_first_gap_is_least_unmarked (L : Nat) (S : List Nat) (hS : ∀ i ∈ S, i ≤ L) :
    (bitmapScan (vectorOf L S) 0 ∉ S ∧ bitmapScan (vectorOf L S) 0 ≤ L + 1 ∧
      ∀ j, j < bitmapScan (vectorOf L S) 0 → j ∈ S) ∧
    (L ≤ 63 →
      inlineScan (maskOf S) L 0 1 ∉ S ∧ inlineScan (maskOf S) L 0 1 ≤ L + 1 ∧
      (∀ j, j < inlineScan (maskOf S) L 0 1 → j ∈ S) ∧
      inlineScan (maskOf S) L 0 1 = bitmapScan (vectorOf L S) 0) ∧
    (∀ (CHUNKSIZE : Int) (heap : List BlocksBitmap) (f : MetaFattr),
      Int.tdiv f.nextChunkOffset CHUNKSIZE = L →
      (HasBitmapSet CHUNKSIZE f = false → f.chunkcount = maskOf S →
        missingIdx CHUNKSIZE heap f = inlineScan (maskOf S) L 0 1) ∧
      (HasBitmapSet CHUNKSIZE f = true → f.chunkcount ≠ 0 →
        deref heap f.chunkcount = vectorOf L S →
        missingIdx CHUNKSIZE heap f = bitmapScan (vectorOf L S) 0)) := by
  have hvec : ∀ j, (vectorOf L S).getD j false = decide (j ∈ S) := by
    intro j
    unfold vectorOf
    rw [(getD_foldl_set S _ j).1, List.length_replicate, List.getD_eq_getElem?_getD,
      List.getElem?_replicate]
    by_cases hj : j ∈ S
    · have := hS j hj
      have hlt : j < L + 1 := by omega
      simp [hj, hlt]
    · simp [hj]
      split <;> rfl
  have hlen : (vectorOf L S).length = L + 1 := by
    unfold vectorOf
    rw [(getD_foldl_set S _ 0).2, List.length_replicate]
  obtain ⟨_, b2, b3, b4⟩ := bitmapScan_spec (vectorOf L S) _ 0 rfl
  have hb1 : bitmapScan (vectorOf L S) 0 ∉ S := by
    rw [hvec] at b3
    simpa using b3
  have hb2 : bitmapScan (vectorOf L S) 0 ≤ L + 1 := by
    rw [hlen] at b4
    simpa using b4
  have hb3 : ∀ j, j < bitmapScan (vectorOf L S) 0 → j ∈ S := by
    intro j hj
    have := b2 j (Nat.zero_le _) hj
    rw [hvec] at this
    simpa using this
  refine ⟨⟨hb1, hb2, hb3⟩, ?_, ?_⟩
  · intro hL
    have hS64 : ∀ i ∈ S, i < 64 := fun i hi => by have := hS i hi; omega
    have hmask : ∀ j, maskOf S &&& bitOf j ≠ 0 ↔ j ∈ S := by
      intro j
      rw [and_bitOf_ne_zero]
      unfold maskOf
      rw [testBit_foldl_or S hS64]
      simp only [Nat.zero_testBit, Bool.false_or, decide_eq_true_iff]
      constructor
      · exact fun h => h.2
      · exact fun h => ⟨hS64 j h, h⟩
    have hi := inlineScan_spec (maskOf S) L _ 0 rfl
    rw [bitOf_zero] at hi
    obtain ⟨_, i2, i3⟩ := hi
    have hi1 : inlineScan (maskOf S) L 0 1 ∉ S := by
      intro hmem
      apply i3
      refine ⟨?_, (hmask _).2 hmem⟩
      exact_mod_cast hS _ hmem
    have hi3 : ∀ j, j < inlineScan (maskOf S) L 0 1 → j ∈ S :=
      fun j hj => (hmask j).1 (i2 j (Nat.zero_le _) hj).2
    have hi2 : inlineScan (maskOf S) L 0 1 ≤ L + 1 := by
      by_contra hgt
      have := hS _ (hi3 (L + 1) (by omega))
      omega
    refine ⟨hi1, hi2, hi3, ?_⟩
    by_contra hne
    rcases Nat.lt_or_gt_of_ne hne with hlt | hgt
    · exact hi1 (hb3 _ hlt)
    · exact hb1 (hi3 _ hgt)
  · intro CHUNKSIZE heap f hL
    constructor
    · intro hinl hcc
      unfold missingIdx
      rw [hinl, hcc, hL]
      simp
    · intro hb hp hd
      unfold missingIdx
      rw [hb]
      simp [GetBitmapPtr, hp, hd]

/-- C20 with the last block index 2 and the marks 2 and 0: both scans
return the index 1. -/
theorem C20_first_gap_is_least_unmarked_witness :
    bitmapScan (vectorOf 2 [2, 0]) 0 = 1 ∧ inlineScan (maskOf [2, 0]) 2 0 1 = 1 := by
  obtain ⟨⟨h1, _, h3⟩, h4, _⟩ := C20_first_gap_is_least_unmarked 2 [2, 0] (by decide)
  have hb : bitmapScan (vectorOf 2 [2, 0]) 0 = 1 := by
    by_contra hne
    rcases Nat.lt_or_gt_of_ne hne with hlt | hgt
    · have h0 : bitmapScan (vectorOf 2 [2, 0]) 0 = 0 := by omega
      rw [h0] at h1
      exact h1 (by decide)
    · exact absurd (h3 1 hgt) (by decide)
  exact ⟨hb, (h4 (by decide)).2.2.2.trans hb⟩

/-- C21: no call of the scanner `Next` and no call of the completion
handler `OpDone`, in query mode or in validation mode, changes the tree
(hence the `chunkcount` of any file) or the free store (hence any bit
vector), and the cursor only moves forward over the leaves it had. So after
any sequence of scans and completions the missing index, the verdict and
the flag of every file are what they were before, a cursor into the tree is
still a cursor into the tree, and the leaf at which a call of `Next` stopped
is a flagged candidate that is still flagged whenever the scan is resumed. -/
theorem C21_scan_is_read_only (CHUNKSIZE : Int) (getPathname : MetaFattr → String)
    (s : ObjStoreFsck) :
    (∀ (enqueue : Nat → Bool) (hasOp : Bool),
      (Next CHUNKSIZE enqueue getPathname hasOp s).metatree = s.metatree ∧
      (Next CHUNKSIZE enqueue getPathname hasOp s).heap = s.heap ∧
      (Next CHUNKSIZE enqueue getPathname hasOp s).mLeafIter <:+ s.mLeafIter) ∧
    (∀ (enqueue : Nat → Bool) (status : Int) (pathname : String) (canceled : Bool),
      (OpDone CHUNKSIZE enqueue getPathname status pathname canceled s).metatree =
        s.metatree ∧
      (OpDone CHUNKSIZE enqueue getPathname status pathname canceled s).heap = s.heap ∧
      (OpDone CHUNKSIZE enqueue getPathname status pathname canceled s).mLeafIter <:+
        s.mLeafIter) ∧
    (∀ es : List Event,
      (es.foldl (runEvent CHUNKSIZE getPathname) s).metatree = s.metatree ∧
      (es.foldl (runEvent CHUNKSIZE getPathname) s).heap = s.heap ∧
      (es.foldl (runEvent CHUNKSIZE getPathname) s).mLeafIter <:+ s.mLeafIter ∧
      (s.mLeafIter <:+ s.metatree →
        (es.foldl (runEvent CHUNKSIZE getPathname) s).mLeafIter <:+
          (es.foldl (runEvent CHUNKSIZE getPathname) s).metatree) ∧
      ∀ f : MetaFattr,
        missingIdx CHUNKSIZE (es.foldl (runEvent CHUNKSIZE getPathname) s).heap f =
          missingIdx CHUNKSIZE s.heap f ∧
        isLost CHUNKSIZE (es.foldl (runEvent CHUNKSIZE getPathname) s).heap f =
          isLost CHUNKSIZE s.heap f ∧
        isFlagged CHUNKSIZE (es.foldl (runEvent CHUNKSIZE getPathname) s).heap f =
          isFlagged CHUNKSIZE s.heap f) ∧
    (∀ (enqueue : Nat → Bool) (hasOp : Bool) (m : Meta) (rest : List Meta),
      (Next CHUNKSIZE enqueue getPathname hasOp s).mLeafIter = m :: rest →
      ∃ f : MetaFattr, m = Meta.fattr f ∧ s.mQueryFlag = true ∧
        isFlagged CHUNKSIZE s.heap f = true ∧
        ∀ es : List Event,
          isFlagged CHUNKSIZE
            (es.foldl (runEvent CHUNKSIZE getPathname)
              (Next CHUNKSIZE enqueue getPathname hasOp s)).heap f = true) := by
  refine ⟨?_, ?_, ?_, ?_⟩
  · intro enqueue hasOp
    exact Next_frame CHUNKSIZE enqueue getPathname hasOp s
  · intro enqueue status pathname canceled
    exact OpDone_frame CHUNKSIZE enqueue getPathname status pathname canceled s
  · intro es
    obtain ⟨h1, h2, h3⟩ := runEvents_frame CHUNKSIZE getPathname es s
    refine ⟨h1, h2, h3, ?_, ?_⟩
    · intro hc
      rw [h1]
      exact h3.trans hc
    · intro f
      rw [h2]
      exact ⟨rfl, rfl, rfl⟩
  · intro enqueue hasOp m rest hm
    have hcur := (NextLoop_cursor CHUNKSIZE enqueue getPathname s.mLeafIter hasOp s).2
    have hm1 : (NextLoop CHUNKSIZE enqueue getPathname s.mLeafIter hasOp s).mLeafIter =
        m :: rest := hm
    rcases hcur with h0 | ⟨f, rest1, hf, hq, hfl⟩
    · rw [h0] at hm1
      exact absurd hm1 (by simp)
    · rw [hf] at hm1
      have hmf : Meta.fattr f = m := (List.cons.inj hm1).1
      refine ⟨f, hmf.symm, hq, hfl, ?_⟩
      intro es
      rw [(runEvents_frame CHUNKSIZE getPathname es _).2.1,
        (Next_frame CHUNKSIZE enqueue getPathname hasOp s).2.1]
      exact hfl

/-- C21 on the example run with at most one request in flight: the scan
submits file A and stops at file C; a canceled completion later, the tree
and the free store are the same, the cursor is still at file C, and file C
is still flagged. -/
theorem C21_scan_is_read_only_witness :
    (Next sampleChunk (fun _ => true) (fun _ => "") false sampleQueryRun).mLeafIter =
      [Meta.fattr fileC] ∧
    ([Event.done 0 (-5) "" true (fun _ => true)].foldl (runEvent sampleChunk (fun _ => ""))
      (Next sampleChunk (fun _ => true) (fun _ => "") false sampleQueryRun)).metatree =
      sampleQueryRun.metatree ∧
    ([Event.done 0 (-5) "" true (fun _ => true)].foldl (runEvent sampleChunk (fun _ => ""))
      (Next sampleChunk (fun _ => true) (fun _ => "") false sampleQueryRun)).heap =
      sampleQueryRun.heap ∧
    isFlagged sampleChunk
      ([Event.done 0 (-5) "" true (fun _ => true)].foldl (runEvent sampleChunk (fun _ => ""))
        (Next sampleChunk (fun _ => true) (fun _ => "") false sampleQueryRun)).heap fileC =
      true := by
  have hstop : (Next sampleChunk (fun _ => true) (fun _ => "") false sampleQueryRun).mLeafIter =
      [Meta.fattr fileC] := by
    have h := sampleStep1
    simp only [runEvent] at h
    rw [h]
  obtain ⟨hN, _, hE, hS⟩ := C21_scan_is_read_only sampleChunk (fun _ => "") sampleQueryRun
  obtain ⟨f, hf, _, _, hlater⟩ := hS (fun _ => true) false (Meta.fattr fileC) [] hstop
  have hfC : fileC = f := Meta.fattr.inj hf
  obtain ⟨hN1, hN2, _⟩ := hN (fun _ => true) false
  obtain ⟨hE1, hE2, _⟩ := (C21_scan_is_read_only sampleChunk (fun _ => "")
    (Next sampleChunk (fun _ => true) (fun _ => "") false sampleQueryRun)).2.2.1
    [Event.done 0 (-5) "" true (fun _ => true)]
  refine ⟨hstop, hE1.trans hN1, hE2.trans hN2, ?_⟩
  rw [hfC]
  exact hlater _

end KFS
